import Mathlib

/-!
Shallow embedding of the Pinak game server core (src/pinak-server/index.js).

The server keeps one mutable game object per room and mutates it in socket
handlers.  We embed the core rules engine: the card model, run validation and
normalization (`validRun`, `normalizeRun`), the mandatory-meld house-rule
oracle (`canOpenAnyRunFromHand`, `canAddAnyCardToAllowedRuns`,
`mustPlayAllMeldsNow`), the turn state machine (one function per socket
handler, returning `Option Game`: `none` models the handler returning early
with no mutation), and the scoring engine (`scoreRound`, `checkWin`).

Modelling notes, matching the JavaScript source:
* Card ids are uuid strings; JavaScript truthiness checks on ids are modelled
  as inequality with the empty string.
* JavaScript numbers sent by clients (count, index, runIndex) are modelled as
  `Int`; `null`/missing payload fields are rejected by the same guards that
  reject out-of-range numbers in the source.
* `Array.prototype.sort` on numbers is a stable sort; we use
  `List.insertionSort`, also stable, with the same key.
* The source file declares `mustPlayAllMeldsNow` twice (lines 190 and 335);
  function hoisting makes the second declaration the one in effect for every
  call site, so only the second (together with its helpers
  `canOpenAnyRunFromHand` and `canAddAnyCardToAllowedRuns`) is embedded;
  `hasPureRun` and `canAddToAnyRun` from the first revision are dead code.
* `emit` (per-recipient hand masking and the `syncTeams` display refresh) is
  presentation-layer fan-out and is not part of the state transition.
-/

/- ---------- CONSTANTS / CARD MODEL ---------- -/

/-- Ranks of the physical deck.  `two` is the wildcard ("joker") rank; it is
excluded from the run order `3 < 4 < ... < K < A` (the `ORDER` array). -/
inductive Rank where
  | rA | r2 | r3 | r4 | r5 | r6 | r7 | r8 | r9 | r10 | rJ | rQ | rK
deriving DecidableEq, Repr, Fintype

/-- The four suits. -/
inductive Suit where
  | spades | hearts | diamonds | clubs
deriving DecidableEq, Repr

/-- A physical card: unique uuid, rank, suit and point value, as built by
`buildDeck` (`points` is `2` for A and 2, else `1`). -/
structure Card where
  id : String
  value : Rank
  suit : Suit
  points : Nat
deriving DecidableEq, Repr

/-- `INDEX`: position of a rank in the `ORDER` array `3,4,...,10,J,Q,K,A`.
The source never applies `INDEX` to the wildcard rank "2" (every use site
filters wildcards out first); we map it to `0`, an arbitrary value. -/
def rankIdx : Rank → Int
  | Rank.r3 => 0 | Rank.r4 => 1 | Rank.r5 => 2 | Rank.r6 => 3
  | Rank.r7 => 4 | Rank.r8 => 5 | Rank.r9 => 6 | Rank.r10 => 7
  | Rank.rJ => 8 | Rank.rQ => 9 | Rank.rK => 10 | Rank.rA => 11
  | Rank.r2 => 0

/-- Test `c.value === "2"` used throughout the source. -/
def isJoker (c : Card) : Bool := c.value = Rank.r2

/-- Cards of a list that are not wildcards (`cards.filter(c => c.value !== "2")`). -/
def realCards (cards : List Card) : List Card :=
  cards.filter (fun c => !(isJoker c))

/-- Sorted rank indices of the non-wildcard cards
(`real.map(c => INDEX[c.value]).sort((a,b) => a-b)`). -/
def sortedRealIdx (cards : List Card) : List Int :=
  List.insertionSort (· ≤ ·) ((realCards cards).map (fun c => rankIdx c.value))

/-- The gap-summing loop of `validRun`: walk consecutive pairs of the sorted
index list, `diff = idx[i] - idx[i-1] - 1`; a negative diff aborts (`return
false`, modelled as `none`), otherwise the diffs are summed. -/
def gapSum : List Int → Option Int
  | [] => some 0
  | [_] => some 0
  | a :: b :: rest =>
      let diff := b - a - 1
      if diff < 0 then none
      else (gapSum (b :: rest)).map (· + diff)

/- ---------- RUN VALIDATION ---------- -/

/-- `validRun(cards)` from the source: at least 3 cards, at most 1 joker, at
least 2 real cards, all real cards of one suit, and the sum of gaps of the
sorted real rank indices (negative diff rejects) at most the joker count. -/
def validRun (cards : List Card) : Bool :=
  if cards.length < 3 then false
  else
    let real := realCards cards
    let jokers := cards.length - real.length
    if jokers > 1 then false
    else if real.length < 2 then false
    else
      match real with
      | [] => false
      | r0 :: _ =>
        if ¬ real.all (fun c => c.suit = r0.suit) then false
        else
          match gapSum (sortedRealIdx cards) with
          | none => false
          | some gaps => gaps ≤ (jokers : Int)

section ValidRunSanity

/-- 3♠ with some uuid. -/
def c3s : Card := ⟨"a3", Rank.r3, Suit.spades, 1⟩

def c4s : Card := ⟨"a4", Rank.r4, Suit.spades, 1⟩

def c5s : Card := ⟨"a5", Rank.r5, Suit.spades, 1⟩

def c7s : Card := ⟨"a7", Rank.r7, Suit.spades, 1⟩

def c4h : Card := ⟨"b4", Rank.r4, Suit.hearts, 1⟩

/-- A wildcard card (rank 2). -/
def cJok : Card := ⟨"w1", Rank.r2, Suit.hearts, 2⟩

example : validRun [c3s, c4s, c5s] = true := by decide

example : validRun [c3s, c5s, cJok] = true := by decide

example : validRun [c3s, c4h, c5s] = false := by decide

example : validRun [c3s, c4s, ⟨"x", Rank.r4, Suit.spades, 1⟩] = false := by decide

example : validRun [c3s, c4s] = false := by decide

example : validRun [c3s, c7s, cJok] = false := by decide

end ValidRunSanity

/- ---------- RUN NORMALIZATION (joker placement) ---------- -/

/-- `jokerPool.pop()`: JavaScript `pop` removes and returns the LAST element;
`none` models `undefined` on an empty array. -/
def popLast (l : List Card) : Option (Card × List Card) :=
  match l.getLast? with
  | none => none
  | some c => some (c, l.dropLast)

/-- The real cards sorted ascending by rank index
(`cards.filter(c => c.value !== "2").sort((a,b) => INDEX[a.value]-INDEX[b.value])`). -/
def sortedReals (cards : List Card) : List Card :=
  List.insertionSort (fun a b => rankIdx a.value ≤ rankIdx b.value) (realCards cards)

/-- `realByIdx.get(i)` where `realByIdx = new Map(realIdx.map((idx,i) => [idx,
real[i]]))`: a JavaScript Map keeps the LAST entry for a duplicated key, hence
the search over the reversed list. -/
def realByIdx (real : List Card) (i : Int) : Option Card :=
  real.reverse.find? (fun c => rankIdx c.value = i)

/-- The integer range `min, min+1, ..., min+n-1` walked by the `for (let i =
min; i <= max; i++)` loop. -/
def intRange (lo : Int) : Nat → List Int
  | 0 => []
  | n + 1 => lo :: intRange (lo + 1) n

/-- The slot-filling loop of `normalizeRun`: for each index of the span, push
the real card at that index if there is one, else pop a joker from the pool.
Popping an empty pool in the source pushes `undefined` and the final `.map`
over the result would throw; this is modelled as `none` (it is unreachable
when `validRun` holds). -/
def fillSlots (byIdx : Int → Option Card) : List Int → List Card →
    Option (List Card × List Card)
  | [], pool => some ([], pool)
  | i :: rest, pool =>
    match byIdx i with
    | some c =>
      match fillSlots byIdx rest pool with
      | some (out, p) => some (c :: out, p)
      | none => none
    | none =>
      match popLast pool with
      | none => none
      | some (c, pool2) =>
        match fillSlots byIdx rest pool2 with
        | some (out, p) => some (c :: out, p)
        | none => none

/-- Joker with its suit cosmetically rewritten to the run suit
(`out.map(c => c.value === "2" ? { ...c, suit } : c)`). -/
def setJokerSuit (suit : Suit) (c : Card) : Card :=
  if isJoker c then { c with suit := suit } else c

/-- `normalizeRun(cards)` from the source (its comment assumes
`validRun(cards)` is true): sort the real cards by rank, walk the span
`[min..max]` of their indices placing each real card at its index and a popped
joker at each gap, append the unconsumed jokers (in pop order), and repaint
joker suits to the run suit.  `none` models the crash on pool exhaustion,
unreachable for valid runs. -/
def normalizeRun (cards : List Card) : Option (List Card) :=
  let jokers := cards.filter (fun c => isJoker c)
  let real := sortedReals cards
  match real with
  | [] => some cards
  | r0 :: _ =>
    let suit := r0.suit
    let realIdx := real.map (fun c => rankIdx c.value)
    match realIdx.head?, realIdx.getLast? with
    | some lo, some hi =>
      match fillSlots (realByIdx real) (intRange lo (hi + 1 - lo).toNat) jokers with
      | none => none
      | some (out, poolLeft) =>
        some ((out ++ poolLeft.reverse).map (setJokerSuit suit))
    | _, _ => some cards

section NormalizeSanity

example : normalizeRun [c5s, c3s, cJok] =
    some [c3s, { cJok with suit := Suit.spades }, c5s] := by decide

example : normalizeRun [c4s, c3s, c5s, cJok] =
    some [c3s, c4s, c5s, { cJok with suit := Suit.spades }] := by decide

end NormalizeSanity

/- ---------- HOUSE RULE ORACLE ---------- -/

/-- Inner loop of `canOpenAnyRunFromHand` (`for (let j = i+1; j < n; j++)`):
`prev` is `idx[j-1]`, `gaps` the accumulated gap sum, `rc` the real count
`j - i` so far; the loop breaks as soon as `gaps > jokers` and returns true as
soon as `realCount >= 2 && realCount + jokers >= 3`. -/
def scanInner (jokers : Int) : Int → Int → Int → List Int → Bool
  | _, _, _, [] => false
  | prev, gaps, rc, x :: rest =>
    let gaps2 := gaps + (x - prev - 1)
    if jokers < gaps2 then false
    else
      let rc2 := rc + 1
      if 2 ≤ rc2 ∧ 3 ≤ rc2 + jokers then true
      else scanInner jokers x gaps2 rc2 rest

/-- Outer loop of `canOpenAnyRunFromHand` (`for (let i = 0; i < n; i++)`):
try every start position of the sorted index list. -/
def scanOuter (jokers : Int) : List Int → Bool
  | [] => false
  | x :: rest => scanInner jokers x 0 1 rest || scanOuter jokers rest

/-- Rank indices of the non-joker cards of one suit, in hand order
(`realBySuit[c.suit].push(INDEX[c.value])`). -/
def suitIdxList (hand : List Card) (s : Suit) : List Int :=
  (hand.filter (fun c => ¬ isJoker c ∧ c.suit = s)).map (fun c => rankIdx c.value)

/-- `canOpenAnyRunFromHand(hand)` from the source: scan, per suit, every
window of the ascending-sorted real rank indices for one with at least 2 real
cards, gap total at most the number of jokers in hand, and real count plus
joker count at least 3. -/
def canOpenAnyRunFromHand (hand : List Card) : Bool :=
  if hand.length < 3 then false
  else
    let jokers : Int := (hand.filter (fun c => isJoker c)).length
    [Suit.spades, Suit.hearts, Suit.diamonds, Suit.clubs].any (fun s =>
      let idx := List.insertionSort (· ≤ ·) (suitIdxList hand s)
      decide (2 ≤ idx.length) && scanOuter jokers idx)

/- ---------- GAME STATE ---------- -/

/-- One player record, as created by `createRoom` / `joinRoom`.  `id` is the
live socket id (rebound on reconnect), `pid` the stable persistent id. -/
structure Player where
  id : String
  pid : String
  team : Option Nat
  hand : List Card
  openedSets : List (List Card)
  opened : Bool
  mustDiscard : Bool
  canDiscard : Bool
  score : Int
  noDiscardCardId : Option String
deriving DecidableEq, Repr

/-- One room's game object.  `openPile` is the source's `open` (a Lean
keyword), stored bottom-to-top (top = last element, as `push`/`pop`/`splice(-n)`
work on the array tail); `closed` likewise has its top at the last element.
The informational `log`, display `teams` object and player names are
presentation-only and not modelled. -/
structure Game where
  teamMode : Bool
  dealerIndex : Nat
  teamScores : Option (Int × Int)
  players : List Player
  closed : List Card
  openPile : List Card
  turn : Nat
  roundOver : Bool
  winner : Option String
  winnerPid : Option String
  gameOver : Bool
deriving DecidableEq, Repr

/-- The owners whose runs the player may extend: everyone on the same team in
team mode, only the player themself otherwise. -/
def allowedOwners (g : Game) (me : Player) : List Player :=
  if g.teamMode then g.players.filter (fun p => p.team = me.team) else [me]

/-- `canAddAnyCardToAllowedRuns(g, me)` from the source: the player must have
opened and hold cards; then some single hand card must extend some run of an
allowed owner into a `validRun`, where a joker may not be tried on a run that
has no joker. -/
def canAddAnyCardToAllowedRuns (g : Game) (me : Player) : Bool :=
  if ¬ me.opened then false
  else if me.hand.length = 0 then false
  else
    (allowedOwners g me).any (fun owner =>
      owner.openedSets.any (fun run =>
        let runHasJoker := run.any (fun c => isJoker c)
        me.hand.any (fun card =>
          if isJoker card ∧ ¬ runHasJoker then false
          else validRun (run ++ [card]))))

/-- `mustPlayAllMeldsNow(g, p)` — the SECOND declaration (source lines
335-349), the one in effect after hoisting: activates only when the closed
pile is empty, the open pile non-empty and the player has drawn this turn;
then it fires if the player could open per `canOpenAnyRunFromHand` or add per
`canAddAnyCardToAllowedRuns`. -/
def mustPlayAllMeldsNow (g : Game) (p : Player) : Bool :=
  if g.closed.length ≠ 0 then false
  else if g.openPile.length = 0 then false
  else if ¬ p.canDiscard then false
  else canOpenAnyRunFromHand p.hand || canAddAnyCardToAllowedRuns g p

/- ---------- SCORING ENGINE ---------- -/

/-- Sum of point values of all cards across a player's opened runs
(`p.openedSets.flat().reduce((s,c) => s + (c.points || 0), 0)`). -/
def openedPts (p : Player) : Int :=
  ((p.openedSets.flatten).map (fun c => (c.points : Int))).sum

/-- Sum of point values of the player's remaining hand. -/
def handPts (p : Player) : Int :=
  (p.hand.map (fun c => (c.points : Int))).sum

/-- The winner's stable identity as resolved by `scoreRound`:
`g.winnerPid ?? (g.winner ? g.players.find(pp => pp.id === g.winner)?.pid : null)`. -/
def resolvedWinnerPid (g : Game) : Option String :=
  match g.winnerPid with
  | some x => some x
  | none =>
    match g.winner with
    | some w => if w = "" then none else (g.players.find? (fun pp => pp.id = w)).map (·.pid)
    | none => none

/-- `isWinner` inside `scoreRound`: `winnerPid ? p.pid === winnerPid : p.id ===
g.winner` (an empty string is falsy in JavaScript, hence the inner test). -/
def isRoundWinner (g : Game) (wpid : Option String) (p : Player) : Bool :=
  match wpid with
  | some x => if x = "" then g.winner = some p.id else p.pid = x
  | none => g.winner = some p.id

/-- Per-player score delta of `scoreRound`: winner gains opened points plus
the fixed bonus 10; a non-winner nets opened points minus hand points,
doubled if they never opened. -/
def scoreDelta (g : Game) (wpid : Option String) (p : Player) : Int :=
  if isRoundWinner g wpid p then openedPts p + 10
  else
    let net := openedPts p - handPts p
    if p.opened then net else 2 * net

/-- The mirror loop at the end of team-mode `scoreRound`: each member player's
displayed score is overwritten with their team's score. -/
def teamMirrorPlayer (ts2 : Int × Int) (p : Player) : Player :=
  match p.team with
  | some 0 => { p with score := ts2.1 }
  | some 1 => { p with score := ts2.2 }
  | _ => p

/-- `scoreRound(g)`: in individual mode apply each player's delta to their own
score; in team mode accumulate deltas per team, add them to the team scores
and mirror each team score onto its members. -/
def scoreRound (g : Game) : Game :=
  let wpid := resolvedWinnerPid g
  if ¬ g.teamMode then
    { g with players := g.players.map (fun p => { p with score := p.score + scoreDelta g wpid p }) }
  else
    let ts := g.teamScores.getD (0, 0)
    let delta : Int × Int := g.players.foldl (fun acc p =>
      match p.team with
      | some 0 => (acc.1 + scoreDelta g wpid p, acc.2)
      | some 1 => (acc.1, acc.2 + scoreDelta g wpid p)
      | _ => acc) (0, 0)
    let ts2 := (ts.1 + delta.1, ts.2 + delta.2)
    { g with teamScores := some ts2,
             players := g.players.map (teamMirrorPlayer ts2) }

/-- `WIN_SCORE`. -/
def winScore : Int := 151

/-- `checkWin(g)`: set `gameOver` when any individual score (or either team
score) reaches the target. -/
def checkWin (g : Game) : Game :=
  if ¬ g.teamMode then
    if g.players.any (fun p => winScore ≤ p.score) then { g with gameOver := true } else g
  else
    if winScore ≤ (g.teamScores.getD (0, 0)).1 ∨ winScore ≤ (g.teamScores.getD (0, 0)).2 then
      { g with teamScores := some (g.teamScores.getD (0, 0)), gameOver := true }
    else { g with teamScores := some (g.teamScores.getD (0, 0)) }

/- ---------- TURN STATE MACHINE ---------- -/

/-- Replace the element at an index, leaving the list unchanged when the index
is out of range (array element mutation on a found object). -/
def listModify {α : Type} (l : List α) (i : Nat) (f : α → α) : List α :=
  match l.get? i with
  | some x => l.set i (f x)
  | none => l

/-- The `drawClosed` handler: current-turn check, round live, not yet drawn,
closed pile non-empty; pop the closed top into the hand, require a discard. -/
def drawClosedStep (g : Game) (issuer : String) : Option Game :=
  match g.players.get? g.turn with
  | none => none
  | some p =>
    if p.id ≠ issuer then none
    else if g.roundOver ∨ g.gameOver then none
    else if p.canDiscard then none
    else
      match g.closed.getLast? with
      | none => none
      | some c =>
        some { g with
          closed := g.closed.dropLast,
          players := g.players.set g.turn
            { p with hand := p.hand ++ [c], mustDiscard := true, canDiscard := true,
                     noDiscardCardId := none } }

/-- The `drawOpen` handler: take the top `count` cards of the open pile into
the hand; a discard becomes mandatory exactly when the pile is emptied, and
drawing the single last open card records the no-redeposit restriction. -/
def drawOpenStep (g : Game) (issuer : String) (count : Int) : Option Game :=
  match g.players.get? g.turn with
  | none => none
  | some p =>
    if p.id ≠ issuer then none
    else if g.roundOver ∨ g.gameOver then none
    else if p.canDiscard then none
    else if count < 1 then none
    else if (g.openPile.length : Int) < count then none
    else
      let n := count.toNat
      let preLen := g.openPile.length
      let drawn := g.openPile.drop (preLen - n)
      let rest := g.openPile.take (preLen - n)
      let newRestriction : Option String :=
        if preLen = 1 ∧ n = 1 then
          match drawn.head? with
          | some c => if c.id ≠ "" then some c.id else none
          | none => none
        else none
      some { g with
        openPile := rest,
        players := g.players.set g.turn
          { p with hand := p.hand ++ drawn,
                   mustDiscard := rest.length = 0,
                   canDiscard := true,
                   noDiscardCardId := newRestriction } }

/-- The `discard` handler: validation (turn, live, drawn, index range, house
rule, single-card restriction) then move the card to the top of the open pile;
an emptied hand ends the round (scoring, winner by pid) without advancing the
turn, otherwise the turn advances. -/
def discardStep (g : Game) (issuer : String) (index : Int) : Option Game :=
  match g.players.get? g.turn with
  | none => none
  | some p =>
    if p.id ≠ issuer then none
    else if g.roundOver ∨ g.gameOver then none
    else if ¬ p.canDiscard then none
    else if index < 0 then none
    else
      let i := index.toNat
      if p.hand.length ≤ i then none
      else if mustPlayAllMeldsNow g p then none
      else
      let restricted : Bool :=
        match p.noDiscardCardId with
        | some nid => nid ≠ "" && ((p.hand.get? i).map (·.id) == some nid)
        | none => false
      if restricted then none
      else
        match p.hand.get? i with
        | none => none
        | some card =>
          let newHand := p.hand.eraseIdx i
          if newHand.length = 0 then
            let g2 := { g with
              openPile := g.openPile ++ [card],
              players := g.players.set g.turn
                { p with hand := newHand, noDiscardCardId := none,
                         mustDiscard := false, canDiscard := false },
              roundOver := true, winner := some p.id, winnerPid := some p.pid }
            some (checkWin (scoreRound g2))
          else
            some { g with
              openPile := g.openPile ++ [card],
              players := g.players.set g.turn
                { p with hand := newHand, noDiscardCardId := none,
                         mustDiscard := false, canDiscard := false },
              turn := (g.turn + 1) % g.players.length }

/-- The `endTurn` handler: only after drawing, only when no discard is
mandatory and the house rule is quiet; clears the per-turn flags and the
single-card restriction and advances the turn. -/
def endTurnStep (g : Game) (issuer : String) : Option Game :=
  match g.players.get? g.turn with
  | none => none
  | some p =>
    if p.id ≠ issuer then none
    else if g.roundOver ∨ g.gameOver then none
    else if ¬ p.canDiscard then none
    else if p.mustDiscard then none
    else if mustPlayAllMeldsNow g p then none
    else
      some { g with
        players := g.players.set g.turn
          { p with canDiscard := false, noDiscardCardId := none },
        turn := (g.turn + 1) % g.players.length }

/-- The `openRun` handler: after drawing, at least 3 ids all found in hand,
at most one joker, `validRun`; the cards leave the hand and the normalized
run is appended to the player's opened runs. -/
def openRunStep (g : Game) (issuer : String) (cardIds : List String) : Option Game :=
  match g.players.get? g.turn with
  | none => none
  | some p =>
    if p.id ≠ issuer then none
    else if g.roundOver ∨ g.gameOver then none
    else if ¬ p.canDiscard then none
    else if cardIds.length < 3 then none
    else
      match cardIds.mapM (fun i => p.hand.find? (fun c => c.id = i)) with
      | none => none
      | some cards =>
        if 1 < (cards.filter (fun c => isJoker c)).length then none
        else if ¬ validRun cards then none
        else
          match normalizeRun cards with
          | none => none
          | some normalized =>
            some { g with
              players := g.players.set g.turn
                { p with hand := p.hand.filter (fun c => ¬ cardIds.contains c.id),
                         openedSets := p.openedSets ++ [normalized],
                         opened := true } }

/-- Final stage of the `addToRun` handler: the joker-count house rules, the
`validRun` check on the concatenation, and the commit (replace the run with
its normalization, drop the played ids from the acting player's hand).  The
two `listModify` calls model field mutation on the found player objects
(which alias when the acting player targets their own run). -/
def addToRunCommit (g : Game) (me owner : Player) (issuer targetPlayer : String)
    (ri : Nat) (cardIds : List String) (add : List Card) : Option Game :=
  if 1 < (((owner.openedSets.get? ri).getD []).filter (fun c => isJoker c)).length + (add.filter (fun c => isJoker c)).length then none
  else if 0 < (add.filter (fun c => isJoker c)).length ∧ add.length - (add.filter (fun c => isJoker c)).length = 0 then none
  else if ¬ validRun (((owner.openedSets.get? ri).getD []) ++ add) then none
  else
    match normalizeRun (((owner.openedSets.get? ri).getD []) ++ add) with
    | none => none
    | some norm =>
      some { g with players := listModify (listModify g.players (g.players.findIdx (fun pp => pp.id = targetPlayer)) (fun pp => { pp with openedSets := pp.openedSets.set ri norm })) (g.players.findIdx (fun pp => pp.id = issuer)) (fun pp => { pp with hand := pp.hand.filter (fun c => ¬ cardIds.contains c.id) }) }

/-- Middle stage of the `addToRun` handler: the precondition checks on the
two resolved players (opened, has drawn, run index in range, team/self
restriction, at least one id, all ids found in hand). -/
def addToRunValidated (g : Game) (me owner : Player) (issuer targetPlayer : String)
    (runIndex : Int) (cardIds : List String) : Option Game :=
  if ¬ me.opened then none
  else if ¬ me.canDiscard then none
  else if runIndex < 0 then none
  else if owner.openedSets.length ≤ runIndex.toNat then none
  else if g.teamMode ∧ me.team ≠ owner.team then none
  else if ¬ g.teamMode ∧ me.id ≠ owner.id then none
  else if cardIds.length < 1 then none
  else
    match cardIds.mapM (fun i => me.hand.find? (fun c => c.id = i)) with
    | none => none
    | some add => addToRunCommit g me owner issuer targetPlayer runIndex.toNat cardIds add

/-- The `addToRun` handler.  The acting player is looked up by socket id (not
by turn index); the stages above mirror the handler's contiguous validation
and commit blocks. -/
def addToRunStep (g : Game) (issuer targetPlayer : String) (runIndex : Int)
    (cardIds : List String) : Option Game :=
  if g.roundOver ∨ g.gameOver then none
  else
    match g.players.find? (fun pp => pp.id = issuer) with
    | none => none
    | some me =>
      match g.players.find? (fun pp => pp.id = targetPlayer) with
      | none => none
      | some owner => addToRunValidated g me owner issuer targetPlayer runIndex cardIds

/-- The `playerWentOut` handler: the current-turn player, having drawn and
holding no cards, ends the round; winner recorded by pid, scoring runs. -/
def playerWentOutStep (g : Game) (issuer : String) : Option Game :=
  match g.players.get? g.turn with
  | none => none
  | some p =>
    if p.id ≠ issuer then none
    else if g.roundOver ∨ g.gameOver then none
    else if p.hand.length ≠ 0 then none
    else if ¬ p.canDiscard then none
    else
      let g2 := { g with
        players := g.players.set g.turn { p with mustDiscard := false, canDiscard := false },
        roundOver := true, winner := some p.id, winnerPid := some p.pid }
      some (checkWin (scoreRound g2))

/- ---------- ROOM LIFECYCLE ---------- -/

/-- `HAND_SIZE`. -/
def handSize : Nat := 9

/-- The `createRoom` handler, for a freshly shuffled `deck` (nondeterministic
shuffling and uuid generation are parameters of the model).  The single
creating player receives `deck.splice(0, 9)`; `closed` aliases the remaining
deck, and `open` takes one card off its top.  `buildDeck` always produces 52
cards, so the empty-deck guard is unreachable in the real system. -/
def createRoomStep (sockId pid : String) (teamMode : Bool) (team : Option Nat)
    (deck : List Card) : Option Game :=
  if teamMode ∧ team ≠ some 0 ∧ team ≠ some 1 then none
  else
    let hand := deck.take handSize
    let rest := deck.drop handSize
    match rest.getLast? with
    | none => none
    | some top =>
      let g : Game := {
        teamMode := teamMode,
        dealerIndex := 0,
        teamScores := if teamMode then some (0, 0) else none,
        players := [{ id := sockId, pid := pid, team := if teamMode then team else none,
                      hand := hand, openedSets := [], opened := false, mustDiscard := false,
                      canDiscard := false, score := 0, noDiscardCardId := none }],
        closed := rest.dropLast,
        openPile := [top],
        turn := 0,
        roundOver := false, winner := none, winnerPid := none, gameOver := false }
      some { g with turn := (g.dealerIndex + 1) % g.players.length }

/-- The `joinRoom` handler: a known pid is rebound to the new socket id;
otherwise (team checks permitting) a new player is dealt `HAND_SIZE` cards off
the FRONT of the closed pile, and the round-1 starting turn is set once when
the room first reaches two players with no turn in progress. -/
def joinRoomStep (g : Game) (sockId pid : String) (team : Option Nat) : Option Game :=
  if 4 ≤ g.players.length then none
  else
    match g.players.find? (fun p => p.pid = pid) with
    | some _ =>
      let i := g.players.findIdx (fun p => p.pid = pid)
      some { g with players := listModify g.players i (fun p => { p with id := sockId }) }
    | none =>
      if g.teamMode ∧ team ≠ some 0 ∧ team ≠ some 1 then none
      else if g.teamMode ∧ 2 ≤ (g.players.filter (fun p => p.team = team)).length then none
      else
        let prevLen := g.players.length
        let newP : Player :=
          ⟨sockId, pid, if g.teamMode then team else none, g.closed.take handSize,
           [], false, false, false, 0, none⟩
        let g1 := { g with players := g.players ++ [newP], closed := g.closed.drop handSize }
        if prevLen = 1 ∧ 2 ≤ g1.players.length ∧
            g1.players.all (fun pp => ¬ pp.canDiscard ∧ ¬ pp.mustDiscard) ∧
            ¬ g1.roundOver ∧ ¬ g1.gameOver then
          some { g1 with turn := (g1.dealerIndex + 1) % g1.players.length }
        else some g1

/-- The `reconnectRoom` handler: rebind the first player with the given pid to
the new socket id. -/
def reconnectStep (g : Game) (sockId pid : String) : Option Game :=
  match g.players.find? (fun p => p.pid = pid) with
  | none => none
  | some _ =>
    let i := g.players.findIdx (fun p => p.pid = pid)
    some { g with players := listModify g.players i (fun p => { p with id := sockId }) }

/-- Round reset shared by `continueGame` and `newGame`: each player in order
takes `HAND_SIZE` cards off the front of the remaining deck; per-round flags
and runs reset; `resetScore` additionally zeroes each player's score
(`newGame` only).  Returns the new players and what is left of the deck. -/
def dealRound (resetScore : Bool) : List Player → List Card → (List Player × List Card)
  | [], d => ([], d)
  | p :: ps, d =>
    let p2 := { p with hand := d.take handSize, openedSets := ([] : List (List Card)),
                       opened := false, mustDiscard := false, canDiscard := false,
                       score := if resetScore then 0 else p.score }
    let r := dealRound resetScore ps (d.drop handSize)
    (p2 :: r.1, r.2)

/-- The `continueGame` handler: allowed while the game is not over; fresh deck
dealt, round flags and winner cleared, scores kept, dealer and starter rotate.
(The per-player `noDiscardCardId` is NOT reset by the source.) -/
def continueGameStep (g : Game) (deck : List Card) : Option Game :=
  if g.gameOver then none
  else
    match deck.getLast? with
    | none => none
    | some top =>
      let d1 := deck.dropLast
      let dealt := dealRound false g.players d1
      let newDealer := (g.dealerIndex + 1) % g.players.length
      some { g with
        closed := dealt.2, openPile := [top], players := dealt.1,
        roundOver := false, winner := none, winnerPid := none,
        dealerIndex := newDealer,
        turn := (newDealer + 1) % g.players.length }

/-- The `newGame` handler: only once the game is over; like `continueGame` but
also clears `gameOver`, resets team scores (team mode) and every player's
individual score. -/
def newGameStep (g : Game) (deck : List Card) : Option Game :=
  if ¬ g.gameOver then none
  else
    match deck.getLast? with
    | none => none
    | some top =>
      let d1 := deck.dropLast
      let dealt := dealRound true g.players d1
      let newDealer := (g.dealerIndex + 1) % g.players.length
      some { g with
        closed := dealt.2, openPile := [top], players := dealt.1,
        roundOver := false, winner := none, winnerPid := none, gameOver := false,
        teamScores := if g.teamMode then some (0, 0) else g.teamScores,
        dealerIndex := newDealer,
        turn := (newDealer + 1) % g.players.length }

/- ---------- COMMANDS AND REACHABILITY ---------- -/

/-- The in-round player commands of the turn state machine (the issuer is the
socket id of the sending connection). -/
inductive Command where
  | drawClosed (issuer : String)
  | drawOpen (issuer : String) (count : Int)
  | discard (issuer : String) (index : Int)
  | endTurn (issuer : String)
  | openRun (issuer : String) (cardIds : List String)
  | addToRun (issuer targetPlayer : String) (runIndex : Int) (cardIds : List String)
  | playerWentOut (issuer : String)
deriving DecidableEq, Repr

/-- Dispatch of an in-round command to its handler; `none` is a rejected
command, which leaves the room state untouched. -/
def applyCommand (g : Game) : Command → Option Game
  | Command.drawClosed issuer => drawClosedStep g issuer
  | Command.drawOpen issuer count => drawOpenStep g issuer count
  | Command.discard issuer index => discardStep g issuer index
  | Command.endTurn issuer => endTurnStep g issuer
  | Command.openRun issuer cardIds => openRunStep g issuer cardIds
  | Command.addToRun issuer target runIndex cardIds => addToRunStep g issuer target runIndex cardIds
  | Command.playerWentOut issuer => playerWentOutStep g issuer

/-- Total version of `applyCommand`: a rejected command is a no-op. -/
def runCommand (g : Game) (c : Command) : Game :=
  (applyCommand g c).getD g

/-- A deck as produced by `buildDeck`: 52 cards with (uuid-)distinct,
truthy ids. -/
def FreshDeck (deck : List Card) : Prop :=
  deck.length = 52 ∧ (deck.map (fun c => c.id)).Nodup ∧ ∀ c ∈ deck, c.id ≠ ""

/-- The reachable room states: a room is created with a fresh shuffled deck
and evolves by joins, reconnects, in-round commands, and round/game restarts
(each restart drawing a fresh deck). -/
inductive Reachable : Game → Prop where
  | create : ∀ sockId pid teamMode team deck g, FreshDeck deck →
      createRoomStep sockId pid teamMode team deck = some g → Reachable g
  | join : ∀ g sockId pid team g2, Reachable g →
      joinRoomStep g sockId pid team = some g2 → Reachable g2
  | reconn : ∀ g sockId pid g2, Reachable g →
      reconnectStep g sockId pid = some g2 → Reachable g2
  | cmd : ∀ g c g2, Reachable g → applyCommand g c = some g2 → Reachable g2
  | continueRound : ∀ g deck g2, Reachable g → FreshDeck deck →
      continueGameStep g deck = some g2 → Reachable g2
  | restart : ∀ g deck g2, Reachable g → FreshDeck deck →
      newGameStep g deck = some g2 → Reachable g2

/- ---------- CARD ZONES ---------- -/

/-- Every card in existence in a room, zone by zone: each player's hand, each
opened run, the closed pile, the open pile. -/
def allCards (g : Game) : List Card :=
  (g.players.map (fun p => p.hand ++ p.openedSets.flatten)).flatten ++ g.closed ++ g.openPile

/-- The card ids of a room, in zone order. -/
def allCardIds (g : Game) : List String :=
  (allCards g).map (fun c => c.id)

/- ---------- BASIC LEMMAS: gap sums and sorted index lists ---------- -/

/-- Total of the gaps `idx[i] - idx[i-1] - 1` over consecutive pairs. -/
def gapTotal : List Int → Int
  | [] => 0
  | [_] => 0
  | a :: b :: rest => (b - a - 1) + gapTotal (b :: rest)

theorem gapSum_eq_none_iff : ∀ l : List Int, gapSum l = none ↔ ¬ l.Chain' (· < ·)
  | [] => by simp [gapSum]
  | [a] => by simp [gapSum]
  | a :: b :: rest => by
    rw [gapSum]
    by_cases h : b - a - 1 < 0
    · have hba : ¬ a < b := by omega
      simp [h, List.chain'_cons, hba]
    · have hab : a < b := by omega
      have ih := gapSum_eq_none_iff (b :: rest)
      simp only [if_neg h, Option.map_eq_none', ih, List.chain'_cons]
      tauto

theorem gapSum_eq_some_gapTotal : ∀ l : List Int, l.Chain' (· < ·) →
    gapSum l = some (gapTotal l)
  | [] => by simp [gapSum, gapTotal]
  | [a] => by simp [gapSum, gapTotal]
  | a :: b :: rest => by
    intro hc
    rw [List.chain'_cons] at hc
    have h : ¬ b - a - 1 < 0 := by omega
    have ih := gapSum_eq_some_gapTotal (b :: rest) hc.2
    rw [gapSum, if_neg h, ih, gapTotal]
    simp
    ring

theorem chain'_lt_iff_nodup_of_sorted {l : List Int} (hs : l.Sorted (· ≤ ·)) :
    l.Chain' (· < ·) ↔ l.Nodup := by
  rw [List.chain'_iff_pairwise]
  constructor
  · exact fun h => h.imp (fun hab => ne_of_lt hab)
  · intro h
    exact (hs.and h).imp (fun hab => lt_of_le_of_ne hab.1 hab.2)

theorem rankIdx_injOn : ∀ r s : Rank, r ≠ Rank.r2 → s ≠ Rank.r2 →
    rankIdx r = rankIdx s → r = s := by decide

theorem realCards_no_joker {cards : List Card} : ∀ c ∈ realCards cards, isJoker c = false := by
  intro c hc
  have := List.of_mem_filter hc
  simpa using this

/-- On a joker-free card list, distinct rank indices and distinct ranks
coincide. -/
theorem nodup_rankIdx_iff_nodup_value {l : List Card}
    (h : ∀ c ∈ l, isJoker c = false) :
    (l.map (fun c => rankIdx c.value)).Nodup ↔ (l.map (fun c => c.value)).Nodup := by
  have hrw : l.map (fun c => rankIdx c.value) = (l.map (fun c => c.value)).map rankIdx := by
    simp [List.map_map]
  rw [hrw]
  constructor
  · exact fun hn => hn.of_map rankIdx
  · intro hn
    apply hn.map_on
    intro x hx y hy hxy
    rcases List.mem_map.mp hx with ⟨cx, hcx, rfl⟩
    rcases List.mem_map.mp hy with ⟨cy, hcy, rfl⟩
    have hx2 : cx.value ≠ Rank.r2 := by
      have := h cx hcx; simp [isJoker] at this; exact this
    have hy2 : cy.value ≠ Rank.r2 := by
      have := h cy hcy; simp [isJoker] at this; exact this
    exact rankIdx_injOn _ _ hx2 hy2 hxy

theorem sortedRealIdx_sorted (cards : List Card) :
    (sortedRealIdx cards).Sorted (· ≤ ·) :=
  List.sorted_insertionSort _ _

theorem sortedRealIdx_perm (cards : List Card) :
    (sortedRealIdx cards).Perm ((realCards cards).map (fun c => rankIdx c.value)) :=
  List.perm_insertionSort _ _

/-- The joker count computed by `validRun` (`cards.length - real.length`)
equals the number of joker cards. -/
theorem jokers_count_eq (cards : List Card) :
    cards.length - (realCards cards).length = (cards.filter (fun c => isJoker c)).length := by
  induction cards with
  | nil => rfl
  | cons c cs ih =>
    have hle : (realCards cs).length ≤ cs.length := List.length_filter_le _ _
    unfold realCards at ih hle ⊢
    cases h : isJoker c <;> simp [List.filter_cons, h] <;> omega

/- ---------- CLAIM C2: validRun characterization ---------- -/

/-- The conditions of claim C2, as the spec words them: at least 3 cards, at
most 1 wildcard, at least 2 non-wildcards, one shared suit among
non-wildcards, no repeated non-wildcard rank, and total gap of the sorted
rank indices at most the number of wildcards. -/
def specValidRun (cards : List Card) : Prop :=
  3 ≤ cards.length ∧
  (cards.filter (fun c => isJoker c)).length ≤ 1 ∧
  2 ≤ (realCards cards).length ∧
  (∃ s, ∀ c ∈ realCards cards, c.suit = s) ∧
  ((realCards cards).map (fun c => c.value)).Nodup ∧
  gapTotal (sortedRealIdx cards) ≤ ((cards.filter (fun c => isJoker c)).length : Int)

theorem validRun_spec_equiv (cards : List Card) :
    validRun cards = true ↔ specValidRun cards := by
  have hjr := jokers_count_eq cards
  have hsorted := sortedRealIdx_sorted cards
  have hperm := sortedRealIdx_perm cards
  have hndi : (sortedRealIdx cards).Nodup ↔ ((realCards cards).map (fun c => c.value)).Nodup := by
    rw [hperm.nodup_iff]
    exact nodup_rankIdx_iff_nodup_value realCards_no_joker
  have hchain : (sortedRealIdx cards).Chain' (· < ·) ↔ (sortedRealIdx cards).Nodup :=
    chain'_lt_iff_nodup_of_sorted hsorted
  unfold validRun specValidRun
  by_cases h1 : cards.length < 3
  · simp only [if_pos h1, Bool.false_eq_true, false_iff]
    rintro ⟨h3, _⟩; omega
  rw [if_neg h1]
  simp only []
  by_cases h2 : cards.length - (realCards cards).length > 1
  · rw [if_pos h2]
    simp only [Bool.false_eq_true, false_iff]
    rintro ⟨_, hj, _⟩; omega
  rw [if_neg h2]
  by_cases h3 : (realCards cards).length < 2
  · rw [if_pos h3]
    simp only [Bool.false_eq_true, false_iff]
    rintro ⟨_, _, hr, _⟩; omega
  rw [if_neg h3]
  rcases hre : realCards cards with _ | ⟨r0, rs⟩
  · rw [hre] at h3; simp at h3
  rw [hre] at hjr hndi h2 h3
  split
  next heq => exact absurd heq (by simp)
  next r1 rs1 heq =>
  injection heq with heq1 heq2
  subst heq1; subst heq2
  by_cases hall : ((r0 :: rs).all (fun c => c.suit = r0.suit)) = true
  · rw [if_neg (by simpa using hall)]
    have hsuit : ∃ s, ∀ c ∈ (r0 :: rs), c.suit = s := by
      refine ⟨r0.suit, fun c hc => ?_⟩
      have := (List.all_eq_true.mp hall) c hc
      simpa using this
    cases hg : gapSum (sortedRealIdx cards) with
    | none =>
      have hnc : ¬ (sortedRealIdx cards).Chain' (· < ·) := (gapSum_eq_none_iff _).mp hg
      simp only [Bool.false_eq_true, false_iff]
      rintro ⟨_, _, _, _, hnd, _⟩
      exact hnc (hchain.mpr (hndi.mpr hnd))
    | some g =>
      have hne : gapSum (sortedRealIdx cards) ≠ none := by rw [hg]; simp
      have hch : (sortedRealIdx cards).Chain' (· < ·) :=
        not_not.mp (fun hc => hne ((gapSum_eq_none_iff _).mpr hc))
      have hg2 := gapSum_eq_some_gapTotal _ hch
      rw [hg] at hg2
      have hgt : g = gapTotal (sortedRealIdx cards) := by injection hg2 with h
      have hnd : ((r0 :: rs).map (fun c => c.value)).Nodup := hndi.mp (hchain.mp hch)
      have hcast : ((cards.length - (r0 :: rs).length : Nat) : Int) =
          ((cards.filter (fun c => isJoker c)).length : Int) := by
        exact_mod_cast congrArg (Nat.cast : Nat → Int) hjr
      simp only [decide_eq_true_eq, hgt, hcast]
      constructor
      · intro hle
        exact ⟨by omega, by omega, by omega, hsuit, hnd, hle⟩
      · rintro ⟨_, _, _, _, _, hle⟩
        exact hle
  · rw [if_pos (by simpa using hall)]
    simp only [Bool.false_eq_true, false_iff]
    rintro ⟨_, _, _, ⟨s, hs⟩, _, _⟩
    apply hall
    rw [List.all_eq_true]
    intro c hc
    have h0 : r0.suit = s := hs r0 (List.mem_cons_self _ _)
    have hcs : c.suit = s := hs c hc
    simp [hcs, h0]

/- ---------- LEMMAS: normalizeRun ---------- -/

instance : IsTotal Card (fun a b => rankIdx a.value ≤ rankIdx b.value) :=
  ⟨fun a b => le_total _ _⟩

instance : IsTrans Card (fun a b => rankIdx a.value ≤ rankIdx b.value) :=
  ⟨fun _ _ _ hab hbc => le_trans hab hbc⟩

theorem sortedReals_sorted (cards : List Card) :
    (sortedReals cards).Sorted (fun a b => rankIdx a.value ≤ rankIdx b.value) :=
  List.sorted_insertionSort _ _

theorem sortedReals_perm (cards : List Card) :
    (sortedReals cards).Perm (realCards cards) :=
  List.perm_insertionSort _ _

/-- Both sort passes of the source (`validRun` sorting indices, `normalizeRun`
sorting cards by index) produce the same index list. -/
theorem sortedRealIdx_eq_map_sortedReals (cards : List Card) :
    sortedRealIdx cards = (sortedReals cards).map (fun c => rankIdx c.value) := by
  have h2 : (sortedRealIdx cards).Sorted (· ≤ ·) := sortedRealIdx_sorted cards
  have h3 : ((sortedReals cards).map (fun c => rankIdx c.value)).Sorted (· ≤ ·) := by
    rw [List.Sorted, List.pairwise_map]
    exact sortedReals_sorted cards
  exact List.eq_of_perm_of_sorted
    ((sortedRealIdx_perm cards).trans
      (((sortedReals_perm cards).map (fun c => rankIdx c.value)).symm)) h2 h3

/-- Claim C2: `validRun(cards)` returns true iff there are at least 3 cards,
at most 1 wildcard, at least 2 non-wildcards, the non-wildcards share one
suit with no repeated rank, and the total gap of the sorted rank indices is
at most the number of wildcards present. -/
theorem validRun_iff_spec (cards : List Card) :
    validRun cards = true ↔ specValidRun cards :=
  validRun_spec_equiv cards

theorem intRange_append (a : Int) (m n : Nat) :
    intRange a (m + n) = intRange a m ++ intRange (a + m) n := by
  induction m generalizing a with
  | zero => simp [intRange]
  | succ k ih =>
    have : k + 1 + n = (k + n) + 1 := by omega
    rw [this, intRange, intRange, ih (a + 1)]
    have : a + 1 + k = a + (k + 1) := by push_cast; ring
    rw [this]
    simp

theorem intRange_length (a : Int) (n : Nat) : (intRange a n).length = n := by
  induction n generalizing a with
  | zero => rfl
  | succ k ih => rw [intRange]; simp [ih]

theorem mem_intRange {x a : Int} {n : Nat} : x ∈ intRange a n ↔ a ≤ x ∧ x < a + n := by
  induction n generalizing a with
  | zero => simp [intRange]
  | succ k ih =>
    rw [intRange]
    simp only [List.mem_cons, ih]
    push_cast
    omega

/-- `gapTotal` of a strictly increasing list is nonnegative. -/
theorem gapTotal_nonneg : ∀ l : List Int, l.Chain' (· < ·) → 0 ≤ gapTotal l
  | [] => by simp [gapTotal]
  | [_] => by simp [gapTotal]
  | a :: b :: rest => by
    intro hc
    rw [List.chain'_cons] at hc
    have ih := gapTotal_nonneg (b :: rest) hc.2
    rw [gapTotal]
    have : a < b := hc.1
    omega

/-- A strictly increasing integer list with zero total gap is a contiguous
range starting at its head. -/
theorem chain_gapTotal_zero_eq_intRange : ∀ (a : Int) (rest : List Int),
    (a :: rest).Chain' (· < ·) → gapTotal (a :: rest) = 0 →
    a :: rest = intRange a (rest.length + 1)
  | a, [] => by intro _ _; simp [intRange]
  | a, b :: rest2 => by
    intro hc hg
    rw [List.chain'_cons] at hc
    rw [gapTotal] at hg
    have h1 : 0 ≤ gapTotal (b :: rest2) := gapTotal_nonneg _ hc.2
    have hab : a < b := hc.1
    have hb : b = a + 1 := by omega
    have hg2 : gapTotal (b :: rest2) = 0 := by omega
    have ih := chain_gapTotal_zero_eq_intRange b rest2 hc.2 hg2
    rw [List.length_cons, intRange, ← hb, ← ih]

/-- A strictly increasing integer list with total gap 1 splits into two
contiguous ranges separated by exactly one missing value. -/
theorem chain_gapTotal_one_split : ∀ (a : Int) (rest : List Int),
    (a :: rest).Chain' (· < ·) → gapTotal (a :: rest) = 1 →
    ∃ n1 l2, a :: rest = intRange a n1 ++ l2 ∧ 0 < n1 ∧ l2 ≠ [] ∧
      l2 = intRange (a + n1 + 1) l2.length
  | a, [] => by intro _ hg; rw [gapTotal] at hg; omega
  | a, b :: rest2 => by
    intro hc hg
    rw [List.chain'_cons] at hc
    rw [gapTotal] at hg
    have h1 : 0 ≤ gapTotal (b :: rest2) := gapTotal_nonneg _ hc.2
    have hab : a < b := hc.1
    have hd : b - a - 1 = 0 ∨ b - a - 1 = 1 := by omega
    rcases hd with hd | hd
    · have hb : b = a + 1 := by omega
      have hg2 : gapTotal (b :: rest2) = 1 := by omega
      obtain ⟨n1, l2, heq, hn1, hl2, hl2r⟩ := chain_gapTotal_one_split b rest2 hc.2 hg2
      refine ⟨n1 + 1, l2, ?_, by omega, hl2, ?_⟩
      · rw [show n1 + 1 = 1 + n1 from by omega, intRange_append, List.append_assoc]
        have hone : intRange a 1 = [a] := rfl
        have hcast : a + ((1 : Nat) : Int) = b := by push_cast; omega
        rw [hone, hcast, ← heq]
        rfl
      · have harg : a + ((n1 + 1 : Nat) : Int) + 1 = b + (n1 : Int) + 1 := by push_cast; ring_nf; omega
        rw [harg]
        exact hl2r
    · have hb : b = a + 2 := by omega
      have hg2 : gapTotal (b :: rest2) = 0 := by omega
      have heq := chain_gapTotal_zero_eq_intRange b rest2 hc.2 hg2
      refine ⟨1, b :: rest2, ?_, by omega, by simp, ?_⟩
      · have hone : intRange a 1 = [a] := rfl
        rw [hone]
        rfl
      · have harg : a + ((1 : Nat) : Int) + 1 = b := by push_cast; omega
        rw [harg]
        simpa using heq

theorem fillSlots_append (byIdx : Int → Option Card) (s1 s2 : List Int) (pool : List Card) :
    fillSlots byIdx (s1 ++ s2) pool =
      match fillSlots byIdx s1 pool with
      | none => none
      | some (out1, p1) =>
        match fillSlots byIdx s2 p1 with
        | none => none
        | some (out2, p2) => some (out1 ++ out2, p2) := by
  induction s1 generalizing pool with
  | nil =>
    cases h : fillSlots byIdx s2 pool with
    | none => simp [fillSlots, h]
    | some pr =>
      obtain ⟨out2, p2⟩ := pr
      simp [fillSlots, h]
  | cons i rest ih =>
    simp only [List.cons_append, fillSlots, List.append_eq]
    cases hb : byIdx i with
    | some c =>
      simp only []
      rw [ih]
      cases h1 : fillSlots byIdx rest pool with
      | none => rfl
      | some pr1 =>
        obtain ⟨out1, p1⟩ := pr1
        cases h2 : fillSlots byIdx s2 p1 with
        | none => simp [h2]
        | some pr2 =>
          obtain ⟨out2, p2⟩ := pr2
          simp [h2]
    | none =>
      cases hp : popLast pool with
      | none => rfl
      | some pr =>
        obtain ⟨c, pool2⟩ := pr
        simp only []
        rw [ih]
        cases h1 : fillSlots byIdx rest pool2 with
        | none => rfl
        | some pr1 =>
          obtain ⟨out1, p1⟩ := pr1
          cases h2 : fillSlots byIdx s2 p1 with
          | none => simp [h2]
          | some pr2 =>
            obtain ⟨out2, p2⟩ := pr2
            simp [h2]

/-- A stretch of slots that are all occupied by real cards passes through
`fillSlots` untouched, consuming no jokers. -/
theorem fillSlots_occupied (byIdx : Int → Option Card) (rl : List Card) (pool : List Card)
    (h : ∀ r ∈ rl, byIdx (rankIdx r.value) = some r) :
    fillSlots byIdx (rl.map (fun c => rankIdx c.value)) pool = some (rl, pool) := by
  induction rl with
  | nil => rfl
  | cons r rest ih =>
    simp only [List.map_cons, fillSlots]
    rw [h r (List.mem_cons_self _ _), ih (fun x hx => h x (List.mem_cons_of_mem _ hx))]

theorem popLast_single (w : Card) : popLast [w] = some (w, []) := by
  simp [popLast]

/-- A single unoccupied slot consumes the one joker of the pool. -/
theorem fillSlots_gap (byIdx : Int → Option Card) (m : Int) (w : Card)
    (hm : byIdx m = none) : fillSlots byIdx [m] [w] = some ([w], []) := by
  simp [fillSlots, hm, popLast_single]

theorem find?_unique {l : List Card} {p : Card → Bool} {r : Card} (hr : r ∈ l)
    (hp : p r = true) (huniq : ∀ c ∈ l, p c = true → c = r) : l.find? p = some r := by
  induction l with
  | nil => cases hr
  | cons a rest ih =>
    by_cases ha : p a = true
    · have : a = r := huniq a (List.mem_cons_self _ _) ha
      rw [List.find?_cons, ha, this]
    · have hr2 : r ∈ rest := by
        rcases List.mem_cons.mp hr with rfl | h
        · exact absurd hp ha
        · exact h
      rw [List.find?_cons]
      have ha2 : p a = false := Bool.eq_false_iff.mpr ha
      rw [ha2]
      exact ih hr2 (fun c hc hpc => huniq c (List.mem_cons_of_mem _ hc) hpc)

/-- With distinct rank indices, the index map of `normalizeRun` retrieves
exactly the card that carries the index. -/
theorem realByIdx_occupied {real : List Card}
    (hnd : (real.map (fun c => rankIdx c.value)).Nodup)
    {r : Card} (hr : r ∈ real) :
    realByIdx real (rankIdx r.value) = some r := by
  unfold realByIdx
  apply find?_unique (List.mem_reverse.mpr hr) (by simp)
  intro c hc hcp
  exact List.inj_on_of_nodup_map hnd (List.mem_reverse.mp hc) hr (by simpa using hcp)

/-- An index carried by no real card is a gap slot. -/
theorem realByIdx_gap {real : List Card} {m : Int}
    (hm : m ∉ real.map (fun c => rankIdx c.value)) : realByIdx real m = none := by
  unfold realByIdx
  rw [List.find?_eq_none]
  intro c hc
  simp only [decide_eq_true_eq]
  intro hkey
  exact hm (List.mem_map.mpr ⟨c, List.mem_reverse.mp hc, hkey⟩)

theorem intRange_getLast? (a : Int) (n : Nat) (h : 0 < n) :
    (intRange a n).getLast? = some (a + n - 1) := by
  induction n generalizing a with
  | zero => omega
  | succ k ih =>
    cases k with
    | zero => simp [intRange]
    | succ k2 =>
      rw [intRange, intRange, List.getLast?_cons_cons, ← intRange]
      rw [ih (a + 1) (by omega)]
      congr 1
      push_cast
      ring

theorem setJokerSuit_id (s : Suit) (c : Card) : (setJokerSuit s c).id = c.id := by
  unfold setJokerSuit
  split <;> rfl

theorem map_setJokerSuit_of_no_joker {l : List Card} (h : ∀ c ∈ l, isJoker c = false)
    (s : Suit) : l.map (setJokerSuit s) = l := by
  conv_rhs => rw [← List.map_id l]
  apply List.map_congr_left
  intro c hc
  unfold setJokerSuit
  rw [h c hc]
  rfl

/-- Structural facts about a valid run, extracted once: the sorted real list
is nonempty and joker-free with strictly increasing, duplicate-free rank
indices; the two sort passes agree; the total gap is between zero and the
joker count, which is at most one. -/
theorem validRun_facts (cards : List Card) (hv : validRun cards = true) :
    (sortedReals cards ≠ []) ∧
    (∀ c ∈ sortedReals cards, isJoker c = false) ∧
    ((sortedReals cards).map (fun c => rankIdx c.value)).Nodup ∧
    sortedRealIdx cards = (sortedReals cards).map (fun c => rankIdx c.value) ∧
    (sortedRealIdx cards).Chain' (· < ·) ∧
    0 ≤ gapTotal (sortedRealIdx cards) ∧
    gapTotal (sortedRealIdx cards) ≤ ((cards.filter (fun c => isJoker c)).length : Int) ∧
    (cards.filter (fun c => isJoker c)).length ≤ 1 := by
  obtain ⟨hlen, hjok, hreal, hsuit, hnd, hgap⟩ := (validRun_spec_equiv cards).mp hv
  have hperm := sortedReals_perm cards
  have hmem : ∀ c ∈ sortedReals cards, isJoker c = false := by
    intro c hc
    exact realCards_no_joker c (hperm.subset hc)
  have hndv : ((sortedReals cards).map (fun c => c.value)).Nodup :=
    ((hperm.map (fun c => c.value)).nodup_iff).mpr hnd
  have hndk : ((sortedReals cards).map (fun c => rankIdx c.value)).Nodup :=
    (nodup_rankIdx_iff_nodup_value hmem).mpr hndv
  have heq := sortedRealIdx_eq_map_sortedReals cards
  have hchain : (sortedRealIdx cards).Chain' (· < ·) := by
    rw [chain'_lt_iff_nodup_of_sorted (sortedRealIdx_sorted cards), heq]
    exact hndk
  refine ⟨?_, hmem, hndk, heq, hchain, gapTotal_nonneg _ hchain, hgap, hjok⟩
  intro hnil
  have := hperm.length_eq
  rw [hnil] at this
  simp at this
  omega

/-- One-step reduction of `normalizeRun` once the sorted real list is known. -/
theorem normalizeRun_eq_of_cons {cards : List Card} {r0 : Card} {rr : List Card}
    (hre : sortedReals cards = r0 :: rr) :
    normalizeRun cards =
      match ((r0 :: rr).map (fun c => rankIdx c.value)).head?,
            ((r0 :: rr).map (fun c => rankIdx c.value)).getLast? with
      | some lo, some hi =>
        (match fillSlots (realByIdx (r0 :: rr)) (intRange lo (hi + 1 - lo).toNat)
              (cards.filter (fun c => isJoker c)) with
        | none => none
        | some (out, poolLeft) =>
          some ((out ++ poolLeft.reverse).map (setJokerSuit r0.suit)))
      | _, _ => some cards := by
  unfold normalizeRun
  rw [hre]

/-- `normalizeRun` on a valid run with no gap: the sorted reals followed by
the (reversed) joker pool, with joker suits repainted. -/
theorem normalizeRun_gap0 {cards : List Card} {r0 : Card} {rr : List Card}
    (hv : validRun cards = true) (hre : sortedReals cards = r0 :: rr)
    (hg : gapTotal (sortedRealIdx cards) = 0) :
    normalizeRun cards =
      some (((r0 :: rr) ++ (cards.filter (fun c => isJoker c)).reverse).map
        (setJokerSuit r0.suit)) := by
  obtain ⟨hne, hjf, hndk, heqk, hchain, hge, hle, hjle⟩ := validRun_facts cards hv
  rw [hre] at hndk
  rw [heqk, hre] at hchain
  rw [heqk, hre] at hg
  have hchain2 : (rankIdx r0.value :: rr.map (fun c => rankIdx c.value)).Chain' (· < ·) := by
    simpa using hchain
  have hg2 : gapTotal (rankIdx r0.value :: rr.map (fun c => rankIdx c.value)) = 0 := by
    simpa using hg
  have hrange := chain_gapTotal_zero_eq_intRange _ _ hchain2 hg2
  rw [List.length_map] at hrange
  have hmapcons : (r0 :: rr).map (fun c => rankIdx c.value) =
      rankIdx r0.value :: rr.map (fun c => rankIdx c.value) := rfl
  have hh : ((r0 :: rr).map (fun c => rankIdx c.value)).head? = some (rankIdx r0.value) := rfl
  have hgl : ((r0 :: rr).map (fun c => rankIdx c.value)).getLast? =
      some (rankIdx r0.value + ((rr.length + 1 : Nat) : Int) - 1) := by
    rw [hmapcons, hrange, intRange_getLast? _ _ (by omega)]
  rw [normalizeRun_eq_of_cons hre, hh, hgl]
  simp only []
  have hspan : ((rankIdx r0.value + ((rr.length + 1 : Nat) : Int) - 1) + 1 -
      rankIdx r0.value).toNat = rr.length + 1 := by
    have harith : (rankIdx r0.value + ((rr.length + 1 : Nat) : Int) - 1) + 1 -
        rankIdx r0.value = ((rr.length + 1 : Nat) : Int) := by ring
    rw [harith, Int.toNat_natCast]
  rw [hspan, ← hrange, ← hmapcons]
  rw [fillSlots_occupied _ _ _ (fun r hr => realByIdx_occupied hndk hr)]

theorem intRange_head? (a : Int) (n : Nat) (h : 0 < n) :
    (intRange a n).head? = some a := by
  cases n with
  | zero => omega
  | succ m => rfl

/-- `normalizeRun` on a valid run with exactly one joker and one gap: the
sorted reals split at the gap and the joker fills it, suit repainted. -/
theorem normalizeRun_gap1 {cards : List Card} {r0 : Card} {rr : List Card} {w : Card}
    (hv : validRun cards = true) (hre : sortedReals cards = r0 :: rr)
    (hw : cards.filter (fun c => isJoker c) = [w])
    (hg : gapTotal (sortedRealIdx cards) = 1) :
    ∃ rl1 rl2, r0 :: rr = rl1 ++ rl2 ∧ rl1 ≠ [] ∧ rl2 ≠ [] ∧
      (∃ x y, rl1.getLast? = some x ∧ rl2.head? = some y ∧
        rankIdx y.value = rankIdx x.value + 2) ∧
      normalizeRun cards = some ((rl1 ++ w :: rl2).map (setJokerSuit r0.suit)) := by
  obtain ⟨hne, hjf, hndk, heqk, hchain, hge, hle, hjle⟩ := validRun_facts cards hv
  rw [hre] at hndk
  rw [heqk, hre] at hchain
  rw [heqk, hre] at hg
  have hchain2 : (rankIdx r0.value :: rr.map (fun c => rankIdx c.value)).Chain' (· < ·) := by
    simpa using hchain
  have hg2 : gapTotal (rankIdx r0.value :: rr.map (fun c => rankIdx c.value)) = 1 := by
    simpa using hg
  obtain ⟨n1, l2, hsplit, hn1, hl2ne, hl2r⟩ := chain_gapTotal_one_split _ _ hchain2 hg2
  have hmapcons : (r0 :: rr).map (fun c => rankIdx c.value) =
      rankIdx r0.value :: rr.map (fun c => rankIdx c.value) := rfl
  have hkeys : (r0 :: rr).map (fun c => rankIdx c.value) =
      intRange (rankIdx r0.value) n1 ++ l2 := hmapcons.trans hsplit
  have hn2pos : 0 < l2.length := List.length_pos.mpr hl2ne
  have hlen : rr.length + 1 = n1 + l2.length := by
    have h := congrArg List.length hkeys
    simp only [List.length_map, List.length_cons, List.length_append,
      intRange_length] at h
    omega
  have hmap1 : ((r0 :: rr).take n1).map (fun c => rankIdx c.value) =
      intRange (rankIdx r0.value) n1 := by
    rw [List.map_take, hkeys, List.take_left' (intRange_length _ _)]
  have hmap2 : ((r0 :: rr).drop n1).map (fun c => rankIdx c.value) = l2 := by
    rw [List.map_drop, hkeys, List.drop_left' (intRange_length _ _)]
  have hlen1 : ((r0 :: rr).take n1).length = n1 := by
    rw [List.length_take, List.length_cons]
    omega
  have hlen2 : ((r0 :: rr).drop n1).length = l2.length := by
    rw [List.length_drop, List.length_cons]
    omega
  have h1ne : (r0 :: rr).take n1 ≠ [] := List.ne_nil_of_length_pos (by omega)
  have h2ne : (r0 :: rr).drop n1 ≠ [] := List.ne_nil_of_length_pos (by omega)
  refine ⟨(r0 :: rr).take n1, (r0 :: rr).drop n1, (List.take_append_drop n1 _).symm,
    h1ne, h2ne, ?_, ?_⟩
  · -- the gap between the two halves
    cases hx : ((r0 :: rr).take n1).getLast? with
    | none => exact absurd (List.getLast?_eq_none_iff.mp hx) h1ne
    | some x =>
      cases hy : ((r0 :: rr).drop n1).head? with
      | none => exact absurd (List.head?_eq_none_iff.mp hy) h2ne
      | some y =>
        refine ⟨x, y, rfl, rfl, ?_⟩
        have hxk : some (rankIdx x.value) =
            some (rankIdx r0.value + (n1 : Int) - 1) := by
          have h1 := List.getLast?_map (fun c => rankIdx c.value) ((r0 :: rr).take n1)
          rw [hmap1, hx, intRange_getLast? _ _ hn1] at h1
          simpa using h1.symm
        have hyk : some (rankIdx y.value) =
            some (rankIdx r0.value + (n1 : Int) + 1) := by
          have h1 := List.head?_map (fun c => rankIdx c.value) ((r0 :: rr).drop n1)
          rw [hmap2, hy, hl2r, intRange_head? _ _ hn2pos] at h1
          simpa using h1.symm
        have hxv := Option.some.inj hxk
        have hyv := Option.some.inj hyk
        omega
  · -- the computation itself
    have hh : ((r0 :: rr).map (fun c => rankIdx c.value)).head? = some (rankIdx r0.value) := rfl
    have hl2last : l2.getLast? = some (rankIdx r0.value + (n1 : Int) + 1 + (l2.length : Int) - 1) := by
      conv_lhs => rw [hl2r]
      rw [intRange_getLast? _ _ hn2pos]
    have hgl : ((r0 :: rr).map (fun c => rankIdx c.value)).getLast? =
        some (rankIdx r0.value + (n1 : Int) + 1 + (l2.length : Int) - 1) := by
      rw [hkeys, List.getLast?_append, hl2last]
      rfl
    rw [normalizeRun_eq_of_cons hre, hh, hgl]
    simp only []
    have hspan : ((rankIdx r0.value + (n1 : Int) + 1 + (l2.length : Int) - 1) + 1 -
        rankIdx r0.value).toNat = n1 + (1 + l2.length) := by
      have harith : (rankIdx r0.value + (n1 : Int) + 1 + (l2.length : Int) - 1) + 1 -
          rankIdx r0.value = ((n1 + (1 + l2.length) : Nat) : Int) := by
        push_cast
        ring
      rw [harith, Int.toNat_natCast]
    rw [hspan, hw, intRange_append]
    rw [Nat.add_comm 1 l2.length, intRange]
    rw [fillSlots_append]
    rw [← hmap1]
    rw [fillSlots_occupied _ _ _
      (fun r hr => realByIdx_occupied hndk (List.mem_of_mem_take hr))]
    simp only []
    have hgapslot : realByIdx (r0 :: rr) (rankIdx r0.value + (n1 : Int)) = none := by
      apply realByIdx_gap
      rw [hkeys]
      intro hmem
      rcases List.mem_append.mp hmem with hmem | hmem
      · have := mem_intRange.mp hmem
        omega
      · rw [hl2r] at hmem
        have := mem_intRange.mp hmem
        omega
    have hIntOne : intRange (rankIdx r0.value + (n1 : Int)) (l2.length + 1) =
        (rankIdx r0.value + (n1 : Int)) :: intRange (rankIdx r0.value + (n1 : Int) + 1)
          l2.length := rfl
    rw [show intRange (rankIdx r0.value + (n1 : Int) + 1) l2.length =
        ((r0 :: rr).drop n1).map (fun c => rankIdx c.value) from (hmap2.trans hl2r).symm]
    rw [show fillSlots (realByIdx (r0 :: rr))
        ((rankIdx r0.value + (n1 : Int)) :: ((r0 :: rr).drop n1).map (fun c => rankIdx c.value))
        [w] =
        match popLast [w] with
        | none => none
        | some (c, pool2) =>
          match fillSlots (realByIdx (r0 :: rr))
              (((r0 :: rr).drop n1).map (fun c => rankIdx c.value)) pool2 with
          | some (out, p) => some (c :: out, p)
          | none => none from by rw [fillSlots, hgapslot]]
    rw [popLast_single]
    simp only []
    rw [fillSlots_occupied _ _ _
      (fun r hr => realByIdx_occupied hndk (List.mem_of_mem_drop hr))]
    simp only []
    congr 1
    simp

theorem setJokerSuit_value (s : Suit) (c : Card) : (setJokerSuit s c).value = c.value := by
  unfold setJokerSuit
  split <;> rfl

theorem isJoker_setJokerSuit (s : Suit) (c : Card) : isJoker (setJokerSuit s c) = isJoker c := by
  unfold isJoker
  rw [setJokerSuit_value]

theorem map_id_setJokerSuit (s : Suit) (l : List Card) :
    (l.map (setJokerSuit s)).map (fun c => c.id) = l.map (fun c => c.id) := by
  rw [List.map_map]
  apply List.map_congr_left
  intro c _
  simp [setJokerSuit_id]

/-- The real/joker partition of a card list, reals first, is a permutation of
the list. -/
theorem real_joker_partition (cards : List Card) :
    (realCards cards ++ cards.filter (fun c => isJoker c)).Perm cards := by
  have h := List.filter_append_perm (fun c => isJoker c) cards
  have h2 : (cards.filter (fun c => isJoker c) ++ realCards cards).Perm cards := by
    have : realCards cards = cards.filter (fun x => !(fun c => isJoker c) x) := rfl
    rw [this]
    exact h
  exact (List.perm_append_comm).trans h2

/-- The length identity behind the partition. -/
theorem real_joker_length (cards : List Card) :
    (realCards cards).length + (cards.filter (fun c => isJoker c)).length = cards.length := by
  have := (real_joker_partition cards).length_eq
  simpa using this

/-- `normalizeRun` of any valid run succeeds and permutes the card ids
(wildcard suits may be cosmetically repainted, ids are untouched). -/
theorem normalizeRun_ids_perm (R : List Card) (hv : validRun R = true) :
    ∃ out, normalizeRun R = some out ∧
      (out.map (fun c => c.id)).Perm (R.map (fun c => c.id)) := by
  obtain ⟨hne, hjf, hndk, heqk, hchain, hge, hle, hjle⟩ := validRun_facts R hv
  rcases hre2 : sortedReals R with _ | ⟨r0, rr⟩
  · exact absurd hre2 hne
  have hperm0 : ((r0 :: rr) ++ R.filter (fun c => isJoker c)).Perm R := by
    rw [← hre2]
    exact ((sortedReals_perm R).append_right _).trans (real_joker_partition R)
  have hcase : gapTotal (sortedRealIdx R) = 0 ∨ gapTotal (sortedRealIdx R) = 1 := by omega
  rcases hcase with hg | hg
  · refine ⟨_, normalizeRun_gap0 hv hre2 hg, ?_⟩
    rw [map_id_setJokerSuit]
    have hp : ((r0 :: rr) ++ (R.filter (fun c => isJoker c)).reverse).Perm R :=
      (((List.reverse_perm _).append_left (r0 :: rr))).trans hperm0
    exact hp.map _
  · have hjlen : (R.filter (fun c => isJoker c)).length = 1 := by omega
    obtain ⟨w, hw⟩ := List.length_eq_one.mp hjlen
    obtain ⟨rl1, rl2, hsplit, _, _, _, hnorm⟩ := normalizeRun_gap1 hv hre2 hw hg
    refine ⟨_, hnorm, ?_⟩
    rw [map_id_setJokerSuit]
    have hp : (rl1 ++ w :: rl2).Perm R := by
      have h1 : (rl1 ++ w :: rl2).Perm ((rl1 ++ rl2) ++ [w]) :=
        (List.perm_middle).trans (List.perm_append_singleton w (rl1 ++ rl2)).symm
      rw [← hsplit, ← hw] at h1
      exact h1.trans hperm0
    exact hp.map _

theorem realCards_of_no_joker {l : List Card} (h : ∀ c ∈ l, isJoker c = false) :
    realCards l = l := by
  unfold realCards
  rw [List.filter_eq_self]
  intro a ha
  rw [h a ha]
  rfl

theorem realCards_append (l1 l2 : List Card) :
    realCards (l1 ++ l2) = realCards l1 ++ realCards l2 :=
  List.filter_append l1 l2

theorem sortedRealIdx_eq_of_realCards_eq {out R : List Card}
    (h : realCards out = sortedReals R) : sortedRealIdx out = sortedRealIdx R := by
  have hs : List.Sorted (· ≤ ·) ((sortedReals R).map (fun c => rankIdx c.value)) := by
    rw [List.Sorted, List.pairwise_map]
    exact sortedReals_sorted R
  have h2 : sortedRealIdx out =
      List.insertionSort (· ≤ ·) ((sortedReals R).map (fun c => rankIdx c.value)) := by
    unfold sortedRealIdx
    rw [h]
  rw [h2, List.Sorted.insertionSort_eq hs, ← sortedRealIdx_eq_map_sortedReals R]

/-- Claim C3: for every card multiset `R` with `validRun R = true` and exactly
one wildcard `w`, `normalizeRun` succeeds, the non-wildcards of its result are
exactly the real cards sorted ascending by rank, the wildcard (suit repainted
to the run suit) sits at the unique interior gap position when the reals have
a gap (total gap 1) and is appended at the end otherwise (total gap 0), and
re-validating the result with `validRun` returns true. -/
theorem c3_normalizeRun_places_wildcard (R : List Card) (w : Card)
    (hv : validRun R = true) (hw : R.filter (fun c => isJoker c) = [w]) :
    ∃ out r0 rr, normalizeRun R = some out ∧ sortedReals R = r0 :: rr ∧
      realCards out = sortedReals R ∧
      (gapTotal (sortedRealIdx R) = 0 ∨ gapTotal (sortedRealIdx R) = 1) ∧
      (gapTotal (sortedRealIdx R) = 0 →
        out = sortedReals R ++ [setJokerSuit r0.suit w]) ∧
      (gapTotal (sortedRealIdx R) = 1 →
        ∃ rl1 rl2 x y, sortedReals R = rl1 ++ rl2 ∧
          rl1.getLast? = some x ∧ rl2.head? = some y ∧
          rankIdx y.value = rankIdx x.value + 2 ∧
          out = rl1 ++ setJokerSuit r0.suit w :: rl2) ∧
      validRun out = true := by
  obtain ⟨hne, hjf, hndk, heqk, hchain, hge, hle, hjle⟩ := validRun_facts R hv
  obtain ⟨hlen3, hjok1, hreal2, ⟨s, hs⟩, hndv, hgap⟩ := (validRun_spec_equiv R).mp hv
  rcases hre2 : sortedReals R with _ | ⟨r0, rr⟩
  · exact absurd hre2 hne
  rw [hre2] at hjf hndk
  have hjw : isJoker w = true := by
    have : w ∈ R.filter (fun c => isJoker c) := by rw [hw]; exact List.mem_cons_self _ _
    exact List.of_mem_filter this
  have hjw2 : isJoker (setJokerSuit r0.suit w) = true := by
    rw [isJoker_setJokerSuit]; exact hjw
  have hlenreal : (r0 :: rr).length = (realCards R).length := by
    rw [← hre2]; exact (sortedReals_perm R).length_eq
  have hlenR : (realCards R).length + 1 = R.length := by
    have := real_joker_length R
    rw [hw] at this
    simpa using this
  have hmemreal : ∀ c ∈ (r0 :: rr), c ∈ realCards R := by
    intro c hc
    rw [← hre2] at hc
    exact (sortedReals_perm R).subset hc
  -- spec pieces shared by both cases, for a result with reals (r0 :: rr)
  -- and exactly the one repainted wildcard
  have houtSpec : ∀ out : List Card, realCards out = r0 :: rr →
      out.length = R.length → List.filter (fun c => isJoker c) out =
        [setJokerSuit r0.suit w] → validRun out = true := by
    intro out hro hlo hfo
    apply (validRun_spec_equiv out).mpr
    have hri : realCards out = sortedReals R := by rw [hro, hre2]
    refine ⟨by omega, by rw [hfo]; simp, ?_, ⟨s, ?_⟩, ?_, ?_⟩
    · rw [hro]
      omega
    · intro c hc
      rw [hro] at hc
      exact hs c (hmemreal c hc)
    · rw [hro]
      have hv2 : ((realCards R).map (fun c => c.value)).Nodup := hndv
      have := nodup_rankIdx_iff_nodup_value hjf |>.mp hndk
      exact this
    · rw [sortedRealIdx_eq_of_realCards_eq hri, hfo]
      simp only [List.length_cons, List.length_nil]
      rw [hw] at hle
      simpa using hle
  have hcase : gapTotal (sortedRealIdx R) = 0 ∨ gapTotal (sortedRealIdx R) = 1 := by omega
  rcases hcase with hg | hg
  · -- wildcard appended at the end
    have hnorm := normalizeRun_gap0 hv hre2 hg
    rw [hw] at hnorm
    have hform : (((r0 :: rr) ++ [w].reverse).map (setJokerSuit r0.suit)) =
        (r0 :: rr) ++ [setJokerSuit r0.suit w] := by
      rw [List.reverse_singleton, List.map_append, map_setJokerSuit_of_no_joker hjf]
      rfl
    rw [hform] at hnorm
    refine ⟨(r0 :: rr) ++ [setJokerSuit r0.suit w], r0, rr, hnorm, rfl, ?_, Or.inl hg,
      fun _ => rfl, fun h1 => by omega, ?_⟩
    · rw [realCards_append, realCards_of_no_joker hjf]
      have : realCards [setJokerSuit r0.suit w] = [] := by
        simp [realCards, List.filter, hjw2]
      rw [this, List.append_nil]
    · apply houtSpec
      · rw [realCards_append, realCards_of_no_joker hjf]
        have : realCards [setJokerSuit r0.suit w] = [] := by
          simp [realCards, List.filter, hjw2]
        rw [this, List.append_nil]
      · have h1 := hlenreal
        simp only [List.length_cons] at h1
        simp only [List.length_append, List.length_cons, List.length_nil]
        omega
      · rw [List.filter_append]
        have h1 : List.filter (fun c => isJoker c) (r0 :: rr) = [] := by
          rw [List.filter_eq_nil_iff]
          intro c hc
          rw [hjf c hc]
          simp
        have h2 : List.filter (fun c => isJoker c) [setJokerSuit r0.suit w] =
            [setJokerSuit r0.suit w] := by
          simp [List.filter, hjw2]
        rw [h1, h2, List.nil_append]
  · -- wildcard placed in the unique gap
    obtain ⟨rl1, rl2, hsplit, h1ne, h2ne, ⟨x, y, hx, hy, hxy⟩, hnorm⟩ :=
      normalizeRun_gap1 hv hre2 hw hg
    have hjf1 : ∀ c ∈ rl1, isJoker c = false := by
      intro c hc
      exact hjf c (by rw [hsplit]; exact List.mem_append.mpr (Or.inl hc))
    have hjf2 : ∀ c ∈ rl2, isJoker c = false := by
      intro c hc
      exact hjf c (by rw [hsplit]; exact List.mem_append.mpr (Or.inr hc))
    have hform : ((rl1 ++ w :: rl2).map (setJokerSuit r0.suit)) =
        rl1 ++ setJokerSuit r0.suit w :: rl2 := by
      rw [List.map_append, List.map_cons]
      rw [map_setJokerSuit_of_no_joker hjf1, map_setJokerSuit_of_no_joker hjf2]
    rw [hform] at hnorm
    have hro : realCards (rl1 ++ setJokerSuit r0.suit w :: rl2) = r0 :: rr := by
      rw [realCards_append, realCards_of_no_joker hjf1]
      have : realCards (setJokerSuit r0.suit w :: rl2) = realCards rl2 := by
        simp [realCards, List.filter, hjw2]
      rw [this, realCards_of_no_joker hjf2, ← hsplit]
    refine ⟨rl1 ++ setJokerSuit r0.suit w :: rl2, r0, rr, hnorm, rfl, ?_, Or.inr hg,
      fun h0 => by omega, ?_, ?_⟩
    · exact hro
    · intro _
      exact ⟨rl1, rl2, x, y, hsplit, hx, hy, hxy, rfl⟩
    · apply houtSpec _ hro
      · have h1 := hlenreal
        simp only [List.length_cons] at h1
        simp only [List.length_append, List.length_cons]
        have h2 := congrArg List.length hsplit
        simp only [List.length_cons, List.length_append] at h2
        omega
      · rw [List.filter_append]
        have h1 : List.filter (fun c => isJoker c) rl1 = [] := by
          rw [List.filter_eq_nil_iff]
          intro c hc
          rw [hjf1 c hc]
          simp
        have h2 : List.filter (fun c => isJoker c) (setJokerSuit r0.suit w :: rl2) =
            [setJokerSuit r0.suit w] := by
          have h3 : List.filter (fun c => isJoker c) rl2 = [] := by
            rw [List.filter_eq_nil_iff]
            intro c hc
            rw [hjf2 c hc]
            simp
          simp [List.filter, hjw2, h3]
        rw [h1, h2, List.nil_append]

theorem c3_normalizeRun_places_wildcard_witness :
    validRun [c5s, c3s, cJok] = true ∧
    List.filter (fun c => isJoker c) [c5s, c3s, cJok] = [cJok] ∧
    (∃ out r0 rr, normalizeRun [c5s, c3s, cJok] = some out ∧
      sortedReals [c5s, c3s, cJok] = r0 :: rr ∧
      realCards out = sortedReals [c5s, c3s, cJok] ∧
      (gapTotal (sortedRealIdx [c5s, c3s, cJok]) = 0 ∨
       gapTotal (sortedRealIdx [c5s, c3s, cJok]) = 1) ∧
      (gapTotal (sortedRealIdx [c5s, c3s, cJok]) = 0 →
        out = sortedReals [c5s, c3s, cJok] ++ [setJokerSuit r0.suit cJok]) ∧
      (gapTotal (sortedRealIdx [c5s, c3s, cJok]) = 1 →
        ∃ rl1 rl2 x y, sortedReals [c5s, c3s, cJok] = rl1 ++ rl2 ∧
          rl1.getLast? = some x ∧ rl2.head? = some y ∧
          rankIdx y.value = rankIdx x.value + 2 ∧
          out = rl1 ++ setJokerSuit r0.suit cJok :: rl2) ∧
      validRun out = true) :=
  ⟨by decide, by decide,
    c3_normalizeRun_places_wildcard [c5s, c3s, cJok] cJok (by decide) (by decide)⟩

/- ---------- CLAIM C7: rejected commands are no-ops ---------- -/

/-- Claim C7: a command whose preconditions fail leaves the room state
untouched (the model returns `none` exactly on the source's early returns
before any mutation); in particular an `endTurn` issued while the
current-turn player still has `mustDiscard = true` is rejected, whoever the
issuer is, and the state is unchanged. -/
theorem c7_rejected_commands_are_noops :
    (∀ (g : Game) (c : Command), applyCommand g c = none → runCommand g c = g) ∧
    (∀ (g : Game) (issuer : String) (p : Player),
      g.players.get? g.turn = some p → p.mustDiscard = true →
      applyCommand g (Command.endTurn issuer) = none ∧
      runCommand g (Command.endTurn issuer) = g) := by
  constructor
  · intro g c h
    unfold runCommand
    rw [h]
    rfl
  · intro g issuer p hp hm
    have hnone : endTurnStep g issuer = none := by
      unfold endTurnStep
      rw [hp]
      simp only []
      split_ifs with h1 h2 h3 h4 h5 <;> try rfl
    refine ⟨hnone, ?_⟩
    unfold runCommand
    have : applyCommand g (Command.endTurn issuer) = endTurnStep g issuer := rfl
    rw [this, hnone]
    rfl

/-- The turn player of `gMustDiscard`: has drawn from the closed pile and
must still discard. -/
def pMustDiscard : Player :=
  ⟨"s1", "p1", none, [c3s, c4s], [], false, true, true, 0, none⟩

/-- A two-player state in which the turn player has drawn from the closed
pile and must still discard. -/
def gMustDiscard : Game :=
  { teamMode := false, dealerIndex := 0, teamScores := none,
    players := [pMustDiscard,
                ⟨"s2", "p2", none, [c5s, c7s], [], false, false, false, 0, none⟩],
    closed := [c4h], openPile := [cJok], turn := 0,
    roundOver := false, winner := none, winnerPid := none, gameOver := false }

theorem c7_rejected_commands_are_noops_witness :
    gMustDiscard.players.get? gMustDiscard.turn = some pMustDiscard ∧
    pMustDiscard.mustDiscard = true ∧
    applyCommand gMustDiscard (Command.endTurn "s1") = none ∧
    runCommand gMustDiscard (Command.endTurn "s1") = gMustDiscard :=
  ⟨by decide, by decide,
    c7_rejected_commands_are_noops.2 gMustDiscard "s1" pMustDiscard (by decide) (by decide)⟩

/- ---------- HANDLER INVERSION LEMMAS ---------- -/

theorem drawClosedStep_inv {g : Game} {issuer : String} {g2 : Game}
    (h : drawClosedStep g issuer = some g2) :
    ∃ p c, g.players.get? g.turn = some p ∧ p.id = issuer ∧
      (g.roundOver = false ∧ g.gameOver = false) ∧ p.canDiscard = false ∧
      g.closed.getLast? = some c ∧
      g2 = { g with
        closed := g.closed.dropLast,
        players := g.players.set g.turn
          { p with hand := p.hand ++ [c], mustDiscard := true, canDiscard := true,
                   noDiscardCardId := none } } := by
  unfold drawClosedStep at h
  cases hp : g.players.get? g.turn with
  | none => rw [hp] at h; cases h
  | some p =>
    rw [hp] at h
    simp only [] at h
    split_ifs at h with h1 h2 h3
    cases hc : g.closed.getLast? with
    | none => rw [hc] at h; cases h
    | some c =>
      rw [hc] at h
      simp only [] at h
      refine ⟨p, c, rfl, by simpa using h1, ?_, by simpa using h3, rfl, (Option.some.inj h).symm⟩
      constructor
      · by_contra hro
        exact h2 (Or.inl (by simpa using hro))
      · by_contra hgo
        exact h2 (Or.inr (by simpa using hgo))

theorem drawOpenStep_inv {g : Game} {issuer : String} {count : Int} {g2 : Game}
    (h : drawOpenStep g issuer count = some g2) :
    ∃ p, g.players.get? g.turn = some p ∧ p.id = issuer ∧
      (g.roundOver = false ∧ g.gameOver = false) ∧ p.canDiscard = false ∧
      1 ≤ count ∧ count ≤ (g.openPile.length : Int) ∧
      g2 = { g with
        openPile := g.openPile.take (g.openPile.length - count.toNat),
        players := g.players.set g.turn
          { p with
            hand := p.hand ++ g.openPile.drop (g.openPile.length - count.toNat),
            mustDiscard := (g.openPile.take (g.openPile.length - count.toNat)).length = 0,
            canDiscard := true,
            noDiscardCardId :=
              if g.openPile.length = 1 ∧ count.toNat = 1 then
                match (g.openPile.drop (g.openPile.length - count.toNat)).head? with
                | some c => if c.id ≠ "" then some c.id else none
                | none => none
              else none } } := by
  unfold drawOpenStep at h
  cases hp : g.players.get? g.turn with
  | none => rw [hp] at h; cases h
  | some p =>
    rw [hp] at h
    simp only [] at h
    split_ifs at h with h1 h2 h3 h4 h5 h6
    · refine ⟨p, rfl, by simpa using h1, ⟨?_, ?_⟩, by simpa using h3, by omega, by omega, ?_⟩
      · by_contra hro
        exact h2 (Or.inl (by simpa using hro))
      · by_contra hgo
        exact h2 (Or.inr (by simpa using hgo))
      · rw [if_pos h6]
        exact (Option.some.inj h).symm
    · refine ⟨p, rfl, by simpa using h1, ⟨?_, ?_⟩, by simpa using h3, by omega, by omega, ?_⟩
      · by_contra hro
        exact h2 (Or.inl (by simpa using hro))
      · by_contra hgo
        exact h2 (Or.inr (by simpa using hgo))
      · rw [if_neg h6]
        exact (Option.some.inj h).symm

theorem endTurnStep_inv {g : Game} {issuer : String} {g2 : Game}
    (h : endTurnStep g issuer = some g2) :
    ∃ p, g.players.get? g.turn = some p ∧ p.id = issuer ∧
      (g.roundOver = false ∧ g.gameOver = false) ∧ p.canDiscard = true ∧
      p.mustDiscard = false ∧ mustPlayAllMeldsNow g p = false ∧
      g2 = { g with
        players := g.players.set g.turn
          { p with canDiscard := false, noDiscardCardId := none },
        turn := (g.turn + 1) % g.players.length } := by
  unfold endTurnStep at h
  cases hp : g.players.get? g.turn with
  | none => rw [hp] at h; cases h
  | some p =>
    rw [hp] at h
    simp only [] at h
    split_ifs at h with h1 h2 h3 h4 h5
    refine ⟨p, rfl, by simpa using h1, ?_, by simpa using h3, by simpa using h4,
      by simpa using h5, (Option.some.inj h).symm⟩
    constructor
    · by_contra hro
      exact h2 (Or.inl (by simpa using hro))
    · by_contra hgo
      exact h2 (Or.inr (by simpa using hgo))

theorem discardStep_inv {g : Game} {issuer : String} {index : Int} {g2 : Game}
    (h : discardStep g issuer index = some g2) :
    ∃ p card, g.players.get? g.turn = some p ∧ p.id = issuer ∧
      (g.roundOver = false ∧ g.gameOver = false) ∧ p.canDiscard = true ∧
      0 ≤ index ∧ index.toNat < p.hand.length ∧
      mustPlayAllMeldsNow g p = false ∧
      p.hand.get? index.toNat = some card ∧
      (let p2 := { p with hand := p.hand.eraseIdx index.toNat, noDiscardCardId := none,
                          mustDiscard := false, canDiscard := false }
       (p.hand.eraseIdx index.toNat = [] →
          g2 = checkWin (scoreRound { g with
            openPile := g.openPile ++ [card],
            players := g.players.set g.turn p2,
            roundOver := true, winner := some p.id, winnerPid := some p.pid })) ∧
       (p.hand.eraseIdx index.toNat ≠ [] →
          g2 = { g with
            openPile := g.openPile ++ [card],
            players := g.players.set g.turn p2,
            turn := (g.turn + 1) % g.players.length })) := by
  unfold discardStep at h
  cases hp : g.players.get? g.turn with
  | none => rw [hp] at h; cases h
  | some p =>
    rw [hp] at h
    simp only [] at h
    split_ifs at h with h1 h2 h3 h4 h5 h6 h7 h8
    · cases hc : p.hand.get? index.toNat with
      | none => rw [hc] at h; cases h
      | some card =>
        rw [hc] at h
        simp only [] at h
        refine ⟨p, card, rfl, by simpa using h1, ⟨?_, ?_⟩, by simpa using h3, by omega,
          by omega, by simpa using h6, hc, fun _ => (Option.some.inj h).symm,
          fun hne => absurd (List.length_eq_zero.mp h8) hne⟩
        · by_contra hro
          exact h2 (Or.inl (by simpa using hro))
        · by_contra hgo
          exact h2 (Or.inr (by simpa using hgo))
    · cases hc : p.hand.get? index.toNat with
      | none => rw [hc] at h; cases h
      | some card =>
        rw [hc] at h
        simp only [] at h
        refine ⟨p, card, rfl, by simpa using h1, ⟨?_, ?_⟩, by simpa using h3, by omega,
          by omega, by simpa using h6, hc,
          fun hemp => absurd (by rw [hemp]; rfl) h8,
          fun _ => (Option.some.inj h).symm⟩
        · by_contra hro
          exact h2 (Or.inl (by simpa using hro))
        · by_contra hgo
          exact h2 (Or.inr (by simpa using hgo))

theorem openRunStep_inv {g : Game} {issuer : String} {cardIds : List String} {g2 : Game}
    (h : openRunStep g issuer cardIds = some g2) :
    ∃ p cards normalized, g.players.get? g.turn = some p ∧ p.id = issuer ∧
      (g.roundOver = false ∧ g.gameOver = false) ∧ p.canDiscard = true ∧
      3 ≤ cardIds.length ∧
      cardIds.mapM (fun i => p.hand.find? (fun c => c.id = i)) = some cards ∧
      (cards.filter (fun c => isJoker c)).length ≤ 1 ∧
      validRun cards = true ∧
      normalizeRun cards = some normalized ∧
      (let p2 : Player := { p with hand := p.hand.filter (fun c => ¬ cardIds.contains c.id), openedSets := p.openedSets ++ [normalized], opened := true }
       g2 = { g with players := g.players.set g.turn p2 }) := by
  unfold openRunStep at h
  cases hp : g.players.get? g.turn with
  | none => rw [hp] at h; cases h
  | some p =>
    rw [hp] at h
    simp only [] at h
    split_ifs at h with h1 h2 h3 h4
    cases hm : cardIds.mapM (fun i => p.hand.find? (fun c => c.id = i)) with
    | none => rw [hm] at h; cases h
    | some cards =>
      rw [hm] at h
      simp only [] at h
      split_ifs at h with h5 h6
      cases hn : normalizeRun cards with
      | none => rw [hn] at h; cases h
      | some normalized =>
        rw [hn] at h
        simp only [] at h
        refine ⟨p, cards, normalized, rfl, by simpa using h1, ⟨?_, ?_⟩, by simpa using h3,
          by omega, hm, by omega, by simpa using h6, hn, (Option.some.inj h).symm⟩
        · by_contra hro
          exact h2 (Or.inl (by simpa using hro))
        · by_contra hgo
          exact h2 (Or.inr (by simpa using hgo))

theorem playerWentOutStep_inv {g : Game} {issuer : String} {g2 : Game}
    (h : playerWentOutStep g issuer = some g2) :
    ∃ p, g.players.get? g.turn = some p ∧ p.id = issuer ∧
      (g.roundOver = false ∧ g.gameOver = false) ∧ p.hand = [] ∧ p.canDiscard = true ∧
      g2 = checkWin (scoreRound { g with
        players := g.players.set g.turn { p with mustDiscard := false, canDiscard := false },
        roundOver := true, winner := some p.id, winnerPid := some p.pid }) := by
  unfold playerWentOutStep at h
  cases hp : g.players.get? g.turn with
  | none => rw [hp] at h; cases h
  | some p =>
    rw [hp] at h
    simp only [] at h
    split_ifs at h with h1 h2 h3 h4
    refine ⟨p, rfl, by simpa using h1, ⟨?_, ?_⟩, ?_, by simpa using h4,
      (Option.some.inj h).symm⟩
    · by_contra hro
      exact h2 (Or.inl (by simpa using hro))
    · by_contra hgo
      exact h2 (Or.inr (by simpa using hgo))
    · have : p.hand.length = 0 := by omega
      exact List.length_eq_zero.mp this

theorem addToRunStep_inv {g : Game} {issuer targetPlayer : String} {runIndex : Int}
    {cardIds : List String} {g2 : Game}
    (h : addToRunStep g issuer targetPlayer runIndex cardIds = some g2) :
    ∃ me owner add norm,
      (g.roundOver = false ∧ g.gameOver = false) ∧
      g.players.find? (fun pp => pp.id = issuer) = some me ∧
      g.players.find? (fun pp => pp.id = targetPlayer) = some owner ∧
      me.opened = true ∧ me.canDiscard = true ∧
      0 ≤ runIndex ∧ runIndex.toNat < owner.openedSets.length ∧
      (g.teamMode = true → me.team = owner.team) ∧
      (g.teamMode = false → me.id = owner.id) ∧
      1 ≤ cardIds.length ∧
      cardIds.mapM (fun i => me.hand.find? (fun c => c.id = i)) = some add ∧
      (let original := (owner.openedSets.get? runIndex.toNat).getD []
       ((original.filter (fun c => isJoker c)).length +
          (add.filter (fun c => isJoker c)).length ≤ 1) ∧
       validRun (original ++ add) = true ∧
       normalizeRun (original ++ add) = some norm) ∧
      g2 = { g with players := listModify (listModify g.players (g.players.findIdx (fun pp => pp.id = targetPlayer)) (fun pp => { pp with openedSets := pp.openedSets.set runIndex.toNat norm })) (g.players.findIdx (fun pp => pp.id = issuer)) (fun pp => { pp with hand := pp.hand.filter (fun c => ¬ cardIds.contains c.id) }) } := by
  unfold addToRunStep at h
  split_ifs at h with h1
  revert h
  cases hme : g.players.find? (fun pp => pp.id = issuer) with
  | none => intro h; exact Option.noConfusion h
  | some me =>
  cases how : g.players.find? (fun pp => pp.id = targetPlayer) with
  | none => intro h; exact Option.noConfusion h
  | some owner =>
  intro h
  simp only [] at h
  unfold addToRunValidated at h
  split_ifs at h with h2 h3 h4 h5 h6 h7 h8
  revert h
  cases hm : cardIds.mapM (fun i => me.hand.find? (fun c => c.id = i)) with
  | none => intro h; exact Option.noConfusion h
  | some add =>
  intro h
  simp only [] at h
  unfold addToRunCommit at h
  split_ifs at h with h9 h10 h11
  revert h
  cases hn : normalizeRun ((owner.openedSets.get? runIndex.toNat).getD [] ++ add) with
  | none => intro h; exact Option.noConfusion h
  | some norm =>
  intro h
  simp only [] at h
  refine ⟨me, owner, add, norm, ⟨?_, ?_⟩, rfl, rfl, by simpa using h2,
    by simpa using h3, by omega, by omega, ?_, ?_, by omega, hm,
    ⟨by omega, by simpa using h11, hn⟩, (Option.some.inj h).symm⟩
  · by_contra hro
    exact h1 (Or.inl (by simpa using hro))
  · by_contra hgo
    exact h1 (Or.inr (by simpa using hgo))
  · intro ht
    by_contra hteam
    exact h6 ⟨by simpa using ht, hteam⟩
  · intro ht
    by_contra hid
    refine h7 ⟨?_, hid⟩
    simp [ht]

/- ---------- CLAIM C10: openRun / addToRun frame ---------- -/

theorem map_score_set {l : List Player} {i : Nat} {p p2 : Player}
    (hp : l.get? i = some p) (hs : p2.score = p.score) :
    (l.set i p2).map (fun q => q.score) = l.map (fun q => q.score) := by
  induction l generalizing i with
  | nil => cases hp
  | cons a rest ih =>
    cases i with
    | zero =>
      have : a = p := Option.some.inj hp
      subst this
      simp [hs]
    | succ j =>
      simp only [List.set_cons_succ, List.map_cons]
      rw [ih hp]

theorem map_score_listModify {l : List Player} {i : Nat} {f : Player → Player}
    (hf : ∀ p, (f p).score = p.score) :
    (listModify l i f).map (fun q => q.score) = l.map (fun q => q.score) := by
  unfold listModify
  cases h : l.get? i with
  | none => rfl
  | some x => exact map_score_set h (hf x)

/-- Claim C10: an accepted `openRun` or `addToRun` changes none of
`roundOver`, `winner`, `winnerPid`, `gameOver`, the turn index, or any
player's score — even when it empties the acting player's hand, the round
does not end and no scoring runs. -/
theorem c10_meld_commands_frame :
    (∀ (g : Game) (issuer : String) (cardIds : List String) (g2 : Game),
      openRunStep g issuer cardIds = some g2 →
      g2.roundOver = g.roundOver ∧ g2.winner = g.winner ∧ g2.winnerPid = g.winnerPid ∧
      g2.gameOver = g.gameOver ∧ g2.turn = g.turn ∧
      g2.players.map (fun q => q.score) = g.players.map (fun q => q.score)) ∧
    (∀ (g : Game) (issuer targetPlayer : String) (runIndex : Int)
        (cardIds : List String) (g2 : Game),
      addToRunStep g issuer targetPlayer runIndex cardIds = some g2 →
      g2.roundOver = g.roundOver ∧ g2.winner = g.winner ∧ g2.winnerPid = g.winnerPid ∧
      g2.gameOver = g.gameOver ∧ g2.turn = g.turn ∧
      g2.players.map (fun q => q.score) = g.players.map (fun q => q.score)) := by
  constructor
  · intro g issuer cardIds g2 h
    obtain ⟨p, cards, normalized, hp, _, _, _, _, _, _, _, _, hg2⟩ := openRunStep_inv h
    subst hg2
    refine ⟨rfl, rfl, rfl, rfl, rfl, ?_⟩
    exact map_score_set hp rfl
  · intro g issuer targetPlayer runIndex cardIds g2 h
    obtain ⟨me, owner, add, norm, _, _, _, _, _, _, _, _, _, _, _, _, hg2⟩ := addToRunStep_inv h
    subst hg2
    refine ⟨rfl, rfl, rfl, rfl, rfl, ?_⟩
    simp only []
    refine Eq.trans (map_score_listModify ?_) (map_score_listModify ?_) <;> intro p <;> rfl

def c6s : Card := ⟨"a6", Rank.r6, Suit.spades, 1⟩

/-- A state whose turn player can open a run that empties their hand. -/
def gOpenW : Game :=
  { teamMode := false, dealerIndex := 0, teamScores := none,
    players := [⟨"s1", "p1", none, [c3s, c4s, c5s], [], false, false, true, 0, none⟩],
    closed := [c7s], openPile := [c4h], turn := 0,
    roundOver := false, winner := none, winnerPid := none, gameOver := false }

def gOpenW2 : Game := (openRunStep gOpenW "s1" ["a3", "a4", "a5"]).getD gOpenW

/-- A state whose turn player can add their last card to their own run. -/
def gAddW : Game :=
  { teamMode := false, dealerIndex := 0, teamScores := none,
    players := [⟨"s1", "p1", none, [c6s], [[c3s, c4s, c5s]], true, false, true, 0, none⟩],
    closed := [c7s], openPile := [c4h], turn := 0,
    roundOver := false, winner := none, winnerPid := none, gameOver := false }

def gAddW2 : Game := (addToRunStep gAddW "s1" "s1" 0 ["a6"]).getD gAddW

theorem c10_meld_commands_frame_witness :
    openRunStep gOpenW "s1" ["a3", "a4", "a5"] = some gOpenW2 ∧
    addToRunStep gAddW "s1" "s1" 0 ["a6"] = some gAddW2 ∧
    (gOpenW2.roundOver = gOpenW.roundOver ∧ gOpenW2.winner = gOpenW.winner ∧
      gOpenW2.winnerPid = gOpenW.winnerPid ∧ gOpenW2.gameOver = gOpenW.gameOver ∧
      gOpenW2.turn = gOpenW.turn ∧
      gOpenW2.players.map (fun q => q.score) = gOpenW.players.map (fun q => q.score)) ∧
    (gAddW2.roundOver = gAddW.roundOver ∧ gAddW2.winner = gAddW.winner ∧
      gAddW2.winnerPid = gAddW.winnerPid ∧ gAddW2.gameOver = gAddW.gameOver ∧
      gAddW2.turn = gAddW.turn ∧
      gAddW2.players.map (fun q => q.score) = gAddW.players.map (fun q => q.score)) :=
  ⟨by decide, by decide,
   c10_meld_commands_frame.1 gOpenW "s1" ["a3", "a4", "a5"] gOpenW2 (by decide),
   c10_meld_commands_frame.2 gAddW "s1" "s1" 0 ["a6"] gAddW2 (by decide)⟩

/- ---------- CLAIM C8: drawOpen effects and restriction lifecycle ---------- -/

theorem get?_set_self {α : Type} {l : List α} {i : Nat} {x a : α}
    (h : l.get? i = some x) : (l.set i a).get? i = some a := by
  induction l generalizing i with
  | nil => cases h
  | cons b rest ih =>
    cases i with
    | zero => rfl
    | succ j => exact ih h

theorem checkWin_players (g : Game) : (checkWin g).players = g.players := by
  unfold checkWin
  split_ifs <;> rfl

theorem checkWin_frame (g : Game) :
    (checkWin g).roundOver = g.roundOver ∧ (checkWin g).winner = g.winner ∧
    (checkWin g).winnerPid = g.winnerPid ∧ (checkWin g).turn = g.turn ∧
    (checkWin g).openPile = g.openPile ∧ (checkWin g).closed = g.closed := by
  unfold checkWin
  split_ifs <;> exact ⟨rfl, rfl, rfl, rfl, rfl, rfl⟩

theorem scoreRound_frame (g : Game) :
    (scoreRound g).roundOver = g.roundOver ∧ (scoreRound g).winner = g.winner ∧
    (scoreRound g).winnerPid = g.winnerPid ∧ (scoreRound g).turn = g.turn ∧
    (scoreRound g).openPile = g.openPile ∧ (scoreRound g).closed = g.closed := by
  unfold scoreRound
  split_ifs <;> exact ⟨rfl, rfl, rfl, rfl, rfl, rfl⟩

theorem get?_map_fields {f : Player → Player} {l : List Player} {i : Nat} {p : Player}
    (h : l.get? i = some p) : (l.map f).get? i = some (f p) := by
  rw [List.get?_map, h]
  rfl

theorem teamMirrorPlayer_fields (ts2 : Int × Int) (p : Player) :
    (teamMirrorPlayer ts2 p).noDiscardCardId = p.noDiscardCardId ∧
    (teamMirrorPlayer ts2 p).hand = p.hand ∧
    (teamMirrorPlayer ts2 p).mustDiscard = p.mustDiscard ∧
    (teamMirrorPlayer ts2 p).canDiscard = p.canDiscard ∧
    (teamMirrorPlayer ts2 p).id = p.id ∧
    (teamMirrorPlayer ts2 p).pid = p.pid ∧
    (teamMirrorPlayer ts2 p).opened = p.opened ∧
    (teamMirrorPlayer ts2 p).openedSets = p.openedSets := by
  unfold teamMirrorPlayer
  rcases hpt : p.team with _ | (_ | (_ | k)) <;>
    exact ⟨rfl, rfl, rfl, rfl, rfl, rfl, rfl, rfl⟩

/-- `scoreRound` only rewrites scores (and, in team mode, the team mirror):
every other per-player field survives at every index. -/
theorem scoreRound_get?_fields (g : Game) (i : Nat) {p : Player}
    (h : g.players.get? i = some p) :
    ∃ q, (scoreRound g).players.get? i = some q ∧
      q.noDiscardCardId = p.noDiscardCardId ∧ q.hand = p.hand ∧
      q.mustDiscard = p.mustDiscard ∧ q.canDiscard = p.canDiscard ∧
      q.id = p.id ∧ q.pid = p.pid ∧ q.opened = p.opened ∧
      q.openedSets = p.openedSets := by
  unfold scoreRound
  split_ifs with hteam
  · refine ⟨_, get?_map_fields h, ?_, ?_, ?_, ?_, ?_, ?_, ?_, ?_⟩
    · exact (teamMirrorPlayer_fields _ p).1
    · exact (teamMirrorPlayer_fields _ p).2.1
    · exact (teamMirrorPlayer_fields _ p).2.2.1
    · exact (teamMirrorPlayer_fields _ p).2.2.2.1
    · exact (teamMirrorPlayer_fields _ p).2.2.2.2.1
    · exact (teamMirrorPlayer_fields _ p).2.2.2.2.2.1
    · exact (teamMirrorPlayer_fields _ p).2.2.2.2.2.2.1
    · exact (teamMirrorPlayer_fields _ p).2.2.2.2.2.2.2
  · exact ⟨_, get?_map_fields h, rfl, rfl, rfl, rfl, rfl, rfl, rfl, rfl⟩

/-- Claim C8: an accepted `drawOpen` of N cards moves the top N cards into the
player's hand; `mustDiscard` is set exactly when the draw empties the open
pile; when the pile held exactly one card and exactly that card was drawn, a
restriction recording that card's id is stored, and no restriction otherwise;
the restriction is cleared by any successful discard or end-turn.  (Card ids
are uuids, hence the nonempty-id hypothesis on the open pile.) -/
theorem c8_drawOpen_effects_and_restriction :
    (∀ (g : Game) (issuer : String) (count : Int) (g2 : Game) (p : Player),
      g.players.get? g.turn = some p →
      drawOpenStep g issuer count = some g2 →
      (∀ c ∈ g.openPile, c.id ≠ "") →
      ∃ p2, g2.players.get? g.turn = some p2 ∧
        p2.hand = p.hand ++ g.openPile.drop (g.openPile.length - count.toNat) ∧
        g2.openPile = g.openPile.take (g.openPile.length - count.toNat) ∧
        (p2.mustDiscard = true ↔ g2.openPile = []) ∧
        p2.canDiscard = true ∧
        (g.openPile.length = 1 ∧ count = 1 →
          ∃ c, g.openPile = [c] ∧ p2.noDiscardCardId = some c.id) ∧
        (¬(g.openPile.length = 1 ∧ count = 1) → p2.noDiscardCardId = none)) ∧
    (∀ (g : Game) (issuer : String) (index : Int) (g2 : Game),
      discardStep g issuer index = some g2 →
      ∃ p2, g2.players.get? g.turn = some p2 ∧ p2.noDiscardCardId = none) ∧
    (∀ (g : Game) (issuer : String) (g2 : Game),
      endTurnStep g issuer = some g2 →
      ∃ p2, g2.players.get? g.turn = some p2 ∧ p2.noDiscardCardId = none) := by
  refine ⟨?_, ?_, ?_⟩
  · intro g issuer count g2 p hp h hid
    obtain ⟨p', hp', hpid, hlive, hcd, hc1, hc2, hg2⟩ := drawOpenStep_inv h
    rw [hp] at hp'
    have hpe : p' = p := (Option.some.inj hp').symm
    subst hpe
    subst hg2
    refine ⟨_, get?_set_self hp, rfl, rfl, ?_, rfl, ?_, ?_⟩
    · simp only [decide_eq_true_eq, List.length_eq_zero]
    · rintro ⟨hl1, hcount⟩
      have hn1 : count.toNat = 1 := by omega
      obtain ⟨c, hc⟩ := List.length_eq_one.mp hl1
      refine ⟨c, hc, ?_⟩
      have hcid : c.id ≠ "" := hid c (by rw [hc]; exact List.mem_cons_self _ _)
      simp only [hl1, hn1, and_self, if_pos, hc]
      simp [hcid]
    · intro hneg
      rw [if_neg ?hcond]
      case hcond =>
        rintro ⟨ha, hb⟩
        exact hneg ⟨ha, by omega⟩
  · intro g issuer index g2 h
    obtain ⟨p, card, hp, _, _, _, _, _, _, _, hcases⟩ := discardStep_inv h
    by_cases hemp : p.hand.eraseIdx index.toNat = []
    · have hg2 := hcases.1 hemp
      subst hg2
      rw [checkWin_players]
      obtain ⟨q, hq, hqn, _⟩ := scoreRound_get?_fields
        { g with openPile := g.openPile ++ [card],
                 players := g.players.set g.turn
                   { p with hand := p.hand.eraseIdx index.toNat, noDiscardCardId := none,
                            mustDiscard := false, canDiscard := false },
                 roundOver := true, winner := some p.id, winnerPid := some p.pid }
        g.turn (get?_set_self hp)
      exact ⟨q, hq, hqn⟩
    · have hg2 := hcases.2 hemp
      subst hg2
      exact ⟨_, get?_set_self hp, rfl⟩
  · intro g issuer g2 h
    obtain ⟨p, hp, _, _, _, _, _, hg2⟩ := endTurnStep_inv h
    subst hg2
    exact ⟨_, get?_set_self hp, rfl⟩

def pC8a : Player := ⟨"s1", "p1", none, [c3s], [], false, false, false, 0, none⟩

def pC8z : Player := ⟨"s2", "p2", none, [c4h], [], false, false, false, 0, none⟩

def gC8 : Game := ⟨false, 0, none, [pC8a, pC8z], [c4s], [c7s], 0, false, none, none, false⟩

def pC8b : Player := ⟨"s1", "p1", none, [c3s, c4s], [], false, false, true, 0, some "zz"⟩

def gC8b : Game := ⟨false, 0, none, [pC8b, pC8z], [c4s], [], 0, false, none, none, false⟩

def pC8c : Player := ⟨"s1", "p1", none, [c3s], [], false, false, true, 0, some "a7"⟩

def gC8c : Game := ⟨false, 0, none, [pC8c, pC8z], [c4s], [], 0, false, none, none, false⟩

def gC8d : Game := (drawOpenStep gC8 "s1" 1).getD gC8

def gC8e : Game := (discardStep gC8b "s1" 0).getD gC8b

def gC8f : Game := (endTurnStep gC8c "s1").getD gC8c

theorem c8_drawOpen_effects_and_restriction_witness :
    (∃ p2, gC8d.players.get? gC8.turn = some p2 ∧
        p2.hand = pC8a.hand ++ gC8.openPile.drop (gC8.openPile.length - (1 : Int).toNat) ∧
        gC8d.openPile = gC8.openPile.take (gC8.openPile.length - (1 : Int).toNat) ∧
        (p2.mustDiscard = true ↔ gC8d.openPile = []) ∧
        p2.canDiscard = true ∧
        (gC8.openPile.length = 1 ∧ (1 : Int) = 1 →
          ∃ c, gC8.openPile = [c] ∧ p2.noDiscardCardId = some c.id) ∧
        (¬(gC8.openPile.length = 1 ∧ (1 : Int) = 1) → p2.noDiscardCardId = none)) ∧
    (∃ p2, gC8e.players.get? gC8b.turn = some p2 ∧ p2.noDiscardCardId = none) ∧
    (∃ p2, gC8f.players.get? gC8c.turn = some p2 ∧ p2.noDiscardCardId = none) :=
  ⟨c8_drawOpen_effects_and_restriction.1 gC8 "s1" 1 gC8d pC8a (by decide)
      (by decide) (by decide),
   c8_drawOpen_effects_and_restriction.2.1 gC8b "s1" 0 gC8e (by decide),
   c8_drawOpen_effects_and_restriction.2.2 gC8c "s1" gC8f (by decide)⟩

/- ---------- CLAIM C5: discard effects ---------- -/

/-- Claim C5: an accepted discard moves the selected card from the current
player's hand to the top of the open pile, clears `mustDiscard` and the
single-card restriction; if the hand is then empty the round ends (roundOver
set, winner recorded by live id and stable pid, scoring and the win check run)
with the turn index unchanged; otherwise `canDiscard` resets to false and the
turn advances to `(turn + 1) mod playerCount`. -/
theorem c5_discard_effects :
    ∀ (g : Game) (issuer : String) (index : Int) (g2 : Game),
      discardStep g issuer index = some g2 →
      ∃ p card, g.players.get? g.turn = some p ∧ p.id = issuer ∧
        p.hand.get? index.toNat = some card ∧
        g2.openPile = g.openPile ++ [card] ∧
        (∃ p2, g2.players.get? g.turn = some p2 ∧
          p2.hand = p.hand.eraseIdx index.toNat ∧
          p2.mustDiscard = false ∧ p2.noDiscardCardId = none) ∧
        (p.hand.eraseIdx index.toNat = [] →
          g2.roundOver = true ∧ g2.winner = some p.id ∧ g2.winnerPid = some p.pid ∧
          g2.turn = g.turn ∧
          g2 = checkWin (scoreRound { g with
            openPile := g.openPile ++ [card],
            players := g.players.set g.turn
              { p with hand := p.hand.eraseIdx index.toNat, noDiscardCardId := none,
                       mustDiscard := false, canDiscard := false },
            roundOver := true, winner := some p.id, winnerPid := some p.pid })) ∧
        (p.hand.eraseIdx index.toNat ≠ [] →
          g2.roundOver = false ∧ g2.gameOver = false ∧
          g2.turn = (g.turn + 1) % g.players.length ∧
          ∃ p2, g2.players.get? g.turn = some p2 ∧ p2.canDiscard = false) := by
  intro g issuer index g2 h
  obtain ⟨p, card, hp, hpid, hlive, hcd, hi0, hilen, hmpm, hcard, hcases⟩ :=
    discardStep_inv h
  refine ⟨p, card, hp, hpid, hcard, ?_⟩
  by_cases hemp : p.hand.eraseIdx index.toNat = []
  · have hg2 := hcases.1 hemp
    subst hg2
    refine ⟨?_, ?_, ?_, ?_⟩
    · rw [(checkWin_frame _).2.2.2.2.1, (scoreRound_frame _).2.2.2.2.1]
    · rw [checkWin_players]
      obtain ⟨q, hq, hqn, hqh, hqm, _⟩ := scoreRound_get?_fields
        { g with openPile := g.openPile ++ [card],
                 players := g.players.set g.turn
                   { p with hand := p.hand.eraseIdx index.toNat, noDiscardCardId := none,
                            mustDiscard := false, canDiscard := false },
                 roundOver := true, winner := some p.id, winnerPid := some p.pid }
        g.turn (get?_set_self hp)
      exact ⟨q, hq, hqh, hqm, hqn⟩
    · intro _
      refine ⟨?_, ?_, ?_, ?_, rfl⟩
      · rw [(checkWin_frame _).1, (scoreRound_frame _).1]
      · rw [(checkWin_frame _).2.1, (scoreRound_frame _).2.1]
      · rw [(checkWin_frame _).2.2.1, (scoreRound_frame _).2.2.1]
      · rw [(checkWin_frame _).2.2.2.1, (scoreRound_frame _).2.2.2.1]
    · intro hne
      exact absurd hemp hne
  · have hg2 := hcases.2 hemp
    subst hg2
    refine ⟨rfl, ⟨_, get?_set_self hp, rfl, rfl, rfl⟩, ?_, ?_⟩
    · intro he
      exact absurd he hemp
    · intro _
      refine ⟨hlive.1, hlive.2, rfl, _, get?_set_self hp, rfl⟩

theorem c5_discard_effects_witness :
    ∃ p card, gC8b.players.get? gC8b.turn = some p ∧ p.id = "s1" ∧
      p.hand.get? (0 : Int).toNat = some card ∧
      gC8e.openPile = gC8b.openPile ++ [card] ∧
      (∃ p2, gC8e.players.get? gC8b.turn = some p2 ∧
        p2.hand = p.hand.eraseIdx (0 : Int).toNat ∧
        p2.mustDiscard = false ∧ p2.noDiscardCardId = none) ∧
      (p.hand.eraseIdx (0 : Int).toNat = [] →
        gC8e.roundOver = true ∧ gC8e.winner = some p.id ∧ gC8e.winnerPid = some p.pid ∧
        gC8e.turn = gC8b.turn ∧
        gC8e = checkWin (scoreRound { gC8b with
          openPile := gC8b.openPile ++ [card],
          players := gC8b.players.set gC8b.turn
            { p with hand := p.hand.eraseIdx (0 : Int).toNat, noDiscardCardId := none,
                     mustDiscard := false, canDiscard := false },
          roundOver := true, winner := some p.id, winnerPid := some p.pid })) ∧
      (p.hand.eraseIdx (0 : Int).toNat ≠ [] →
        gC8e.roundOver = false ∧ gC8e.gameOver = false ∧
        gC8e.turn = (gC8b.turn + 1) % gC8b.players.length ∧
        ∃ p2, gC8e.players.get? gC8b.turn = some p2 ∧ p2.canDiscard = false) :=
  c5_discard_effects gC8b "s1" 0 gC8e (by decide)

/- ---------- CLAIM C6: individual-mode scoring ---------- -/

def cRunA : Card := ⟨"x1", Rank.r3, Suit.spades, 2⟩

def cRunB : Card := ⟨"x2", Rank.r4, Suit.spades, 2⟩

def cRunC : Card := ⟨"x3", Rank.r5, Suit.spades, 2⟩

def cHndA : Card := ⟨"y1", Rank.r9, Suit.hearts, 3⟩

def cHndB : Card := ⟨"y2", Rank.r10, Suit.hearts, 3⟩

def cHndC : Card := ⟨"y3", Rank.rJ, Suit.hearts, 3⟩

def pC6a : Player := ⟨"s1", "p1", none, [], [[cRunA, cRunB, cRunC]], true, false, false, 0, none⟩

def pC6b : Player := ⟨"s2", "p2", none, [cHndA, cHndB, cHndC], [], false, false, false, 0, none⟩

def gC6 : Game := ⟨false, 0, none, [pC6a, pC6b], [], [], 0, true, some "s1", some "p1", false⟩

/-- Claim C6: in individual mode `scoreRound` raises the winner's cumulative
score by (points of all cards in their opened runs) + 10 and shifts every
non-winner's score by openedPts − handPts, doubled when that player never
opened; in the concrete 2-player scenario (winner opened one run worth 6,
loser never opened holding 9 points of cards) the scores move +16 and −18. -/
theorem c6_individual_mode_scoring :
    (∀ (g : Game) (i : Nat) (p : Player), g.teamMode = false →
      g.players.get? i = some p →
      ∃ q, (scoreRound g).players.get? i = some q ∧
        (isRoundWinner g (resolvedWinnerPid g) p = true →
          q.score = p.score + (openedPts p + 10)) ∧
        (isRoundWinner g (resolvedWinnerPid g) p = false → p.opened = true →
          q.score = p.score + (openedPts p - handPts p)) ∧
        (isRoundWinner g (resolvedWinnerPid g) p = false → p.opened = false →
          q.score = p.score + 2 * (openedPts p - handPts p))) ∧
    (openedPts pC6a = 6 ∧ handPts pC6b = 9 ∧ pC6a.opened = true ∧
      pC6b.opened = false ∧ gC6.teamMode = false ∧
      (scoreRound gC6).players.map (fun p => p.score) = [16, -18]) := by
  constructor
  · intro g i p hteam hp
    unfold scoreRound
    split_ifs with ht
    · simp [hteam] at ht
    · refine ⟨_, get?_map_fields hp, ?_, ?_, ?_⟩
      · intro hw
        simp [scoreDelta, hw]
      · intro hw hop
        simp [scoreDelta, hw, hop]
      · intro hw hop
        simp [scoreDelta, hw, hop]
  · refine ⟨by decide, by decide, rfl, rfl, rfl, by decide⟩

theorem c6_individual_mode_scoring_witness :
    ∃ q, (scoreRound gC6).players.get? 0 = some q ∧
      (isRoundWinner gC6 (resolvedWinnerPid gC6) pC6a = true →
        q.score = pC6a.score + (openedPts pC6a + 10)) ∧
      (isRoundWinner gC6 (resolvedWinnerPid gC6) pC6a = false → pC6a.opened = true →
        q.score = pC6a.score + (openedPts pC6a - handPts pC6a)) ∧
      (isRoundWinner gC6 (resolvedWinnerPid gC6) pC6a = false → pC6a.opened = false →
        q.score = pC6a.score + 2 * (openedPts pC6a - handPts pC6a)) :=
  c6_individual_mode_scoring.1 gC6 0 pC6a rfl rfl

/- ---------- CLAIM C4: the mandatory-meld oracle ---------- -/

/-- The open clause as claim C4 words it: some sub-multiset of the hand forms
a valid run on its own. -/
def specCouldOpen (hand : List Card) : Prop :=
  ∃ l, l.Subperm hand ∧ validRun l = true

/-- The add clause as claim C4 words it: some run of a permitted owner is
extended to a valid run by a single hand card, or — when that run holds no
wildcard — by a wildcard of the hand together with one real hand card. -/
def specCouldAddClaim (g : Game) (me : Player) : Prop :=
  ∃ owner, owner ∈ allowedOwners g me ∧ ∃ run, run ∈ owner.openedSets ∧
    ((∃ c, c ∈ me.hand ∧ validRun (run ++ [c]) = true) ∨
     ((∀ c ∈ run, isJoker c = false) ∧
      ∃ l, l.Subperm me.hand ∧ ∃ w r, l = [w, r] ∧ isJoker w = true ∧
        isJoker r = false ∧ validRun (run ++ [w, r]) = true))

/-- `mustPlayMandatoryMeldsNow` exactly as claim C4 words it: the three gates
(closed pile empty, open pile non-empty, player has drawn) and then the
could-open-or-could-add disjunction. -/
def specMustPlayClaim (g : Game) (p : Player) : Prop :=
  g.closed = [] ∧ g.openPile ≠ [] ∧ p.canDiscard = true ∧
  (specCouldOpen p.hand ∨ specCouldAddClaim g p)

/-- A second wildcard, in another suit. -/
def cJokD : Card := ⟨"w2", Rank.r2, Suit.diamonds, 2⟩

def pC4 : Player := ⟨"s1", "p1", none, [cJok, c7s], [[c3s, c4s, c5s]], true, false, true, 0, none⟩

def gC4 : Game := ⟨false, 0, none, [pC4], [], [c4h], 0, false, none, none, false⟩

def pC4b : Player := ⟨"s1", "p1", none, [c3s, c6s, cJok, cJokD], [], false, false, true, 0, none⟩

def gC4b : Game := ⟨false, 0, none, [pC4b], [], [c4h], 0, false, none, none, false⟩

/-- Claim C4 as stated fails in both directions.  With hand {wildcard, 7♠}
and own run 3♠4♠5♠ the player could legally add the wildcard (as 6♠)
together with 7♠ — the claim's predicate holds — yet the code returns false:
its add scan tries single cards only and skips a wildcard aimed at a
wildcard-free run.  Conversely with hand {3♠, 6♠, wildcard, wildcard} the
code returns true — its open scan bridges the 2-gap with the total wildcard
count — yet no legal open exists, since `validRun` admits at most one
wildcard. -/
theorem c4_counterexample :
    (specMustPlayClaim gC4 pC4 ∧ mustPlayAllMeldsNow gC4 pC4 = false) ∧
    (mustPlayAllMeldsNow gC4b pC4b = true ∧ ¬ specMustPlayClaim gC4b pC4b) := by
  refine ⟨⟨⟨rfl, by decide, rfl, Or.inr ?_⟩, by decide⟩, by decide, ?_⟩
  · refine ⟨pC4, by decide, [c3s, c4s, c5s], by decide, Or.inr ?_⟩
    exact ⟨by decide, [cJok, c7s], List.Subperm.refl _, cJok, c7s, rfl,
      by decide, by decide, by decide⟩
  · rintro ⟨-, -, -, hor⟩
    rcases hor with hopen | hadd
    · obtain ⟨l, hsub, hv⟩ := hopen
      obtain ⟨hlen, hjok, hreal, -, -, hgap⟩ := (validRun_spec_equiv l).mp hv
      have hrsub : (realCards l).Subperm (realCards pC4b.hand) := by
        unfold realCards
        exact hsub.filter _
      have hrh : realCards pC4b.hand = [c3s, c6s] := by decide
      rw [hrh] at hrsub
      have hperm : (realCards l).Perm [c3s, c6s] :=
        hrsub.perm_of_length_le (by simpa using hreal)
      have hsri : sortedRealIdx l = [0, 3] := by
        apply List.eq_of_perm_of_sorted
          ((sortedRealIdx_perm l).trans ((hperm.map (fun c => rankIdx c.value)).trans (by decide)))
          (sortedRealIdx_sorted l)
        decide
      rw [hsri] at hgap
      have hjz : ((l.filter (fun c => isJoker c)).length : Int) ≤ 1 := by exact_mod_cast hjok
      have : gapTotal [0, 3] = 2 := by decide
      omega
    · obtain ⟨owner, howner, run, hrun, -⟩ := hadd
      have howner2 : owner = pC4b := by
        have : allowedOwners gC4b pC4b = [pC4b] := by decide
        rw [this, List.mem_singleton] at howner
        exact howner
      subst howner2
      have : pC4b.openedSets = [] := by decide
      rw [this] at hrun
      cases hrun

/-- A card list holding two or more wildcards never validates. -/
theorem validRun_of_two_jokers {cards : List Card}
    (h : 2 ≤ (cards.filter (fun c => isJoker c)).length) : validRun cards = false := by
  cases hv : validRun cards
  · rfl
  · obtain ⟨-, hjok, -⟩ := (validRun_spec_equiv cards).mp hv
    omega

/-- The add scan of the source tries single cards only and skips a wildcard
aimed at a wildcard-free run; since a wildcard aimed at a run that already
holds one would make two wildcards, the scan succeeds exactly when one single
REAL hand card extends a permitted run to a valid run. -/
theorem canAdd_iff_real_single (g : Game) (me : Player) :
    canAddAnyCardToAllowedRuns g me = true ↔
      (me.opened = true ∧ me.hand ≠ [] ∧
       ∃ owner, owner ∈ allowedOwners g me ∧ ∃ run, run ∈ owner.openedSets ∧
         ∃ c, c ∈ me.hand ∧ isJoker c = false ∧ validRun (run ++ [c]) = true) := by
  unfold canAddAnyCardToAllowedRuns
  split_ifs with h1 h2
  · simp only [Bool.false_eq_true, false_iff]
    rintro ⟨-, hne, -⟩
    exact hne (List.length_eq_zero.mp h2)
  · rw [List.any_eq_true]
    constructor
    · rintro ⟨owner, howner, hinner⟩
      rw [List.any_eq_true] at hinner
      obtain ⟨run, hrun, hcards⟩ := hinner
      rw [List.any_eq_true] at hcards
      obtain ⟨c, hc, hval⟩ := hcards
      by_cases hcond : (isJoker c = true ∧ ¬ (run.any (fun x => isJoker x) = true))
      · rw [if_pos (by simpa using hcond)] at hval
        cases hval
      · rw [if_neg (by simpa using hcond)] at hval
        refine ⟨by simpa using h1, fun hnil => h2 (by simp [hnil]), owner, howner, run, hrun, c, hc, ?_, hval⟩
        cases hjc : isJoker c
        · rfl
        · exfalso
          have hrj : run.any (fun x => isJoker x) = true := by
            by_contra hno
            exact hcond ⟨hjc, hno⟩
          rw [List.any_eq_true] at hrj
          obtain ⟨j, hjmem, hjj⟩ := hrj
          have h2j : 2 ≤ ((run ++ [c]).filter (fun x => isJoker x)).length := by
            rw [List.filter_append]
            have hj1 : j ∈ run.filter (fun x => isJoker x) := List.mem_filter.mpr ⟨hjmem, hjj⟩
            have hlen1 : 1 ≤ (run.filter (fun x => isJoker x)).length :=
              List.length_pos_of_mem hj1
            simp [hjc]
            omega
          rw [validRun_of_two_jokers h2j] at hval
          cases hval
    · rintro ⟨-, -, owner, howner, run, hrun, c, hc, hreal, hval⟩
      refine ⟨owner, howner, ?_⟩
      rw [List.any_eq_true]
      refine ⟨run, hrun, ?_⟩
      rw [List.any_eq_true]
      refine ⟨c, hc, ?_⟩
      rw [if_neg ?hc1]
      case hc1 =>
        rintro ⟨hj, -⟩
        rw [hreal] at hj
        cases hj
      exact hval
  · simp only [Bool.false_eq_true, false_iff]
    rintro ⟨ho, -⟩
    exact h1 (by simp [ho])

/-- Inverting a successful inner scan: some prefix of the walked suffix forms
a window whose accumulated gap stays within the joker budget and whose real
count satisfies the success conditions. -/
theorem scanInner_inv (j : Int) : ∀ (prev gaps rc : Int) (ys : List Int),
    scanInner j prev gaps rc ys = true →
    ∃ k : Nat, k < ys.length ∧
      gaps + gapTotal (prev :: ys.take (k + 1)) ≤ j ∧
      2 ≤ rc + ((k : Int) + 1) ∧ 3 ≤ rc + ((k : Int) + 1) + j
  | prev, gaps, rc, [] => by intro h; cases h
  | prev, gaps, rc, x :: rest => by
    intro h
    rw [scanInner] at h
    simp only [] at h
    by_cases hb : j < gaps + (x - prev - 1)
    · rw [if_pos hb] at h
      cases h
    · rw [if_neg hb] at h
      by_cases hs : (2 ≤ rc + 1 ∧ 3 ≤ rc + 1 + j)
      · refine ⟨0, by simp, ?_, by omega, by omega⟩
        simp only [List.take, gapTotal]
        omega
      · rw [if_neg hs] at h
        obtain ⟨k', hk', hg', h2', h3'⟩ :=
          scanInner_inv j x (gaps + (x - prev - 1)) (rc + 1) rest h
        refine ⟨k' + 1, by simpa using hk', ?_, ?_, ?_⟩
        · rw [List.take, gapTotal]
          push_cast at hg' ⊢
          omega
        · push_cast at h2' ⊢
          omega
        · push_cast at h3' ⊢
          omega

/-- Inverting a successful outer scan: some suffix start position succeeds. -/
theorem scanOuter_inv (j : Int) : ∀ (idx : List Int),
    scanOuter j idx = true →
    ∃ x rest, (x :: rest) <:+ idx ∧ scanInner j x 0 1 rest = true
  | [] => by intro h; cases h
  | x :: rest => by
    intro h
    rw [scanOuter, Bool.or_eq_true] at h
    rcases h with h | h
    · exact ⟨x, rest, List.suffix_refl _, h⟩
    · obtain ⟨y, rest', hsuf, hinner⟩ := scanOuter_inv j rest h
      exact ⟨y, rest', hsuf.trans (List.suffix_cons x rest), hinner⟩

/-- A successful outer scan yields a contiguous window of the sorted index
list: at least 2 entries, gap total within the joker budget, and enough total
cards. -/
theorem scanOuter_window {j : Int} {idx : List Int} (h : scanOuter j idx = true) :
    ∃ w, List.Sublist w idx ∧ 2 ≤ w.length ∧ gapTotal w ≤ j ∧
      3 ≤ (w.length : Int) + j := by
  obtain ⟨x, rest, hsuf, hinner⟩ := scanOuter_inv j idx h
  obtain ⟨k, hk, hg, h2, h3⟩ := scanInner_inv j x 0 1 rest hinner
  refine ⟨x :: rest.take (k + 1), ?_, ?_, ?_, ?_⟩
  · have hpre : List.Sublist (x :: rest.take (k + 1)) (x :: rest) :=
      (List.take_prefix (k + 1) rest).sublist.cons_cons x
    exact hpre.trans hsuf.sublist
  · rw [List.length_cons, List.length_take]
    omega
  · omega
  · have hlen : (rest.take (k + 1)).length = k + 1 := by
      rw [List.length_take]
      omega
    simp only [List.length_cons, hlen]
    push_cast
    omega

/-- With at least one joker in budget, the inner scan succeeds at the very
first step whenever the first gap fits. -/
theorem scanInner_pair {j x y : Int} (rest : List Int) (hgap : y - x - 1 ≤ j)
    (hj : 1 ≤ j) : scanInner j x 0 1 (y :: rest) = true := by
  rw [scanInner]
  simp only []
  split_ifs with h1 h2
  · exact absurd h1 (by omega)
  · rfl
  · exact absurd ⟨by omega, by omega⟩ h2

/-- With no joker budget, the inner scan succeeds on an adjacent ascending
triple. -/
theorem scanInner_triple {x : Int} (rest : List Int) :
    scanInner 0 x 0 1 ((x + 1) :: (x + 2) :: rest) = true := by
  rw [scanInner]
  simp only []
  split_ifs with h1 h2
  · exact absurd h1 (by omega)
  · exact absurd h2 (by omega)
  · rw [scanInner]
    simp only []
    split_ifs with h3 h4
    · exact absurd h3 (by omega)
    · rfl
    · exact absurd ⟨by omega, by omega⟩ h4

/-- The outer scan succeeds when two members at distance within the joker
budget exist and the budget is at least 1. -/
theorem scanOuter_of_mem_pair (j : Int) (hj : 1 ≤ j) :
    ∀ (idx : List Int), idx.Sorted (· ≤ ·) → ∀ s0 s1 : Int, s0 ∈ idx → s1 ∈ idx →
      s0 < s1 → s1 - s0 - 1 ≤ j → scanOuter j idx = true
  | [] => by intro _ s0 s1 h0; cases h0
  | x :: rest => by
    intro hsort s0 s1 h0 h1 hlt hgap
    obtain ⟨hx, hrest⟩ := List.sorted_cons.mp hsort
    rw [scanOuter, Bool.or_eq_true]
    by_cases h0r : s0 ∈ rest
    · have h1r : s1 ∈ rest := by
        rcases List.mem_cons.mp h1 with he | hm
        · exfalso
          have := hx s0 h0r
          omega
        · exact hm
      exact Or.inr (scanOuter_of_mem_pair j hj rest hrest s0 s1 h0r h1r hlt hgap)
    · have hx0 : s0 = x := by
        rcases List.mem_cons.mp h0 with he | hm
        · exact he
        · exact absurd hm h0r
      subst hx0
      have h1r : s1 ∈ rest := by
        rcases List.mem_cons.mp h1 with he | hm
        · omega
        · exact hm
      cases rest with
      | nil => cases h1r
      | cons y rest' =>
        left
        obtain ⟨hy, _⟩ := List.sorted_cons.mp hrest
        have hys1 : y ≤ s1 := by
          rcases List.mem_cons.mp h1r with he | hm
          · omega
          · exact hy s1 hm
        exact scanInner_pair rest' (by omega) hj

/-- The outer scan with empty joker budget succeeds when three consecutive
values are members of the strictly sorted index list. -/
theorem scanOuter_of_mem_triple :
    ∀ (idx : List Int), idx.Sorted (· < ·) → ∀ a : Int, a ∈ idx →
      (a + 1) ∈ idx → (a + 2) ∈ idx → scanOuter 0 idx = true
  | [] => by intro _ a h0; cases h0
  | x :: rest => by
    intro hsort a h0 h1 h2
    obtain ⟨hx, hrest⟩ := List.sorted_cons.mp hsort
    rw [scanOuter, Bool.or_eq_true]
    by_cases h0r : a ∈ rest
    · have h1r : (a + 1) ∈ rest := by
        rcases List.mem_cons.mp h1 with he | hm
        · exfalso
          have := hx a h0r
          omega
        · exact hm
      have h2r : (a + 2) ∈ rest := by
        rcases List.mem_cons.mp h2 with he | hm
        · exfalso
          have := hx a h0r
          omega
        · exact hm
      exact Or.inr (scanOuter_of_mem_triple rest hrest a h0r h1r h2r)
    · have hx0 : a = x := by
        rcases List.mem_cons.mp h0 with he | hm
        · exact he
        · exact absurd hm h0r
      subst hx0
      have h1r : (a + 1) ∈ rest := by
        rcases List.mem_cons.mp h1 with he | hm
        · omega
        · exact hm
      cases rest with
      | nil => cases h1r
      | cons y rest' =>
        left
        obtain ⟨hy, hrest'⟩ := List.sorted_cons.mp hrest
        have hxy : a < y := hx y (List.mem_cons_self _ _)
        have hy1 : y = a + 1 := by
          rcases List.mem_cons.mp h1r with he | hm
          · omega
          · have := hy (a + 1) hm
            omega
        subst hy1
        have h2r : (a + 2) ∈ rest' := by
          rcases List.mem_cons.mp h2 with he | hm
          · exfalso; omega
          · rcases List.mem_cons.mp hm with he' | hm'
            · exfalso; omega
            · exact hm'
        cases rest' with
        | nil => cases h2r
        | cons z rest'' =>
          have hz2 : z = a + 2 := by
            have hyz : a + 1 < z := hy z (List.mem_cons_self _ _)
            rcases List.mem_cons.mp h2r with he | hm
            · omega
            · obtain ⟨hz, _⟩ := List.sorted_cons.mp hrest'
              have := hz (a + 2) hm
              omega
          subst hz2
          exact scanInner_triple rest''

/-- `Subperm` transported through `map`. -/
theorem subperm_map {α β : Type} (f : α → β) {l₁ l₂ : List α}
    (h : l₁.Subperm l₂) : (l₁.map f).Subperm (l₂.map f) := by
  obtain ⟨m, hp, hsub⟩ := h
  exact ⟨m.map f, hp.map f, hsub.map f⟩

/-- Building an actual valid run out of a scan window: take the window's real
cards of the scanned suit plus every wildcard of the hand.  Needs at most one
wildcard in hand (the scan's budget counts all of them while `validRun`
admits one) and per-suit distinct ranks (duplicates make the scan's gap
arithmetic negative). -/
theorem exists_valid_subperm_of_window (hand : List Card) (s : Suit) (w : List Int)
    (hjok : (hand.filter (fun c => isJoker c)).length ≤ 1)
    (hnd : (suitIdxList hand s).Nodup)
    (hsub : List.Sublist w (List.insertionSort (· ≤ ·) (suitIdxList hand s)))
    (h2 : 2 ≤ w.length)
    (hg : gapTotal w ≤ ((hand.filter (fun c => isJoker c)).length : Int))
    (h3 : 3 ≤ (w.length : Int) + ((hand.filter (fun c => isJoker c)).length : Int)) :
    ∃ l, l.Subperm hand ∧ validRun l = true := by
  have hperm_idx : (List.insertionSort (· ≤ ·) (suitIdxList hand s)).Perm (suitIdxList hand s) :=
    List.perm_insertionSort _ _
  have hsorted_idx : (List.insertionSort (· ≤ ·) (suitIdxList hand s)).Sorted (· ≤ ·) :=
    List.sorted_insertionSort _ _
  have hw_sorted : w.Sorted (· ≤ ·) := hsorted_idx.sublist hsub
  have hwsub : w.Subperm (suitIdxList hand s) := hsub.subperm.trans hperm_idx.subperm
  obtain ⟨w', hw'p, hw's⟩ := hwsub
  obtain ⟨lc, hlc_sub, hlcmap⟩ := List.sublist_map_iff.mp hw's
  have hpred : ∀ c ∈ lc, isJoker c = false ∧ c.suit = s := by
    intro c hc
    have hmem := hlc_sub.subset hc
    have := List.of_mem_filter hmem
    simp only [decide_eq_true_eq] at this
    exact ⟨Bool.eq_false_iff.mpr this.1, this.2⟩
  have hlc_real : List.Sublist lc (hand.filter (fun c => !(isJoker c))) := by
    refine hlc_sub.trans (List.monotone_filter_right hand ?_)
    intro a ha
    simp only [decide_eq_true_eq] at ha
    cases hja : isJoker a
    · rfl
    · exact absurd hja ha.1
  refine ⟨hand.filter (fun c => isJoker c) ++ lc, ?_, ?_⟩
  · have happend : List.Sublist (hand.filter (fun c => isJoker c) ++ lc)
        (hand.filter (fun c => isJoker c) ++ hand.filter (fun c => !(isJoker c))) :=
      (List.Sublist.refl _).append hlc_real
    exact happend.subperm.trans (List.filter_append_perm _ hand).subperm
  · have hreal_eq : realCards (hand.filter (fun c => isJoker c) ++ lc) = lc := by
      unfold realCards
      rw [List.filter_append]
      have e1 : (hand.filter (fun c => isJoker c)).filter (fun c => !(isJoker c)) = [] := by
        refine List.filter_eq_nil.mpr ?_
        intro a ha
        simp [List.of_mem_filter ha]
      have e2 : lc.filter (fun c => !(isJoker c)) = lc := by
        refine List.filter_eq_self.mpr ?_
        intro a ha
        simp [(hpred a ha).1]
      rw [e1, e2, List.nil_append]
    have hjok_eq : (hand.filter (fun c => isJoker c) ++ lc).filter (fun c => isJoker c) =
        hand.filter (fun c => isJoker c) := by
      rw [List.filter_append]
      have e1 : (hand.filter (fun c => isJoker c)).filter (fun c => isJoker c) =
          hand.filter (fun c => isJoker c) :=
        List.filter_eq_self.mpr (fun a ha => List.of_mem_filter ha)
      have e2 : lc.filter (fun c => isJoker c) = [] := by
        refine List.filter_eq_nil.mpr ?_
        intro a ha
        simp [(hpred a ha).1]
      rw [e1, e2, List.append_nil]
    have hlc_len : lc.length = w.length := by
      have h1 : w'.length = lc.length := by rw [hlcmap, List.length_map]
      have h2 : w'.length = w.length := hw'p.length_eq
      omega
    have hmapw : lc.map (fun c => rankIdx c.value) = w' := hlcmap.symm
    have hsri : sortedRealIdx (hand.filter (fun c => isJoker c) ++ lc) = w := by
      unfold sortedRealIdx
      rw [hreal_eq, hmapw]
      refine List.eq_of_perm_of_sorted ((List.perm_insertionSort _ _).trans hw'p)
        (List.sorted_insertionSort _ _) hw_sorted
    apply (validRun_spec_equiv _).mpr
    refine ⟨?_, ?_, ?_, ⟨s, ?_⟩, ?_, ?_⟩
    · rw [List.length_append]
      omega
    · rw [hjok_eq]
      exact hjok
    · rw [hreal_eq]
      omega
    · rw [hreal_eq]
      intro c hc
      exact (hpred c hc).2
    · rw [hreal_eq]
      have hw'nd : w'.Nodup := by
        have hidx_nd : (List.insertionSort (· ≤ ·) (suitIdxList hand s)).Nodup :=
          hperm_idx.nodup_iff.mpr hnd
        exact hw'p.nodup_iff.mpr (hidx_nd.sublist hsub)
      rw [← hmapw] at hw'nd
      exact (nodup_rankIdx_iff_nodup_value (fun c hc => (hpred c hc).1)).mp hw'nd
    · rw [hsri, hjok_eq]
      exact hg

/-- Completeness of the open scan: whenever some sub-multiset of the hand is
a valid run, the scan reports true (per-suit distinct ranks assumed). -/
theorem canOpen_of_subperm_validRun (hand : List Card) (l : List Card)
    (hnodup : ∀ s : Suit, (suitIdxList hand s).Nodup)
    (hl : l.Subperm hand) (hv : validRun l = true) :
    canOpenAnyRunFromHand hand = true := by
  obtain ⟨hlen3, hjok1l, hreal2, ⟨s, hs⟩, hndval, hgap⟩ := (validRun_spec_equiv l).mp hv
  have hhlen : 3 ≤ hand.length := le_trans hlen3 hl.length_le
  have hJl : (l.filter (fun c => isJoker c)).length ≤ (hand.filter (fun c => isJoker c)).length :=
    (hl.filter _).length_le
  have hSperm := sortedRealIdx_perm l
  have hS_sorted := sortedRealIdx_sorted l
  have hS_len : (sortedRealIdx l).length = (realCards l).length := by
    rw [hSperm.length_eq, List.length_map]
  have hS_nodup : (sortedRealIdx l).Nodup :=
    hSperm.nodup_iff.mpr ((nodup_rankIdx_iff_nodup_value realCards_no_joker).mpr hndval)
  have hS_chain : (sortedRealIdx l).Chain' (· < ·) :=
    (chain'_lt_iff_nodup_of_sorted hS_sorted).mpr hS_nodup
  have hfeq : l.filter (fun c => ¬ isJoker c ∧ c.suit = s) = realCards l := by
    unfold realCards
    refine List.filter_congr ?_
    intro a ha
    cases hja : isJoker a
    · have hsa : a.suit = s := hs a (List.mem_filter.mpr ⟨ha, by simp [hja]⟩)
      simp [hja, hsa]
    · simp [hja]
  have hrc_sub : (realCards l).Subperm (hand.filter (fun c => ¬ isJoker c ∧ c.suit = s)) := by
    rw [← hfeq]
    exact hl.filter _
  have hSsub : (sortedRealIdx l).Subperm (List.insertionSort (· ≤ ·) (suitIdxList hand s)) := by
    refine hSperm.subperm.trans ?_
    refine (subperm_map (fun c => rankIdx c.value) hrc_sub).trans ?_
    exact (List.perm_insertionSort _ _).symm.subperm
  unfold canOpenAnyRunFromHand
  have hcond : ¬ hand.length < 3 := by omega
  rw [if_neg hcond]
  simp only []
  rw [List.any_eq_true]
  refine ⟨s, by cases s <;> simp, ?_⟩
  rw [Bool.and_eq_true, decide_eq_true_eq]
  have hidx_len := hSsub.length_le
  refine ⟨by omega, ?_⟩
  by_cases hJ1 : 1 ≤ ((hand.filter (fun c => isJoker c)).length : Int)
  · rcases hSeq : sortedRealIdx l with _ | ⟨s0, tail⟩
    · rw [hSeq] at hS_len
      simp at hS_len
      omega
    rcases tail with _ | ⟨s1, rest⟩
    · rw [hSeq] at hS_len
      simp at hS_len
      omega
    · rw [hSeq] at hS_chain
      have hlt : s0 < s1 := (List.chain'_cons.mp hS_chain).1
      have htail_chain : (s1 :: rest).Chain' (· < ·) := (List.chain'_cons.mp hS_chain).2
      have hgap_pair : s1 - s0 - 1 ≤ gapTotal (sortedRealIdx l) := by
        rw [hSeq, gapTotal]
        have := gapTotal_nonneg _ htail_chain
        omega
      have hs0 : s0 ∈ sortedRealIdx l := by
        rw [hSeq]
        exact List.mem_cons_self _ _
      have hs1 : s1 ∈ sortedRealIdx l := by
        rw [hSeq]
        exact List.mem_cons.mpr (Or.inr (List.mem_cons_self _ _))
      refine scanOuter_of_mem_pair _ hJ1 _ (List.sorted_insertionSort _ _) s0 s1
        (hSsub.subset hs0) (hSsub.subset hs1) hlt ?_
      have hcast : ((l.filter (fun c => isJoker c)).length : Int) ≤
          ((hand.filter (fun c => isJoker c)).length : Int) := by exact_mod_cast hJl
      omega
  · have hJ0 : (hand.filter (fun c => isJoker c)).length = 0 := by omega
    have hJl0 : (l.filter (fun c => isJoker c)).length = 0 := by omega
    have hgap0 : gapTotal (sortedRealIdx l) = 0 := by
      have hnn := gapTotal_nonneg _ hS_chain
      rw [hJl0] at hgap
      push_cast at hgap
      omega
    have hjc := jokers_count_eq l
    have hrc_le : (realCards l).length ≤ l.length := List.length_filter_le _ _
    have hrc3 : 3 ≤ (realCards l).length := by
      rw [hJl0] at hjc
      omega
    rcases hSeq : sortedRealIdx l with _ | ⟨s0, tail⟩
    · rw [hSeq] at hS_len
      simp at hS_len
      omega
    · have hrange : s0 :: tail = intRange s0 (tail.length + 1) := by
        apply chain_gapTotal_zero_eq_intRange
        · rw [← hSeq]
          exact hS_chain
        · rw [← hSeq]
          exact hgap0
      have hlen_t : 3 ≤ tail.length + 1 := by
        rw [hSeq] at hS_len
        simp at hS_len
        omega
      have hm0 : s0 ∈ sortedRealIdx l := by
        rw [hSeq]
        exact List.mem_cons_self _ _
      have hm1 : s0 + 1 ∈ sortedRealIdx l := by
        rw [hSeq, hrange]
        refine mem_intRange.mpr ⟨by omega, by push_cast; omega⟩
      have hm2 : s0 + 2 ∈ sortedRealIdx l := by
        rw [hSeq, hrange]
        refine mem_intRange.mpr ⟨by omega, by push_cast; omega⟩
      have hidx_nd : (List.insertionSort (· ≤ ·) (suitIdxList hand s)).Nodup :=
        (List.perm_insertionSort _ _).nodup_iff.mpr (hnodup s)
      have hidx_lt : (List.insertionSort (· ≤ ·) (suitIdxList hand s)).Sorted (· < ·) :=
        ((List.sorted_insertionSort _ _).and hidx_nd).imp
          (fun hab => lt_of_le_of_ne hab.1 hab.2)
      have hJ0' : ((hand.filter (fun c => isJoker c)).length : Int) = 0 := by
        rw [hJ0]
        rfl
      rw [hJ0']
      exact scanOuter_of_mem_triple _ hidx_lt s0 (hSsub.subset hm0)
        (hSsub.subset hm1) (hSsub.subset hm2)

/-- Under at most one wildcard in hand and per-suit distinct ranks, the open
scan is exactly the existence of a valid sub-multiset run. -/
theorem canOpen_iff_specCouldOpen (hand : List Card)
    (hjok : (hand.filter (fun c => isJoker c)).length ≤ 1)
    (hnodup : ∀ s : Suit, (suitIdxList hand s).Nodup) :
    canOpenAnyRunFromHand hand = true ↔ specCouldOpen hand := by
  constructor
  · intro h
    unfold canOpenAnyRunFromHand at h
    by_cases h1 : hand.length < 3
    · rw [if_pos h1] at h
      cases h
    · rw [if_neg h1] at h
      rw [List.any_eq_true] at h
      obtain ⟨s, hmem, hs⟩ := h
      rw [Bool.and_eq_true, decide_eq_true_eq] at hs
      obtain ⟨hlen2, houter⟩ := hs
      obtain ⟨w, hwsub, hw2, hwg, hw3⟩ := scanOuter_window houter
      exact exists_valid_subperm_of_window hand s w hjok (hnodup s) hwsub hw2 hwg hw3
  · rintro ⟨l, hsub, hval⟩
    exact canOpen_of_subperm_validRun hand l hnodup hsub hval

/-- Claim C4, amended.  The three gates are as claimed: the oracle returns
false whenever the closed pile is non-empty, the open pile is empty, or the
player has not drawn this turn.  When all gates hold it returns true exactly
when the player could legally open a run from their hand alone, or — having
already opened, with a non-empty hand — some single REAL hand card extends a
run they are permitted to touch to a valid run.  (Wildcards never extend
runs: the add scan skips a lone wildcard aimed at a wildcard-free run and a
wildcard aimed at a run already holding one would make two.  The
characterization assumes at most one wildcard in hand and no repeated
rank-within-suit; with two wildcards the open scan overapproximates, as the
counterexample records.) -/
theorem c4_mustPlay_amended (g : Game) (p : Player)
    (hjok : (p.hand.filter (fun c => isJoker c)).length ≤ 1)
    (hnodup : ∀ s : Suit, (suitIdxList p.hand s).Nodup) :
    mustPlayAllMeldsNow g p = true ↔
      (g.closed = [] ∧ g.openPile ≠ [] ∧ p.canDiscard = true ∧
        (specCouldOpen p.hand ∨
         (p.opened = true ∧ p.hand ≠ [] ∧
          ∃ owner, owner ∈ allowedOwners g p ∧ ∃ run, run ∈ owner.openedSets ∧
            ∃ c, c ∈ p.hand ∧ isJoker c = false ∧ validRun (run ++ [c]) = true))) := by
  unfold mustPlayAllMeldsNow
  by_cases h1 : g.closed.length ≠ 0
  · rw [if_pos h1]
    simp only [Bool.false_eq_true, false_iff]
    rintro ⟨hc, -⟩
    exact h1 (by rw [hc]; rfl)
  · rw [if_neg h1]
    by_cases h2 : g.openPile.length = 0
    · rw [if_pos h2]
      simp only [Bool.false_eq_true, false_iff]
      rintro ⟨-, hop, -⟩
      exact hop (List.length_eq_zero.mp h2)
    · rw [if_neg h2]
      by_cases h3 : ¬ p.canDiscard
      · rw [if_pos h3]
        simp only [Bool.false_eq_true, false_iff]
        rintro ⟨-, -, hcd, -⟩
        exact h3 (by simp [hcd])
      · rw [if_neg h3]
        rw [Bool.or_eq_true, canOpen_iff_specCouldOpen p.hand hjok hnodup,
            canAdd_iff_real_single]
        constructor
        · intro h
          refine ⟨?_, ?_, ?_, ?_⟩
          · have hc0 : g.closed.length = 0 := by
              by_contra hne
              exact h1 hne
            exact List.length_eq_zero.mp hc0
          · intro hnil
            exact h2 (by simp [hnil])
          · simpa using h3
          · exact h
        · rintro ⟨-, -, -, h⟩
          exact h

theorem c4_mustPlay_amended_witness :
    mustPlayAllMeldsNow gC4 pC4 = true ↔
      (gC4.closed = [] ∧ gC4.openPile ≠ [] ∧ pC4.canDiscard = true ∧
        (specCouldOpen pC4.hand ∨
         (pC4.opened = true ∧ pC4.hand ≠ [] ∧
          ∃ owner, owner ∈ allowedOwners gC4 pC4 ∧ ∃ run, run ∈ owner.openedSets ∧
            ∃ c, c ∈ pC4.hand ∧ isJoker c = false ∧ validRun (run ++ [c]) = true))) :=
  c4_mustPlay_amended gC4 pC4 (by decide) (by intro s; cases s <;> decide)

/- ---------- CLAIMS C1 and C9: shared infrastructure ---------- -/

theorem get?_decomp {α : Type} : ∀ (l : List α) (i : Nat) (x : α), l.get? i = some x →
    l = l.take i ++ x :: l.drop (i + 1)
  | [], i, x => by intro h; cases h
  | a :: t, 0, x => by
    intro h
    cases h
    rfl
  | a :: t, i + 1, x => by
    intro h
    have ih := get?_decomp t i x h
    calc a :: t = a :: (t.take i ++ x :: t.drop (i + 1)) := by rw [← ih]
    _ = (a :: t).take (i + 1) ++ x :: (a :: t).drop (i + 2) := rfl

theorem set_decomp {α : Type} {l : List α} {i : Nat} {x : α} (a : α)
    (h : l.get? i = some x) :
    l.set i a = l.take i ++ a :: l.drop (i + 1) := by
  rw [List.set_eq_take_append_cons_drop]
  rw [if_pos]
  exact (List.get?_eq_some.mp h).1

/-- `listModify` at a found index, decomposed. -/
theorem listModify_decomp {α : Type} {l : List α} {i : Nat} {x : α} (f : α → α)
    (h : l.get? i = some x) :
    listModify l i f = l.take i ++ f x :: l.drop (i + 1) := by
  unfold listModify
  rw [h]
  exact set_decomp (f x) h

/-- Mapping over a `set` that does not change the mapped view. -/
theorem map_set_eq {α β : Type} {l : List α} {i : Nat} {x : α} {a : α} (f : α → β)
    (h : l.get? i = some x) (hf : f a = f x) :
    (l.set i a).map f = l.map f := by
  rw [set_decomp a h]
  calc (l.take i ++ a :: l.drop (i + 1)).map f
      = (l.take i).map f ++ f a :: (l.drop (i + 1)).map f := by simp
  _ = (l.take i).map f ++ f x :: (l.drop (i + 1)).map f := by rw [hf]
  _ = (l.take i ++ x :: l.drop (i + 1)).map f := by simp
  _ = l.map f := by rw [← get?_decomp l i x h]

/-- Mapping over a `listModify` that does not change the mapped view. -/
theorem map_listModify_eq {α β : Type} {l : List α} {i : Nat} (f : α → β) (h : α → α)
    (hf : ∀ x, f (h x) = f x) : (listModify l i h).map f = l.map f := by
  unfold listModify
  cases hx : l.get? i with
  | none => rfl
  | some x => exact map_set_eq f hx (hf x)

/-- The fields of the players found by `listModify`'s function application. -/
theorem listModify_get? {α : Type} {l : List α} {i : Nat} {x : α} (f : α → α) (j : Nat)
    (h : l.get? i = some x) :
    (listModify l i f).get? j = if j = i then some (f x) else l.get? j := by
  unfold listModify
  rw [h]
  split_ifs with hj
  · subst hj
    exact get?_set_self h
  · exact List.get?_set_ne _ _ (Ne.symm hj)

theorem mem_iff_get?_aux {α : Type} {l : List α} {x : α} (h : x ∈ l) :
    ∃ n, l.get? n = some x := by
  induction l with
  | nil => cases h
  | cons a t ih =>
    rcases List.mem_cons.mp h with he | hm
    · exact ⟨0, by subst he; rfl⟩
    · obtain ⟨n, hn⟩ := ih hm
      exact ⟨n + 1, hn⟩

/-- What a successful `ids.map(id => hand.find(...))` (no `undefined` entry)
guarantees: the found cards carry exactly the requested ids, live in the
hand, and every requested id has its find-result among them. -/
theorem mapM_find?_facts (hand : List Card) : ∀ (ids : List String) (cards : List Card),
    ids.mapM (fun i => hand.find? (fun c => c.id = i)) = some cards →
    cards.map (fun c => c.id) = ids ∧ (∀ c ∈ cards, c ∈ hand) ∧
    (∀ i ∈ ids, ∃ c ∈ cards, hand.find? (fun c => c.id = i) = some c)
  | [], cards => by
    intro h
    cases h
    exact ⟨rfl, by simp, by simp⟩
  | i :: rest, cards => by
    intro h
    rw [List.mapM_cons] at h
    cases hf : hand.find? (fun c => c.id = i) with
    | none => rw [hf] at h; cases h
    | some c0 =>
      rw [hf] at h
      cases hm : rest.mapM (fun i => hand.find? (fun c => c.id = i)) with
      | none => rw [hm] at h; cases h
      | some cs =>
        rw [hm] at h
        simp only [Option.bind_eq_bind, Option.some_bind, Option.pure_def] at h
        cases h
        obtain ⟨hids, hmem, hforall⟩ := mapM_find?_facts hand rest cs hm
        refine ⟨?_, ?_, ?_⟩
        · rw [List.map_cons, hids]
          have := List.find?_some hf
          simp only [decide_eq_true_eq] at this
          rw [this]
        · intro c hc
          rcases List.mem_cons.mp hc with he | hmm
          · subst he
            exact List.mem_of_find?_eq_some hf
          · exact hmem c hmm
        · intro j hj
          rcases List.mem_cons.mp hj with he | hmm
          · subst he
            exact ⟨c0, List.mem_cons_self _ _, hf⟩
          · obtain ⟨c, hc, hcf⟩ := hforall j hmm
            exact ⟨c, List.mem_cons.mpr (Or.inr hc), hcf⟩

/-- A valid run never holds the same card instance twice: a repeated real
card repeats its rank, a repeated wildcard makes two wildcards. -/
theorem validRun_nodup {cards : List Card} (hv : validRun cards = true) : cards.Nodup := by
  by_contra hnd
  obtain ⟨x, hdup⟩ := List.exists_duplicate_iff_not_nodup.mpr hnd
  have hsub : List.Sublist [x, x] cards := List.duplicate_iff_sublist.mp hdup
  obtain ⟨-, hjok, -, -, hndval, -⟩ := (validRun_spec_equiv cards).mp hv
  cases hjx : isJoker x
  · have h1 : List.Sublist ([x, x].filter (fun c => !(isJoker c))) (realCards cards) := by
      unfold realCards
      exact hsub.filter _
    rw [show ([x, x].filter (fun c => !(isJoker c))) = [x, x] from by simp [hjx]] at h1
    have h2 : List.Sublist ([x, x].map (fun c => c.value))
        ((realCards cards).map (fun c => c.value)) := h1.map _
    have h3 := hndval.sublist h2
    simp at h3
  · have h1 : List.Sublist ([x, x].filter (fun c => isJoker c))
        (cards.filter (fun c => isJoker c)) := hsub.filter _
    rw [show ([x, x].filter (fun c => isJoker c)) = [x, x] from by simp [hjx]] at h1
    have h2 := h1.length_le
    simp at h2
    omega

/-- The meld commit splits the hand: removing the played ids and re-adding
the found cards recovers the hand, given uuid-distinct hand ids. -/
theorem hand_split_perm (hand : List Card) (cardIds : List String) (cards : List Card)
    (hnd : (hand.map (fun c => c.id)).Nodup)
    (hcardsnd : cards.Nodup)
    (hmapM : cardIds.mapM (fun i => hand.find? (fun c => c.id = i)) = some cards) :
    hand.Perm (hand.filter (fun c => ¬ cardIds.contains c.id) ++ cards) := by
  obtain ⟨hids, hmem, hforall⟩ := mapM_find?_facts hand cardIds cards hmapM
  have hhand_nd : hand.Nodup := hnd.of_map
  have hinj := List.inj_on_of_nodup_map hnd
  have hcardsperm : cards.Perm (hand.filter (fun c => cardIds.contains c.id)) := by
    refine List.Subperm.antisymm ?_ ?_
    · refine List.Nodup.subperm hcardsnd ?_
      intro c hc
      refine List.mem_filter.mpr ⟨hmem c hc, ?_⟩
      have : c.id ∈ cardIds := by
        rw [← hids]
        exact List.mem_map_of_mem _ hc
      simpa using this
    · refine List.Nodup.subperm (hhand_nd.filter _) ?_
      intro c hc
      have hch := List.mem_filter.mp hc
      have hcid : c.id ∈ cardIds := by simpa using hch.2
      obtain ⟨c', hc', hcf⟩ := hforall c.id hcid
      have hc'id : c'.id = c.id := by
        have := List.find?_some hcf
        simpa using this
      have : c' = c := hinj (hmem c' hc') hch.1 hc'id
      rw [← this]
      exact hc'
  have hbase := List.filter_append_perm (fun c => cardIds.contains c.id) hand
  have hfe : hand.filter (fun c => ¬ cardIds.contains c.id) =
      hand.filter (fun c => !(cardIds.contains c.id)) := by
    refine List.filter_congr ?_
    intro a _
    simp
  rw [hfe]
  have h1 : (hand.filter (fun c => !(cardIds.contains c.id)) ++ cards).Perm
      (hand.filter (fun c => !(cardIds.contains c.id)) ++
        hand.filter (fun c => cardIds.contains c.id)) :=
    hcardsperm.append_left _
  have h2 : (hand.filter (fun c => !(cardIds.contains c.id)) ++
      hand.filter (fun c => cardIds.contains c.id)).Perm
      (hand.filter (fun c => cardIds.contains c.id) ++
        hand.filter (fun c => !(cardIds.contains c.id))) := List.perm_append_comm
  exact (h1.trans (h2.trans hbase)).symm

theorem flatten_map_decomp {l : List Player} {i : Nat} {p : Player}
    (f : Player → List Card) (h : l.get? i = some p) :
    (l.map f).flatten = ((l.take i).map f).flatten ++ (f p ++ ((l.drop (i + 1)).map f).flatten) := by
  conv_lhs => rw [get?_decomp l i p h]
  simp

theorem flatten_map_set_decomp {l : List Player} {i : Nat} {p : Player} (q : Player)
    (f : Player → List Card) (h : l.get? i = some p) :
    ((l.set i q).map f).flatten =
      ((l.take i).map f).flatten ++ (f q ++ ((l.drop (i + 1)).map f).flatten) := by
  rw [set_decomp q h]
  simp

theorem allCards_checkWin (g : Game) : allCards (checkWin g) = allCards g := by
  unfold checkWin
  split_ifs <;> rfl

theorem allCards_scoreRound (g : Game) : allCards (scoreRound g) = allCards g := by
  unfold allCards
  rw [(scoreRound_frame g).2.2.2.2.1, (scoreRound_frame g).2.2.2.2.2]
  have hpl : (scoreRound g).players.map (fun p => p.hand ++ p.openedSets.flatten) =
      g.players.map (fun p => p.hand ++ p.openedSets.flatten) := by
    unfold scoreRound
    split_ifs
    · rw [List.map_map]
      refine List.map_congr_left ?_
      intro p _
      show (teamMirrorPlayer _ p).hand ++ (teamMirrorPlayer _ p).openedSets.flatten = _
      rw [(teamMirrorPlayer_fields _ p).2.1, (teamMirrorPlayer_fields _ p).2.2.2.2.2.2.2]
    · rw [List.map_map]
      refine List.map_congr_left ?_
      intro p _
      rfl
  rw [hpl]

theorem dealRound_cards_perm (rs : Bool) : ∀ (ps : List Player) (d : List Card),
    ((((dealRound rs ps d).1.map (fun p => p.hand ++ p.openedSets.flatten)).flatten)
      ++ (dealRound rs ps d).2).Perm d
  | [], d => by
    rw [dealRound]
    simp
  | p :: ps, d => by
    have ih := dealRound_cards_perm rs ps (d.drop handSize)
    rw [dealRound]
    simp only [List.map_cons, List.flatten_cons, List.flatten_nil, List.append_nil]
    rw [List.append_assoc]
    have h2 := ih.append_left (d.take handSize)
    rw [List.take_append_drop] at h2
    exact h2

theorem getLast?_decomp {α : Type} {l : List α} {c : α} (h : l.getLast? = some c) :
    l = l.dropLast ++ [c] := by
  cases l using List.reverseRecOn with
  | nil => cases h
  | append_singleton t a =>
    simp at h
    subst h
    simp

theorem player_zone_sublist {g : Game} {i : Nat} {p : Player}
    (hp : g.players.get? i = some p) :
    List.Sublist (p.hand ++ p.openedSets.flatten) (allCards g) := by
  unfold allCards
  rw [flatten_map_decomp (fun p => p.hand ++ p.openedSets.flatten) hp]
  refine List.Sublist.trans ?_ (List.sublist_append_left _ _)
  refine List.Sublist.trans ?_ (List.sublist_append_left _ _)
  refine List.Sublist.trans ?_ (List.sublist_append_right _ _)
  exact List.sublist_append_left _ _

/-- In a uuid-distinct room, each player's hand ids and opened-run ids are
distinct. -/
theorem player_ids_nodup {g : Game} {i : Nat} {p : Player}
    (hp : g.players.get? i = some p) (hnd : (allCardIds g).Nodup) :
    (p.hand.map (fun c => c.id)).Nodup ∧
    ((p.openedSets.flatten).map (fun c => c.id)).Nodup := by
  have hsub := player_zone_sublist hp
  have hzone : ((p.hand ++ p.openedSets.flatten).map (fun c => c.id)).Nodup :=
    hnd.sublist (hsub.map _)
  rw [List.map_append] at hzone
  exact ⟨hzone.of_append_left, hzone.of_append_right⟩

theorem drawClosed_cards_perm {g : Game} {issuer : String} {g2 : Game}
    (h : drawClosedStep g issuer = some g2) : (allCards g2).Perm (allCards g) := by
  obtain ⟨p, c, hp, -, -, -, hc, hg2⟩ := drawClosedStep_inv h
  subst hg2
  unfold allCards
  rw [flatten_map_set_decomp _ (fun p => p.hand ++ p.openedSets.flatten) hp,
      flatten_map_decomp (fun p => p.hand ++ p.openedSets.flatten) hp]
  conv_rhs => rw [getLast?_decomp hc]
  rw [← Multiset.coe_eq_coe]
  simp only [← Multiset.coe_add, ← Multiset.cons_coe, ← Multiset.singleton_add, Multiset.coe_nil]
  abel

theorem eraseIdx_decomp {α : Type} : ∀ (l : List α) (i : Nat) (x : α), l.get? i = some x →
    l.eraseIdx i = l.take i ++ l.drop (i + 1)
  | [], i, x => by intro h; cases h
  | a :: t, 0, x => by intro h; rfl
  | a :: t, i + 1, x => by
    intro h
    have ih := eraseIdx_decomp t i x h
    show a :: t.eraseIdx i = a :: (t.take i ++ t.drop (i + 1))
    rw [ih]

theorem drawOpen_cards_perm {g : Game} {issuer : String} {count : Int} {g2 : Game}
    (h : drawOpenStep g issuer count = some g2) : (allCards g2).Perm (allCards g) := by
  obtain ⟨p, hp, -, -, -, -, -, hg2⟩ := drawOpenStep_inv h
  subst hg2
  unfold allCards
  rw [flatten_map_set_decomp _ (fun p => p.hand ++ p.openedSets.flatten) hp,
      flatten_map_decomp (fun p => p.hand ++ p.openedSets.flatten) hp]
  conv_rhs => rw [← List.take_append_drop (g.openPile.length - count.toNat) g.openPile]
  rw [← Multiset.coe_eq_coe]
  simp only [← Multiset.coe_add, ← Multiset.cons_coe, ← Multiset.singleton_add, Multiset.coe_nil]
  abel

theorem discard_cards_perm {g : Game} {issuer : String} {index : Int} {g2 : Game}
    (h : discardStep g issuer index = some g2) : (allCards g2).Perm (allCards g) := by
  obtain ⟨p, card, hp, -, -, -, -, -, -, hcard, hcases⟩ := discardStep_inv h
  by_cases hemp : p.hand.eraseIdx index.toNat = []
  · have hg2 := hcases.1 hemp
    subst hg2
    rw [allCards_checkWin, allCards_scoreRound]
    unfold allCards
    rw [flatten_map_set_decomp _ (fun p => p.hand ++ p.openedSets.flatten) hp,
        flatten_map_decomp (fun p => p.hand ++ p.openedSets.flatten) hp]
    rw [eraseIdx_decomp _ _ _ hcard]
    conv_rhs => rw [get?_decomp p.hand index.toNat card hcard]
    rw [← Multiset.coe_eq_coe]
    simp only [← Multiset.coe_add, ← Multiset.cons_coe, ← Multiset.singleton_add, Multiset.coe_nil]
    abel
  · have hg2 := hcases.2 hemp
    subst hg2
    unfold allCards
    rw [flatten_map_set_decomp _ (fun p => p.hand ++ p.openedSets.flatten) hp,
        flatten_map_decomp (fun p => p.hand ++ p.openedSets.flatten) hp]
    rw [eraseIdx_decomp _ _ _ hcard]
    conv_rhs => rw [get?_decomp p.hand index.toNat card hcard]
    rw [← Multiset.coe_eq_coe]
    simp only [← Multiset.coe_add, ← Multiset.cons_coe, ← Multiset.singleton_add, Multiset.coe_nil]
    abel

theorem endTurn_cards_eq {g : Game} {issuer : String} {g2 : Game}
    (h : endTurnStep g issuer = some g2) : allCards g2 = allCards g := by
  obtain ⟨p, hp, -, -, -, -, -, hg2⟩ := endTurnStep_inv h
  subst hg2
  unfold allCards
  have he : (g.players.set g.turn
        { p with canDiscard := false, noDiscardCardId := none }).map
      (fun q => q.hand ++ q.openedSets.flatten) =
      g.players.map (fun q => q.hand ++ q.openedSets.flatten) := map_set_eq _ hp rfl
  rw [he]

theorem playerWentOut_cards_eq {g : Game} {issuer : String} {g2 : Game}
    (h : playerWentOutStep g issuer = some g2) : allCards g2 = allCards g := by
  obtain ⟨p, hp, -, -, -, -, hg2⟩ := playerWentOutStep_inv h
  subst hg2
  rw [allCards_checkWin, allCards_scoreRound]
  unfold allCards
  have he : (g.players.set g.turn
        { p with mustDiscard := false, canDiscard := false }).map
      (fun q => q.hand ++ q.openedSets.flatten) =
      g.players.map (fun q => q.hand ++ q.openedSets.flatten) := map_set_eq _ hp rfl
  rw [he]

theorem openRun_ids_perm {g : Game} {issuer : String} {cardIds : List String} {g2 : Game}
    (hnd : (allCardIds g).Nodup) (h : openRunStep g issuer cardIds = some g2) :
    (allCardIds g2).Perm (allCardIds g) := by
  obtain ⟨p, cards, normalized, hp, -, -, -, -, hm, -, hv, hn, hg2⟩ := openRunStep_inv h
  subst hg2
  have hnd_hand : (p.hand.map (fun c => c.id)).Nodup := (player_ids_nodup hp hnd).1
  have hcards_nd : cards.Nodup := validRun_nodup hv
  have hsplit : p.hand.Perm (p.hand.filter (fun c => ¬ cardIds.contains c.id) ++ cards) :=
    hand_split_perm p.hand cardIds cards hnd_hand hcards_nd hm
  obtain ⟨out, hout, houtperm⟩ := normalizeRun_ids_perm cards hv
  rw [hn] at hout
  have hne : normalized = out := Option.some.inj hout
  subst hne
  unfold allCardIds allCards
  rw [flatten_map_set_decomp _ (fun q => q.hand ++ q.openedSets.flatten) hp,
      flatten_map_decomp (fun q => q.hand ++ q.openedSets.flatten) hp]
  have hflat : (p.openedSets ++ [normalized]).flatten = p.openedSets.flatten ++ normalized := by
    simp
  rw [hflat]
  rw [← Multiset.coe_eq_coe]
  simp only [List.map_append]
  simp only [← Multiset.coe_add]
  have hms1 : (↑(p.hand.map (fun c => c.id)) : Multiset String) =
      ↑((p.hand.filter (fun c => ¬ cardIds.contains c.id)).map (fun c => c.id)) +
        ↑(cards.map (fun c => c.id)) := by
    rw [Multiset.coe_add]
    rw [← List.map_append]
    exact Multiset.coe_eq_coe.mpr (hsplit.map _)
  have hms2 : (↑(normalized.map (fun c => c.id)) : Multiset String) =
      ↑(cards.map (fun c => c.id)) := Multiset.coe_eq_coe.mpr houtperm
  rw [hms1, hms2]
  abel

theorem find?_findIdx {α : Type} (p : α → Bool) : ∀ (l : List α) (x : α),
    l.find? p = some x → l.get? (l.findIdx p) = some x
  | [], x => by intro h; cases h
  | a :: t, x => by
    intro h
    cases hpa : p a
    · rw [List.find?_cons_of_neg _ (by simp [hpa])] at h
      rw [List.findIdx_cons, hpa]
      simp only [cond_false]
      exact find?_findIdx p t x h
    · rw [List.find?_cons_of_pos _ (by simp [hpa])] at h
      cases h
      rw [List.findIdx_cons, hpa]
      simp only [cond_true]
      rfl

/-- Replacing one player changes the flattened id multiset by swapping the
old player's cards for the new player's cards. -/
theorem flatten_map_set_ids {l : List Player} {i : Nat} {x : Player} (q : Player)
    (h : l.get? i = some x) :
    (↑(((l.set i q).map (fun p => p.hand ++ p.openedSets.flatten)).flatten.map
        (fun c => c.id)) : Multiset String) +
      ↑((x.hand ++ x.openedSets.flatten).map (fun c => c.id)) =
    (↑((l.map (fun p => p.hand ++ p.openedSets.flatten)).flatten.map
        (fun c => c.id)) : Multiset String) +
      ↑((q.hand ++ q.openedSets.flatten).map (fun c => c.id)) := by
  rw [flatten_map_set_decomp q _ h, flatten_map_decomp _ h]
  simp only [List.map_append, ← Multiset.coe_add]
  abel

/-- Cancellation step shared by the two-player commit: swapping blocks twice
conserves the total. -/
theorem ms_chain (X0 X1 X2 m o fm fo : Multiset String)
    (h2 : X2 + m = X1 + fm) (h1 : X1 + o = X0 + fo)
    (hc : m + o = fo + fm) : X2 = X0 := by
  have h : X2 + (m + o) = X0 + (m + o) := by
    calc X2 + (m + o) = (X2 + m) + o := by abel
    _ = (X1 + fm) + o := by rw [h2]
    _ = (X1 + o) + fm := by abel
    _ = (X0 + fo) + fm := by rw [h1]
    _ = X0 + (fo + fm) := by abel
    _ = X0 + (m + o) := by rw [hc]
  exact add_right_cancel h

theorem addToRun_ids_perm {g : Game} {issuer targetPlayer : String} {runIndex : Int}
    {cardIds : List String} {g2 : Game}
    (hnd : (allCardIds g).Nodup)
    (h : addToRunStep g issuer targetPlayer runIndex cardIds = some g2) :
    (allCardIds g2).Perm (allCardIds g) := by
  obtain ⟨me, owner, add, norm, -, hme, how, -, -, -, hri, -, -, -, hmapM, hlet, hg2⟩ :=
    addToRunStep_inv h
  obtain ⟨-, hvalid, hnorm⟩ := hlet
  subst hg2
  have htI : g.players.get? (g.players.findIdx (fun pp => pp.id = targetPlayer)) = some owner :=
    find?_findIdx _ _ _ how
  have hiI : g.players.get? (g.players.findIdx (fun pp => pp.id = issuer)) = some me :=
    find?_findIdx _ _ _ hme
  obtain ⟨jme, hjme⟩ := mem_iff_get?_aux (List.mem_of_find?_eq_some hme)
  have hnd_hand : (me.hand.map (fun c => c.id)).Nodup := (player_ids_nodup hjme hnd).1
  obtain ⟨run, hrun⟩ : ∃ run, owner.openedSets.get? runIndex.toNat = some run := by
    cases hr : owner.openedSets.get? runIndex.toNat with
    | none =>
      exfalso
      rw [List.get?_eq_none] at hr
      omega
    | some r => exact ⟨r, rfl⟩
  have horig : (owner.openedSets.get? runIndex.toNat).getD [] = run := by
    rw [hrun]
    rfl
  rw [horig] at hvalid hnorm
  have hadd_nd : add.Nodup := (validRun_nodup hvalid).of_append_right
  have hsplit : me.hand.Perm (me.hand.filter (fun c => ¬ cardIds.contains c.id) ++ add) :=
    hand_split_perm me.hand cardIds add hnd_hand hadd_nd hmapM
  obtain ⟨out, hout, houtperm⟩ := normalizeRun_ids_perm (run ++ add) hvalid
  rw [hnorm] at hout
  have hne : norm = out := Option.some.inj hout
  subst hne
  have hinner : listModify g.players (g.players.findIdx (fun pp => pp.id = targetPlayer))
      (fun pp => { pp with openedSets := pp.openedSets.set runIndex.toNat norm }) =
      g.players.set (g.players.findIdx (fun pp => pp.id = targetPlayer))
        { owner with openedSets := owner.openedSets.set runIndex.toNat norm } := by
    unfold listModify
    rw [htI]
  rw [hinner]
  have hn_ids : (↑(norm.map (fun c => c.id)) : Multiset String) =
      ↑(run.map (fun c => c.id)) + ↑(add.map (fun c => c.id)) := by
    have hh := Multiset.coe_eq_coe.mpr houtperm
    rw [List.map_append] at hh
    rw [hh, ← Multiset.coe_add]
  have hh_ids : (↑(me.hand.map (fun c => c.id)) : Multiset String) =
      ↑((me.hand.filter (fun c => ¬ cardIds.contains c.id)).map (fun c => c.id)) +
        ↑(add.map (fun c => c.id)) := by
    have hh := Multiset.coe_eq_coe.mpr (hsplit.map (fun c => c.id))
    rw [List.map_append] at hh
    rw [hh, ← Multiset.coe_add]
  have hsets_ids : (↑((owner.openedSets.set runIndex.toNat norm).flatten.map
      (fun c => c.id)) : Multiset String) =
      ↑(owner.openedSets.flatten.map (fun c => c.id)) + ↑(add.map (fun c => c.id)) := by
    rw [set_decomp norm hrun]
    conv_rhs => rw [get?_decomp owner.openedSets runIndex.toNat run hrun]
    simp only [List.flatten_append, List.flatten_cons, List.map_append, ← Multiset.coe_add]
    rw [hn_ids]
    abel
  unfold allCardIds allCards
  rw [← Multiset.coe_eq_coe]
  simp only [List.map_append, ← Multiset.coe_add]
  by_cases heq : g.players.findIdx (fun pp => pp.id = issuer) =
      g.players.findIdx (fun pp => pp.id = targetPlayer)
  · -- aliasing: the acting player owns the target run
    rw [heq] at hiI
    have hmeo : me = owner := by
      rw [hiI] at htI
      exact Option.some.inj htI
    subst hmeo
    have houter : listModify (g.players.set
          (g.players.findIdx (fun pp => pp.id = targetPlayer))
          { me with openedSets := me.openedSets.set runIndex.toNat norm })
        (g.players.findIdx (fun pp => pp.id = issuer))
        (fun pp => { pp with hand := pp.hand.filter (fun c => ¬ cardIds.contains c.id) }) =
        g.players.set (g.players.findIdx (fun pp => pp.id = targetPlayer))
          { me with hand := me.hand.filter (fun c => ¬ cardIds.contains c.id),
                    openedSets := me.openedSets.set runIndex.toNat norm } := by
      unfold listModify
      rw [heq, get?_set_self htI]
      simp only []
      rw [List.set_set]
    rw [houter]
    have hM := flatten_map_set_ids
      { me with hand := me.hand.filter (fun c => ¬ cardIds.contains c.id),
                openedSets := me.openedSets.set runIndex.toNat norm } htI
    simp only [List.map_append, ← Multiset.coe_add] at hM
    have hcomp : (↑(me.hand.map (fun c => c.id)) : Multiset String) +
        ↑(me.openedSets.flatten.map (fun c => c.id)) =
        ↑((me.hand.filter (fun c => ¬ cardIds.contains c.id)).map (fun c => c.id)) +
          ↑((me.openedSets.set runIndex.toNat norm).flatten.map (fun c => c.id)) := by
      rw [hh_ids, hsets_ids]
      abel
    rw [hcomp] at hM
    have hX := add_right_cancel hM
    rw [hX]
  · -- distinct players (team mode): two separate updates
    have hget' : (g.players.set (g.players.findIdx (fun pp => pp.id = targetPlayer))
        { owner with openedSets := owner.openedSets.set runIndex.toNat norm }).get?
        (g.players.findIdx (fun pp => pp.id = issuer)) = some me := by
      rw [List.get?_set_ne _ _ (fun hh => heq hh.symm)]
      exact hiI
    have houter : listModify (g.players.set
          (g.players.findIdx (fun pp => pp.id = targetPlayer))
          { owner with openedSets := owner.openedSets.set runIndex.toNat norm })
        (g.players.findIdx (fun pp => pp.id = issuer))
        (fun pp => { pp with hand := pp.hand.filter (fun c => ¬ cardIds.contains c.id) }) =
        (g.players.set (g.players.findIdx (fun pp => pp.id = targetPlayer))
          { owner with openedSets := owner.openedSets.set runIndex.toNat norm }).set
          (g.players.findIdx (fun pp => pp.id = issuer))
          { me with hand := me.hand.filter (fun c => ¬ cardIds.contains c.id) } := by
      unfold listModify
      rw [hget']
    rw [houter]
    have hM2 := flatten_map_set_ids
      { me with hand := me.hand.filter (fun c => ¬ cardIds.contains c.id) } hget'
    have hM1 := flatten_map_set_ids
      { owner with openedSets := owner.openedSets.set runIndex.toNat norm } htI
    simp only [List.map_append, ← Multiset.coe_add] at hM2 hM1
    have hcomp : (↑(me.hand.map (fun c => c.id)) : Multiset String) +
        ↑(me.openedSets.flatten.map (fun c => c.id)) +
        (↑(owner.hand.map (fun c => c.id)) +
          ↑(owner.openedSets.flatten.map (fun c => c.id))) =
        ↑(owner.hand.map (fun c => c.id)) +
          ↑((owner.openedSets.set runIndex.toNat norm).flatten.map (fun c => c.id)) +
        (↑((me.hand.filter (fun c => ¬ cardIds.contains c.id)).map (fun c => c.id)) +
          ↑(me.openedSets.flatten.map (fun c => c.id))) := by
      rw [hh_ids, hsets_ids]
      abel
    have hX := ms_chain _ _ _ _ _ _ _ hM2 hM1 hcomp
    rw [hX]

/-- Every accepted in-round command permutes the room's card ids. -/
theorem applyCommand_ids_perm {g : Game} {c : Command} {g2 : Game}
    (hnd : (allCardIds g).Nodup) (h : applyCommand g c = some g2) :
    (allCardIds g2).Perm (allCardIds g) := by
  cases c with
  | drawClosed issuer => exact (drawClosed_cards_perm h).map _
  | drawOpen issuer count => exact (drawOpen_cards_perm h).map _
  | discard issuer index => exact (discard_cards_perm h).map _
  | endTurn issuer =>
    unfold allCardIds
    rw [endTurn_cards_eq h]
  | openRun issuer cardIds => exact openRun_ids_perm hnd h
  | addToRun issuer target runIndex cardIds => exact addToRun_ids_perm hnd h
  | playerWentOut issuer =>
    unfold allCardIds
    rw [playerWentOut_cards_eq h]

theorem createRoom_ids_perm {sockId pid : String} {teamMode : Bool} {team : Option Nat}
    {deck : List Card} {g : Game}
    (h : createRoomStep sockId pid teamMode team deck = some g) :
    (allCardIds g).Perm (deck.map (fun c => c.id)) := by
  unfold createRoomStep at h
  by_cases h1 : (teamMode ∧ team ≠ some 0 ∧ team ≠ some 1)
  · rw [if_pos h1] at h
    cases h
  · rw [if_neg h1] at h
    simp only [] at h
    revert h
    cases hlast : (deck.drop handSize).getLast? with
    | none => intro h; cases h
    | some top =>
      intro h
      simp only [] at h
      rw [← Option.some.inj h]
      unfold allCardIds allCards
      simp only []
      rw [← Multiset.coe_eq_coe]
      conv_rhs => rw [← List.take_append_drop handSize deck, getLast?_decomp hlast]
      simp only [List.map_cons, List.map_nil, List.flatten_cons, List.flatten_nil,
        List.map_append, List.append_nil, ← Multiset.coe_add, ← Multiset.cons_coe,
        ← Multiset.singleton_add, Multiset.coe_nil]
      abel

theorem joinRoom_ids_perm {g : Game} {sockId pid : String} {team : Option Nat} {g2 : Game}
    (h : joinRoomStep g sockId pid team = some g2) :
    (allCardIds g2).Perm (allCardIds g) := by
  unfold joinRoomStep at h
  by_cases h1 : 4 ≤ g.players.length
  · rw [if_pos h1] at h
    cases h
  · rw [if_neg h1] at h
    revert h
    cases hfind : g.players.find? (fun p => p.pid = pid) with
    | some q =>
      intro h
      simp only [] at h
      rw [← Option.some.inj h]
      unfold allCardIds allCards
      simp only []
      have hmap : ∀ (l : List Player) (i : Nat),
          (listModify l i (fun p => { p with id := sockId })).map
            (fun p => p.hand ++ p.openedSets.flatten) =
          l.map (fun p => p.hand ++ p.openedSets.flatten) :=
        fun l i => map_listModify_eq _ _ (fun x => rfl)
      rw [hmap]
    | none =>
      intro h
      by_cases h2 : (g.teamMode ∧ team ≠ some 0 ∧ team ≠ some 1)
      · rw [if_pos h2] at h
        cases h
      · rw [if_neg h2] at h
        by_cases h3 : (g.teamMode ∧ 2 ≤ (g.players.filter (fun p => p.team = team)).length)
        · rw [if_pos h3] at h
          cases h
        · rw [if_neg h3] at h
          simp only [] at h
          split at h <;> split at h <;>
            (rw [← Option.some.inj h]
             unfold allCardIds allCards
             simp only []
             rw [← Multiset.coe_eq_coe]
             conv_rhs => rw [← List.take_append_drop handSize g.closed]
             simp only [List.map_append, List.map_cons, List.map_nil, List.flatten_append,
               List.flatten_cons, List.flatten_nil, List.append_nil,
               ← Multiset.coe_add, Multiset.coe_nil]
             abel)

theorem reconnect_ids_eq {g : Game} {sockId pid : String} {g2 : Game}
    (h : reconnectStep g sockId pid = some g2) : allCardIds g2 = allCardIds g := by
  unfold reconnectStep at h
  revert h
  cases hfind : g.players.find? (fun p => p.pid = pid) with
  | none => intro h; cases h
  | some q =>
    intro h
    simp only [] at h
    rw [← Option.some.inj h]
    unfold allCardIds allCards
    simp only []
    have hmap : ∀ (l : List Player) (i : Nat),
        (listModify l i (fun p => { p with id := sockId })).map
          (fun p => p.hand ++ p.openedSets.flatten) =
        l.map (fun p => p.hand ++ p.openedSets.flatten) :=
      fun l i => map_listModify_eq _ _ (fun x => rfl)
    rw [hmap]

theorem continueGame_ids_perm {g : Game} {deck : List Card} {g2 : Game}
    (h : continueGameStep g deck = some g2) :
    (allCardIds g2).Perm (deck.map (fun c => c.id)) := by
  unfold continueGameStep at h
  by_cases h1 : g.gameOver
  · rw [if_pos h1] at h
    cases h
  · rw [if_neg h1] at h
    revert h
    cases hlast : deck.getLast? with
    | none => intro h; cases h
    | some top =>
      intro h
      simp only [] at h
      rw [← Option.some.inj h]
      have hdeal := dealRound_cards_perm false g.players deck.dropLast
      have hdealm := Multiset.coe_eq_coe.mpr (hdeal.map (fun c => c.id))
      rw [List.map_append] at hdealm
      unfold allCardIds allCards
      simp only []
      rw [← Multiset.coe_eq_coe]
      conv_rhs => rw [getLast?_decomp hlast]
      simp only [List.map_append, List.map_cons, List.map_nil,
        ← Multiset.coe_add, ← Multiset.cons_coe, ← Multiset.singleton_add,
        Multiset.coe_nil] at hdealm ⊢
      rw [← hdealm]

theorem newGame_ids_perm {g : Game} {deck : List Card} {g2 : Game}
    (h : newGameStep g deck = some g2) :
    (allCardIds g2).Perm (deck.map (fun c => c.id)) := by
  unfold newGameStep at h
  by_cases h1 : ¬ g.gameOver
  · rw [if_pos h1] at h
    cases h
  · rw [if_neg h1] at h
    revert h
    cases hlast : deck.getLast? with
    | none => intro h; cases h
    | some top =>
      intro h
      simp only [] at h
      rw [← Option.some.inj h]
      have hdeal := dealRound_cards_perm true g.players deck.dropLast
      have hdealm := Multiset.coe_eq_coe.mpr (hdeal.map (fun c => c.id))
      rw [List.map_append] at hdealm
      unfold allCardIds allCards
      simp only []
      rw [← Multiset.coe_eq_coe]
      conv_rhs => rw [getLast?_decomp hlast]
      simp only [List.map_append, List.map_cons, List.map_nil,
        ← Multiset.coe_add, ← Multiset.cons_coe, ← Multiset.singleton_add,
        Multiset.coe_nil] at hdealm ⊢
      rw [← hdealm]

/-- The uuid-distinctness and 52-card-count invariant over all reachable
room states. -/
theorem reachable_ids_inv : ∀ g, Reachable g →
    (allCardIds g).Nodup ∧ (allCardIds g).length = 52 := by
  intro g hg
  induction hg with
  | create sockId pid teamMode team deck g hfresh hstep =>
    have hperm := createRoom_ids_perm hstep
    exact ⟨hperm.nodup_iff.mpr hfresh.2.1,
      by rw [hperm.length_eq, List.length_map, hfresh.1]⟩
  | join g sockId pid team g2 hr hstep ih =>
    have hperm := joinRoom_ids_perm hstep
    exact ⟨hperm.nodup_iff.mpr ih.1, by rw [hperm.length_eq]; exact ih.2⟩
  | reconn g sockId pid g2 hr hstep ih =>
    rw [reconnect_ids_eq hstep]
    exact ih
  | cmd g c g2 hr hstep ih =>
    have hperm := applyCommand_ids_perm ih.1 hstep
    exact ⟨hperm.nodup_iff.mpr ih.1, by rw [hperm.length_eq]; exact ih.2⟩
  | continueRound g deck g2 hr hfresh hstep ih =>
    have hperm := continueGame_ids_perm hstep
    exact ⟨hperm.nodup_iff.mpr hfresh.2.1,
      by rw [hperm.length_eq, List.length_map, hfresh.1]⟩
  | restart g deck g2 hr hfresh hstep ih =>
    have hperm := newGame_ids_perm hstep
    exact ⟨hperm.nodup_iff.mpr hfresh.2.1,
      by rw [hperm.length_eq, List.length_map, hfresh.1]⟩

/-- Claim C1: in every reachable room the card ids across the four zones
(hands, opened runs, closed pile, open pile) are pairwise distinct — each
card instance lives in exactly one place — their count is the full deck's 52,
and every accepted in-round command permutes that id multiset: no card id is
ever duplicated or lost. -/
theorem c1_card_conservation :
    ∀ g, Reachable g →
      ((allCardIds g).Nodup ∧ (allCardIds g).length = 52) ∧
      (∀ c g2, applyCommand g c = some g2 → (allCardIds g2).Perm (allCardIds g)) := by
  intro g hg
  have hinv := reachable_ids_inv g hg
  exact ⟨hinv, fun c g2 h => applyCommand_ids_perm hinv.1 h⟩

def suitName : Suit → String
  | Suit.spades => "s"
  | Suit.hearts => "h"
  | Suit.diamonds => "d"
  | Suit.clubs => "c"

def rankName : Rank → String
  | Rank.r3 => "3" | Rank.r4 => "4" | Rank.r5 => "5" | Rank.r6 => "6"
  | Rank.r7 => "7" | Rank.r8 => "8" | Rank.r9 => "9" | Rank.r10 => "10"
  | Rank.rJ => "J" | Rank.rQ => "Q" | Rank.rK => "K" | Rank.rA => "A"
  | Rank.r2 => "2"

def ranksOrder : List Rank :=
  [Rank.r3, Rank.r4, Rank.r5, Rank.r6, Rank.r7, Rank.r8, Rank.r9, Rank.r10,
   Rank.rJ, Rank.rQ, Rank.rK, Rank.rA, Rank.r2]

def suitsOrder : List Suit := [Suit.spades, Suit.hearts, Suit.diamonds, Suit.clubs]

/-- A concrete 52-card deck with distinct ids. -/
def deck52 : List Card :=
  (suitsOrder.map (fun s => ranksOrder.map (fun r => ⟨suitName s ++ rankName r, r, s, 1⟩))).flatten

def gDummy : Game := ⟨false, 0, none, [], [], [], 0, false, none, none, false⟩

def gC9a : Game := (createRoomStep "s1" "p1" false none deck52).getD gDummy

def gC9b : Game := (drawClosedStep gC9a "s1").getD gC9a

def gC9c : Game := (openRunStep gC9b "s1" ["s3", "s4", "s5"]).getD gC9b

def gC9d : Game := (addToRunStep gC9c "s1" "s1" 0 ["s6"]).getD gC9c

theorem c1_card_conservation_witness :
    ((allCardIds gC9a).Nodup ∧ (allCardIds gC9a).length = 52) ∧
    (allCardIds gC9b).Perm (allCardIds gC9a) :=
  have hr : Reachable gC9a :=
    Reachable.create "s1" "p1" false none deck52 gC9a ⟨by decide, by decide, by decide⟩ (by decide)
  ⟨(c1_card_conservation gC9a hr).1,
   (c1_card_conservation gC9a hr).2 (Command.drawClosed "s1") gC9b (by decide)⟩

/- ---------- CLAIM C9: addToRun preconditions and the turn invariant ---------- -/

/-- Only the player at the turn index may hold `canDiscard = true`. -/
def InvCanDiscard (g : Game) : Prop :=
  ∀ i p, g.players.get? i = some p → p.canDiscard = true → i = g.turn

theorem scoreRound_canDiscard_rev {g : Game} {i : Nat} {p : Player}
    (h : (scoreRound g).players.get? i = some p) :
    ∃ q, g.players.get? i = some q ∧ p.canDiscard = q.canDiscard := by
  cases hq : g.players.get? i with
  | none =>
    exfalso
    unfold scoreRound at h
    split_ifs at h <;> rw [List.get?_map, hq] at h <;> cases h
  | some q =>
    obtain ⟨q2, hmem, -, -, -, hcd, -, -, -, -⟩ := scoreRound_get?_fields g i hq
    rw [h] at hmem
    rw [Option.some.inj hmem]
    exact ⟨q, rfl, hcd⟩

theorem dealRound_canDiscard (rs : Bool) : ∀ (ps : List Player) (d : List Card) (i : Nat)
    (p : Player), (dealRound rs ps d).1.get? i = some p → p.canDiscard = false
  | [], d, i, p => by intro h; cases h
  | q :: ps, d, 0, p => by
    intro h
    rw [dealRound] at h
    cases h
    rfl
  | q :: ps, d, i + 1, p => by
    intro h
    rw [dealRound] at h
    exact dealRound_canDiscard rs ps (d.drop handSize) i p h

/-- Only the turn player ever has drawn-this-turn status, in every reachable
state. -/
theorem reachable_canDiscard : ∀ g, Reachable g → InvCanDiscard g := by
  intro g hg
  induction hg with
  | create sockId pid teamMode team deck g hfresh hstep =>
    unfold createRoomStep at hstep
    by_cases h1 : (teamMode ∧ team ≠ some 0 ∧ team ≠ some 1)
    · rw [if_pos h1] at hstep
      cases hstep
    · rw [if_neg h1] at hstep
      simp only [] at hstep
      revert hstep
      cases hlast : (deck.drop handSize).getLast? with
      | none => intro hstep; cases hstep
      | some top =>
        intro hstep
        simp only [] at hstep
        rw [← Option.some.inj hstep]
        intro i p hget hcd
        exfalso
        simp only [] at hget
        cases i with
        | zero =>
          have hq := Option.some.inj hget
          rw [← hq] at hcd
          simp only [] at hcd
          exact Bool.noConfusion hcd
        | succ k => cases hget
  | join g sockId pid team g2 hr hstep ih =>
    unfold joinRoomStep at hstep
    by_cases h1 : 4 ≤ g.players.length
    · rw [if_pos h1] at hstep
      cases hstep
    · rw [if_neg h1] at hstep
      revert hstep
      cases hfind : g.players.find? (fun p => p.pid = pid) with
      | some q =>
        intro hstep
        simp only [] at hstep
        rw [← Option.some.inj hstep]
        have hq := find?_findIdx _ _ _ hfind
        intro i p hget hcd
        simp only [] at hget ⊢
        rw [listModify_get? _ i hq] at hget
        by_cases hit : i = g.players.findIdx (fun p => p.pid = pid)
        · rw [if_pos hit] at hget
          have hpe := Option.some.inj hget
          rw [← hpe] at hcd
          simp only [] at hcd
          exact hit.trans (ih _ q hq hcd)
        · rw [if_neg hit] at hget
          exact ih i p hget hcd
      | none =>
        intro hstep
        by_cases h2 : (g.teamMode ∧ team ≠ some 0 ∧ team ≠ some 1)
        · rw [if_pos h2] at hstep
          cases hstep
        · rw [if_neg h2] at hstep
          by_cases h3 : (g.teamMode ∧ 2 ≤ (g.players.filter (fun p => p.team = team)).length)
          · rw [if_pos h3] at hstep
            cases hstep
          · rw [if_neg h3] at hstep
            simp only [] at hstep
            split at hstep <;> split at hstep <;> rename_i hcond <;>
              rw [← Option.some.inj hstep] <;> intro i p hget hcd <;>
              simp only [] at hget ⊢
            · exfalso
              have hmem := List.get?_mem hget
              have hall := hcond.2.2.1
              rw [List.all_eq_true] at hall
              have hthis := hall p hmem
              simp only [decide_eq_true_eq] at hthis
              exact hthis.1 hcd
            · by_cases hlt : i < g.players.length
              · rw [List.get?_append hlt] at hget
                exact ih i p hget hcd
              · exfalso
                rw [List.get?_append_right (le_of_not_lt hlt)] at hget
                rcases hsub : i - g.players.length with _ | k
                · rw [hsub] at hget
                  have hpe := Option.some.inj hget
                  rw [← hpe] at hcd
                  exact Bool.noConfusion hcd
                · rw [hsub] at hget
                  cases hget
            · exfalso
              have hmem := List.get?_mem hget
              have hall := hcond.2.2.1
              rw [List.all_eq_true] at hall
              have hthis := hall p hmem
              simp only [decide_eq_true_eq] at hthis
              exact hthis.1 hcd
            · by_cases hlt : i < g.players.length
              · rw [List.get?_append hlt] at hget
                exact ih i p hget hcd
              · exfalso
                rw [List.get?_append_right (le_of_not_lt hlt)] at hget
                rcases hsub : i - g.players.length with _ | k
                · rw [hsub] at hget
                  have hpe := Option.some.inj hget
                  rw [← hpe] at hcd
                  exact Bool.noConfusion hcd
                · rw [hsub] at hget
                  cases hget
  | reconn g sockId pid g2 hr hstep ih =>
    unfold reconnectStep at hstep
    revert hstep
    cases hfind : g.players.find? (fun p => p.pid = pid) with
    | none => intro hstep; cases hstep
    | some q =>
      intro hstep
      simp only [] at hstep
      rw [← Option.some.inj hstep]
      have hq := find?_findIdx _ _ _ hfind
      intro i p hget hcd
      simp only [] at hget ⊢
      rw [listModify_get? _ i hq] at hget
      by_cases hit : i = g.players.findIdx (fun p => p.pid = pid)
      · rw [if_pos hit] at hget
        have hpe := Option.some.inj hget
        rw [← hpe] at hcd
        simp only [] at hcd
        exact hit.trans (ih _ q hq hcd)
      · rw [if_neg hit] at hget
        exact ih i p hget hcd
  | continueRound g deck g2 hr hfresh hstep ih =>
    unfold continueGameStep at hstep
    by_cases h1 : g.gameOver
    · rw [if_pos h1] at hstep
      cases hstep
    · rw [if_neg h1] at hstep
      revert hstep
      cases hlast : deck.getLast? with
      | none => intro hstep; cases hstep
      | some top =>
        intro hstep
        simp only [] at hstep
        rw [← Option.some.inj hstep]
        intro i p hget hcd
        exfalso
        simp only [] at hget
        have hfalse := dealRound_canDiscard false g.players deck.dropLast i p hget
        rw [hfalse] at hcd
        exact Bool.noConfusion hcd
  | restart g deck g2 hr hfresh hstep ih =>
    unfold newGameStep at hstep
    by_cases h1 : ¬ g.gameOver
    · rw [if_pos h1] at hstep
      cases hstep
    · rw [if_neg h1] at hstep
      revert hstep
      cases hlast : deck.getLast? with
      | none => intro hstep; cases hstep
      | some top =>
        intro hstep
        simp only [] at hstep
        rw [← Option.some.inj hstep]
        intro i p hget hcd
        exfalso
        simp only [] at hget
        have hfalse := dealRound_canDiscard true g.players deck.dropLast i p hget
        rw [hfalse] at hcd
        exact Bool.noConfusion hcd
  | cmd g c g2 hr hstep ih =>
    cases c with
    | drawClosed issuer =>
      obtain ⟨p, c0, hp, -, -, -, -, hg2⟩ := drawClosedStep_inv hstep
      subst hg2
      intro i q hget hcd
      simp only [] at hget ⊢
      by_cases hit : i = g.turn
      · exact hit
      · rw [List.get?_set_ne _ _ (fun hh => hit hh.symm)] at hget
        exact ih i q hget hcd
    | drawOpen issuer count =>
      obtain ⟨p, hp, -, -, -, -, -, hg2⟩ := drawOpenStep_inv hstep
      subst hg2
      intro i q hget hcd
      simp only [] at hget ⊢
      by_cases hit : i = g.turn
      · exact hit
      · rw [List.get?_set_ne _ _ (fun hh => hit hh.symm)] at hget
        exact ih i q hget hcd
    | discard issuer index =>
      obtain ⟨p, card, hp, -, -, -, -, -, -, hcard, hcases⟩ := discardStep_inv hstep
      by_cases hemp : p.hand.eraseIdx index.toNat = []
      · have hg2 := hcases.1 hemp
        subst hg2
        intro i q hget hcd
        rw [checkWin_players] at hget
        obtain ⟨q2, hq2, hcdeq⟩ := scoreRound_canDiscard_rev hget
        simp only [] at hq2
        rw [(checkWin_frame _).2.2.2.1, (scoreRound_frame _).2.2.2.1]
        simp only []
        by_cases hit : i = g.turn
        · exact hit
        · rw [List.get?_set_ne _ _ (fun hh => hit hh.symm)] at hq2
          refine ih i q2 hq2 ?_
          rw [← hcdeq]
          exact hcd
      · have hg2 := hcases.2 hemp
        subst hg2
        intro i q hget hcd
        exfalso
        simp only [] at hget
        by_cases hit : i = g.turn
        · subst hit
          rw [get?_set_self hp] at hget
          have hpe := Option.some.inj hget
          rw [← hpe] at hcd
          simp only [] at hcd
          exact Bool.noConfusion hcd
        · rw [List.get?_set_ne _ _ (fun hh => hit hh.symm)] at hget
          exact hit (ih i q hget hcd)
    | endTurn issuer =>
      obtain ⟨p, hp, -, -, -, -, -, hg2⟩ := endTurnStep_inv hstep
      subst hg2
      intro i q hget hcd
      exfalso
      simp only [] at hget
      by_cases hit : i = g.turn
      · subst hit
        rw [get?_set_self hp] at hget
        have hpe := Option.some.inj hget
        rw [← hpe] at hcd
        simp only [] at hcd
        exact Bool.noConfusion hcd
      · rw [List.get?_set_ne _ _ (fun hh => hit hh.symm)] at hget
        exact hit (ih i q hget hcd)
    | openRun issuer cardIds =>
      obtain ⟨p, cards, normalized, hp, -, -, -, -, -, -, -, -, hg2⟩ := openRunStep_inv hstep
      subst hg2
      intro i q hget hcd
      simp only [] at hget ⊢
      by_cases hit : i = g.turn
      · exact hit
      · rw [List.get?_set_ne _ _ (fun hh => hit hh.symm)] at hget
        exact ih i q hget hcd
    | playerWentOut issuer =>
      obtain ⟨p, hp, -, -, -, -, hg2⟩ := playerWentOutStep_inv hstep
      subst hg2
      intro i q hget hcd
      rw [checkWin_players] at hget
      obtain ⟨q2, hq2, hcdeq⟩ := scoreRound_canDiscard_rev hget
      simp only [] at hq2
      rw [(checkWin_frame _).2.2.2.1, (scoreRound_frame _).2.2.2.1]
      simp only []
      by_cases hit : i = g.turn
      · exact hit
      · rw [List.get?_set_ne _ _ (fun hh => hit hh.symm)] at hq2
        refine ih i q2 hq2 ?_
        rw [← hcdeq]
        exact hcd
    | addToRun issuer target runIndex cardIds =>
      obtain ⟨me, owner, add, norm, -, hme, how, -, -, -, -, -, -, -, -, -, hg2⟩ :=
        addToRunStep_inv hstep
      subst hg2
      have htI := find?_findIdx _ _ _ how
      have hiI := find?_findIdx _ _ _ hme
      intro i q hget hcd
      simp only [] at hget ⊢
      by_cases hii : g.players.findIdx (fun pp => pp.id = issuer) =
          g.players.findIdx (fun pp => pp.id = target)
      · have hx1 : (listModify g.players (g.players.findIdx (fun pp => pp.id = target))
            (fun pp => { pp with openedSets := pp.openedSets.set runIndex.toNat norm })).get?
            (g.players.findIdx (fun pp => pp.id = issuer)) =
            some { owner with openedSets := owner.openedSets.set runIndex.toNat norm } := by
          rw [listModify_get? _ _ htI, if_pos hii]
        rw [listModify_get? _ i hx1] at hget
        by_cases hit : i = g.players.findIdx (fun pp => pp.id = issuer)
        · rw [if_pos hit] at hget
          have hpe := Option.some.inj hget
          rw [← hpe] at hcd
          simp only [] at hcd
          exact hit.trans (hii.trans (ih _ owner htI hcd))
        · rw [if_neg hit] at hget
          rw [listModify_get? _ i htI] at hget
          by_cases hit2 : i = g.players.findIdx (fun pp => pp.id = target)
          · rw [if_pos hit2] at hget
            have hpe := Option.some.inj hget
            rw [← hpe] at hcd
            simp only [] at hcd
            exact hit2.trans (ih _ owner htI hcd)
          · rw [if_neg hit2] at hget
            exact ih i q hget hcd
      · have hx1 : (listModify g.players (g.players.findIdx (fun pp => pp.id = target))
            (fun pp => { pp with openedSets := pp.openedSets.set runIndex.toNat norm })).get?
            (g.players.findIdx (fun pp => pp.id = issuer)) = some me := by
          rw [listModify_get? _ _ htI, if_neg hii]
          exact hiI
        rw [listModify_get? _ i hx1] at hget
        by_cases hit : i = g.players.findIdx (fun pp => pp.id = issuer)
        · rw [if_pos hit] at hget
          have hpe := Option.some.inj hget
          rw [← hpe] at hcd
          simp only [] at hcd
          exact hit.trans (ih _ me hiI hcd)
        · rw [if_neg hit] at hget
          rw [listModify_get? _ i htI] at hget
          by_cases hit2 : i = g.players.findIdx (fun pp => pp.id = target)
          · rw [if_pos hit2] at hget
            have hpe := Option.some.inj hget
            rw [← hpe] at hcd
            simp only [] at hcd
            exact hit2.trans (ih _ owner htI hcd)
          · rw [if_neg hit2] at hget
            exact ih i q hget hcd

/-- Claim C9: in every reachable state, an accepted `addToRun` implies its
issuer is the current-turn player (found at index `turn`), who has drawn this
turn and has opened at least one run themself; the target run index is in
range for the target player's runs, the target is the issuer themself in
individual mode or a teammate in team mode, and at least one card id was
supplied.  In particular no `addToRun` issued by a player other than
`players[turn]` is ever accepted. -/
theorem c9_addToRun_preconditions :
    ∀ g, Reachable g → ∀ issuer targetPlayer runIndex cardIds g2,
      addToRunStep g issuer targetPlayer runIndex cardIds = some g2 →
      ∃ me owner, g.players.get? g.turn = some me ∧ me.id = issuer ∧
        me.canDiscard = true ∧ me.opened = true ∧
        g.players.find? (fun pp => pp.id = targetPlayer) = some owner ∧
        0 ≤ runIndex ∧ runIndex.toNat < owner.openedSets.length ∧
        (g.teamMode = true → me.team = owner.team) ∧
        (g.teamMode = false → me.id = owner.id) ∧
        1 ≤ cardIds.length := by
  intro g hg issuer targetPlayer runIndex cardIds g2 h
  obtain ⟨me, owner, add, norm, -, hme, how, hop, hcd, hr0, hrl, hteam, hind, hlen, -, -, -⟩ :=
    addToRunStep_inv h
  have hinv := reachable_canDiscard g hg
  obtain ⟨j, hj⟩ := mem_iff_get?_aux (List.mem_of_find?_eq_some hme)
  have hjt : j = g.turn := hinv j me hj hcd
  have hidt : me.id = issuer := by simpa using List.find?_some hme
  exact ⟨me, owner, hjt ▸ hj, hidt, hcd, hop, how, hr0, hrl, hteam, hind, hlen⟩

theorem c9_addToRun_preconditions_witness :
    ∃ me owner, gC9c.players.get? gC9c.turn = some me ∧ me.id = "s1" ∧
      me.canDiscard = true ∧ me.opened = true ∧
      gC9c.players.find? (fun pp => pp.id = "s1") = some owner ∧
      0 ≤ (0 : Int) ∧ (0 : Int).toNat < owner.openedSets.length ∧
      (gC9c.teamMode = true → me.team = owner.team) ∧
      (gC9c.teamMode = false → me.id = owner.id) ∧
      1 ≤ (["s6"] : List String).length :=
  have hra : Reachable gC9a :=
    Reachable.create "s1" "p1" false none deck52 gC9a ⟨by decide, by decide, by decide⟩ (by decide)
  have hrb : Reachable gC9b :=
    Reachable.cmd gC9a (Command.drawClosed "s1") gC9b hra (by decide)
  have hrc : Reachable gC9c :=
    Reachable.cmd gC9b (Command.openRun "s1" ["s3", "s4", "s5"]) gC9c hrb (by decide)
  c9_addToRun_preconditions gC9c hrc "s1" "s1" 0 ["s6"] gC9d (by decide)
